import Mathlib

/-! # Huffman compression: a shallow embedding of `HuffmanAlgorithm.cpp`

The development embeds the core of the repository (`HuffmanNode.cpp`,
`HuffmanAlgorithm.cpp`), its command line (`CommandLineOptions.cpp`,
`HuffmanException.cpp`) and the statistics of `ArchiveStructures.cpp` as Lean
functions and proves properties of them.

Modelling conventions.

* A C++ `char` is its integer value (`CChar`); a `std::string` is a list of
  them.  The characters `'0'` and `'1'` are the values 48 and 49.
* `std::map<char, V>` is the list of its entries in ascending key order.
* `HuffmanNode*` is the inductive type `HuffmanNodePtr`: the null pointer or a
  node with its four fields.  Dereferencing the null pointer has no defined
  result, so the functions that may do it return an `Option`.
* An `int` is a 32-bit two's complement integer.  Signed overflow is undefined
  in C++; the model gives an `int` addition the result that the compiled code
  has on the usual targets, the sum wrapped into the range from `-2^31` to
  `2^31 - 1` (`wrapInt`).  A `size_t` is 64 bits wide and its arithmetic is
  modulo `2^64`.
* `std::priority_queue` is its container (a list) with the heap algorithms
  `push_heap` and `pop_heap` taken as parameters that satisfy the contract of
  the C++ standard.
* A thrown `HuffmanException` is the error of an `Except`.
* The `double` fields of the statistics are not embedded; the entropy bound is
  stated in exact arithmetic on the counts and the code lengths.
-/

namespace Huffman

/-- The integer value of a C++ `char`. -/
abbrev CChar := Int

/-- The character `'0'`. -/
def chr0 : CChar := 48

/-- The character `'1'`. -/
def chr1 : CChar := 49

/-- The characters of a string literal as C++ `char` values. -/
def ofString (s : String) : List CChar := s.toList.map (fun c => (c.toNat : Int))

/-- The value of type `int` that an integer result takes: the 32-bit two's
complement value, wrapped around past `INT_MAX` and `INT_MIN`. -/
def wrapInt (x : Int) : Int := (x + 2147483648) % 4294967296 - 2147483648

/-! ## Bit packing (`HuffmanAlgorithm.cpp`, lines 10-68) -/

/-- The loop of `packBitsIntoByte`: `i` is the loop counter, `byte` the
accumulator, and the first argument bounds the number of iterations left. -/
def packBitsIntoByteLoop (bits : List Int) (startPos : Nat) : Nat → Nat → Nat → Nat
  | 0, _, byte => byte
  | fuel + 1, i, byte =>
    if i < 8 ∧ startPos + i < bits.length then
      packBitsIntoByteLoop bits startPos fuel (i + 1)
        (if bits.getD (startPos + i) 0 = 1 then byte ||| (1 <<< (7 - i)) else byte)
    else byte

/-- The function `packBitsIntoByte`: packs up to 8 bits starting at `startPos`,
most significant bit first. -/
def packBitsIntoByte (bits : List Int) (startPos : Nat) : Nat :=
  packBitsIntoByteLoop bits startPos 8 0 0

/-- The second loop of `stringToBinaryData`: `i` runs over `0, 8, 16, ...`
while `i < bits.size()`. -/
def stringToBinaryDataLoop (bits : List Int) : Nat → Nat → List Nat → List Nat
  | 0, _, binaryData => binaryData
  | fuel + 1, i, binaryData =>
    if i < bits.length then
      stringToBinaryDataLoop bits fuel (i + 8) (binaryData ++ [packBitsIntoByte bits i])
    else binaryData

/-- The function `stringToBinaryData`: each character `c` becomes the integer
`c - '0'`, and the integers are packed eight to a byte. -/
def stringToBinaryData (bitString : List CChar) : List Nat :=
  let bits : List Int := bitString.map (fun c => c - chr0)
  stringToBinaryDataLoop bits bits.length 0 []

/-- The inner loop of `binaryDataToString` for one byte: the counter `i` runs
from 7 down to 0 (the first argument is `i + 1`); the state is the pair
`(bitString, bitCount)`. -/
def binaryDataToStringByte (byte totalValidBits : Nat) :
    Nat → List CChar × Nat → List CChar × Nat
  | 0, st => st
  | i + 1, (bitString, bitCount) =>
    if bitCount ≥ totalValidBits then (bitString, bitCount)
    else
      binaryDataToStringByte byte totalValidBits i
        (bitString ++ [if byte &&& (1 <<< i) ≠ 0 then chr1 else chr0], bitCount + 1)

/-- The outer loop of `binaryDataToString` over the bytes. -/
def binaryDataToStringLoop (totalValidBits : Nat) :
    List Nat → List CChar × Nat → List CChar
  | [], st => st.1
  | byte :: rest, st =>
    let st1 := binaryDataToStringByte byte totalValidBits 8 st
    if st1.2 ≥ totalValidBits then st1.1
    else binaryDataToStringLoop totalValidBits rest st1

/-- The function `binaryDataToString`. -/
def binaryDataToString (binaryData : List Nat) (totalValidBits : Nat) : List CChar :=
  binaryDataToStringLoop totalValidBits binaryData ([], 0)

/-- The characters the inner loop of `binaryDataToString` emits for the bit
positions `k - 1, ..., 0` of `byte` when it is not cut short. -/
def byteChars (byte : Nat) : Nat → List CChar
  | 0 => []
  | i + 1 => (if byte &&& (1 <<< i) ≠ 0 then chr1 else chr0) :: byteChars byte i

/-- A string made of the characters `'0'` and `'1'` only. -/
def IsBitString (s : List CChar) : Prop := ∀ c ∈ s, c = chr0 ∨ c = chr1

instance isBitStringDecidable : DecidablePred IsBitString := fun s =>
  inferInstanceAs (Decidable (∀ c ∈ s, c = chr0 ∨ c = chr1))

/-- The padding count `encodeFiles` writes: `(8 - (totalBits % 8)) % 8`. -/
def paddingBits (totalBits : Nat) : Nat := (8 - (totalBits % 8)) % 8

/-- The valid-bit count `decodeArchive` computes from the payload size and the
stored padding count: `binaryData.size() * 8 - paddingBits`.  The operands are
`size_t`, so a padding count above the bit count wraps modulo `2^64`. -/
def validBits (dataSize padding : Nat) : Nat :=
  if padding ≤ dataSize * 8 then dataSize * 8 - padding
  else (dataSize * 8 + 2 ^ 64 - padding) % 2 ^ 64

/-! ## `std::map<char, V>` -/

/-- The type `std::map<char, V>`: the entries in ascending key order. -/
abbrev CMap (V : Type) := List (CChar × V)

/-- The invariant of `std::map`: keys strictly ascending. -/
def IsMap {V : Type} (m : CMap V) : Prop := (m.map Prod.fst).Pairwise (· < ·)

instance isMapDecidable {V : Type} : DecidablePred (IsMap (V := V)) := fun m =>
  inferInstanceAs (Decidable ((m.map Prod.fst).Pairwise (· < ·)))

/-- The lookup `m.find(k)`: the value stored under `k`, if any. -/
def mapFind {V : Type} : CMap V → CChar → Option V
  | [], _ => none
  | (k', v) :: rest, k => if k = k' then some v else mapFind rest k

/-- The assignment `m[k] = v`: overwrites the entry of `k` or inserts one at
the place of `k` in key order. -/
def mapSet {V : Type} : CMap V → CChar → V → CMap V
  | [], k, v => [(k, v)]
  | (k', v') :: rest, k, v =>
    if k < k' then (k, v) :: (k', v') :: rest
    else if k = k' then (k, v) :: rest
    else (k', v') :: mapSet rest k v

/-- The read access `m[k]`: inserts the default value `d` when `k` has no
entry, and returns the value with the map. -/
def mapIndex {V : Type} (m : CMap V) (k : CChar) (d : V) : V × CMap V :=
  match mapFind m k with
  | some v => (v, m)
  | none => (d, mapSet m k d)

/-! ## `HuffmanNode` (`HuffmanNode.cpp`) -/

/-- A value of type `HuffmanNode*`: the null pointer, or a node with its fields
`character`, `frequency`, `left` and `right`. -/
inductive HuffmanNodePtr where
  | nullptr : HuffmanNodePtr
  | node (character : CChar) (frequency : Int) (left right : HuffmanNodePtr) : HuffmanNodePtr
  deriving DecidableEq, Repr

namespace HuffmanNodePtr

/-- The test `p == nullptr`. -/
def isNull : HuffmanNodePtr → Bool
  | nullptr => true
  | node _ _ _ _ => false

/-- The method `HuffmanNode::isLeaf`: `left == nullptr && right == nullptr`.
Every call in the source is guarded by a null check of the receiver; the model
answers `false` on the null pointer. -/
def isLeaf : HuffmanNodePtr → Bool
  | node _ _ l r => l.isNull && r.isNull
  | nullptr => false

/-- The method `HuffmanNode::getFrequency`.  The comparator calls it on the
elements of the queue, which are never null; the model answers 0 on the null
pointer. -/
def getFrequency : HuffmanNodePtr → Int
  | node _ f _ _ => f
  | nullptr => 0

/-- The method `HuffmanNode::getCharacter`; no result on the null pointer. -/
def getCharacter : HuffmanNodePtr → Option CChar
  | node c _ _ _ => some c
  | nullptr => none

/-- The method `HuffmanNode::getLeft`; no result on the null pointer. -/
def getLeft : HuffmanNodePtr → Option HuffmanNodePtr
  | node _ _ l _ => some l
  | nullptr => none

/-- The method `HuffmanNode::getRight`; no result on the null pointer. -/
def getRight : HuffmanNodePtr → Option HuffmanNodePtr
  | node _ _ _ r => some r
  | nullptr => none

end HuffmanNodePtr

open HuffmanNodePtr

/-- The comparator `NodeComparator::operator()`:
`a->getFrequency() > b->getFrequency()`. -/
def NodeComparator (a b : HuffmanNodePtr) : Bool :=
  decide (a.getFrequency > b.getFrequency)

/-! ## `std::priority_queue<HuffmanNode*, std::vector<HuffmanNode*>, NodeComparator>`

The C++ standard defines the queue by its container `c`: `top()` is
`c.front()`, `push(x)` is `c.push_back(x)` followed by `push_heap`, and `pop()`
is `pop_heap` followed by `c.pop_back()`.  The two heap algorithms are
parameters; `HeapAlgorithms.Lawful` is their contract in the standard. -/

/-- The heap algorithms `std::push_heap` and `std::pop_heap` on the whole
container, with `NodeComparator` as the order. -/
structure HeapAlgorithms where
  /-- The algorithm `std::push_heap(c.begin(), c.end(), comp)`. -/
  push_heap : List HuffmanNodePtr → List HuffmanNodePtr
  /-- The algorithm `std::pop_heap(c.begin(), c.end(), comp)`. -/
  pop_heap : List HuffmanNodePtr → List HuffmanNodePtr

/-- The predicate `std::is_heap` for `NodeComparator`: no element compares
below its parent, the parent of position `i` being position `(i - 1) / 2`. -/
def IsHeap (c : List HuffmanNodePtr) : Prop :=
  ∀ i, 0 < i → i < c.length →
    NodeComparator (c.getD ((i - 1) / 2) nullptr) (c.getD i nullptr) = false

/-- The contract of the heap algorithms in the C++ standard.  `push_heap`
expects a heap followed by one more element and rearranges the whole range into
a heap.  `pop_heap` expects a non-empty heap, moves its first element to the
last position and rearranges the others into a heap. -/
structure HeapAlgorithms.Lawful (H : HeapAlgorithms) : Prop where
  push_heap_perm : ∀ c, IsHeap c.dropLast → (H.push_heap c).Perm c
  push_heap_isHeap : ∀ c, IsHeap c.dropLast → IsHeap (H.push_heap c)
  pop_heap_perm : ∀ c, c ≠ [] → IsHeap c → (H.pop_heap c).Perm c
  pop_heap_last : ∀ c, c ≠ [] → IsHeap c → (H.pop_heap c).getLast? = c.head?
  pop_heap_isHeap : ∀ c, c ≠ [] → IsHeap c → IsHeap (H.pop_heap c).dropLast

/-- The call `pq.push(x)`. -/
def pqPush (H : HeapAlgorithms) (pq : List HuffmanNodePtr) (x : HuffmanNodePtr) :
    List HuffmanNodePtr :=
  H.push_heap (pq ++ [x])

/-- The call `pq.top()`; no result on an empty queue. -/
def pqTop (pq : List HuffmanNodePtr) : Option HuffmanNodePtr := pq.head?

/-- The call `pq.pop()`; no result on an empty queue. -/
def pqPop (H : HeapAlgorithms) (pq : List HuffmanNodePtr) : Option (List HuffmanNodePtr) :=
  match pq with
  | [] => none
  | _ :: _ => some (H.pop_heap pq).dropLast

/-- The order of ascending frequency, used by the reference heap algorithms. -/
def freqLe (a b : HuffmanNodePtr) : Prop := a.getFrequency ≤ b.getFrequency

instance freqLeDecidable : DecidableRel freqLe := fun a b =>
  inferInstanceAs (Decidable (a.getFrequency ≤ b.getFrequency))

instance freqLe_isTotal : IsTotal HuffmanNodePtr freqLe :=
  ⟨fun a b => le_total a.getFrequency b.getFrequency⟩

instance freqLe_isTrans : IsTrans HuffmanNodePtr freqLe :=
  ⟨fun _ _ _ h1 h2 => le_trans h1 h2⟩

/-- A reference implementation of the heap algorithms: it sorts the range by
ascending frequency (a sorted range is a heap), elements of equal frequency
keeping their order. -/
def sortingHeap : HeapAlgorithms where
  push_heap := fun c => List.insertionSort freqLe c
  pop_heap := fun c =>
    match c with
    | [] => []
    | x :: rest => List.insertionSort freqLe rest ++ [x]

/-! ## The algorithm (`HuffmanAlgorithm.cpp`, lines 70-271) -/

/-- The function `buildFrequencyTable`: `frequencies[ch]++` for every character
(the access inserts a zero count for a new key); the counts are of type
`int`. -/
def buildFrequencyTable (text : List CChar) : CMap Int :=
  text.foldl (fun frequencies ch =>
    mapSet frequencies ch (wrapInt ((mapFind frequencies ch).getD 0 + 1))) []

/-- One iteration of the merging loop of `buildHuffmanTree`: extract `left`,
then `right`, and push the internal node `HuffmanNode(0, sum)` with these two
children; the sum is an `int`.  No result when the queue runs empty or yields
a null pointer. -/
def mergeStep (H : HeapAlgorithms) (pq : List HuffmanNodePtr) : Option (List HuffmanNodePtr) := do
  let left ← pqTop pq
  let pq1 ← pqPop H pq
  let right ← pqTop pq1
  let pq2 ← pqPop H pq1
  match left, right with
  | node _ fl _ _, node _ fr _ _ =>
    some (pqPush H pq2 (node 0 (wrapInt (fl + fr)) left right))
  | _, _ => none

/-- The loop `while (pq.size() > 1)` of `buildHuffmanTree`, bounded by a
number of iterations; no result when the bound is exhausted. -/
def mergeLoop (H : HeapAlgorithms) : Nat → List HuffmanNodePtr → Option (List HuffmanNodePtr)
  | 0, pq => if pq.length > 1 then none else some pq
  | fuel + 1, pq => if pq.length > 1 then (mergeStep H pq).bind (mergeLoop H fuel) else some pq

/-- The first loop of `buildHuffmanTree`: a leaf for every entry of the table,
pushed in ascending key order. -/
def pushLeaves (H : HeapAlgorithms) (frequencies : CMap Int) : List HuffmanNodePtr :=
  frequencies.foldl (fun pq pair => pqPush H pq (node pair.1 pair.2 nullptr nullptr)) []

/-- The function `buildHuffmanTree`.  The merging loop gets as many iterations
as the table has entries, which is more than it needs. -/
def buildHuffmanTree (H : HeapAlgorithms) (frequencies : CMap Int) : Option HuffmanNodePtr :=
  (mergeLoop H frequencies.length (pushLeaves H frequencies)).map
    (fun pq => match pqTop pq with
      | none => nullptr
      | some root => root)

/-- The function `generateCodes`; the third argument is the output map. -/
def generateCodes : HuffmanNodePtr → List CChar → CMap (List CChar) → CMap (List CChar)
  | nullptr, _, codes => codes
  | node ch f l r, code, codes =>
    if (node ch f l r).isLeaf then
      mapSet codes ch (if code.isEmpty then [chr0] else code)
    else
      generateCodes r (code ++ [chr1]) (generateCodes l (code ++ [chr0]) codes)

/-- The function `encodeText`: characters without a code are skipped. -/
def encodeText (text : List CChar) (codes : CMap (List CChar)) : List CChar :=
  text.foldl (fun encoded ch =>
    match mapFind codes ch with
    | some code => encoded ++ code
    | none => encoded) []

/-- The body of the loop of `decodeText` for one character `bit`; the state is
`(current, decoded)`.  No result when `current` is null and must be
dereferenced. -/
def decodeStep (root : HuffmanNodePtr) (st : HuffmanNodePtr × List CChar) (bit : CChar) :
    Option (HuffmanNodePtr × List CChar) := do
  let current ←
    if bit = chr0 then st.1.getLeft
    else if bit = chr1 then st.1.getRight
    else some st.1
  match current with
  | nullptr => some (current, st.2)
  | node ch _ _ _ =>
    if current.isLeaf then some (root, st.2 ++ [ch]) else some (current, st.2)

/-- The loop of `decodeText` over the characters of the encoded text. -/
def decodeLoop (root : HuffmanNodePtr) :
    List CChar → HuffmanNodePtr × List CChar → Option (List CChar)
  | [], st => some st.2
  | bit :: rest, st => (decodeStep root st bit).bind (decodeLoop root rest)

/-- The function `decodeText`. -/
def decodeText (encodedText : List CChar) (root : HuffmanNodePtr) : Option (List CChar) :=
  if root.isNull then some [] else decodeLoop root encodedText (root, [])

/-- The fields of `CompressionStatistics` that are not floating-point. -/
structure CompressionStatistics where
  frequencies : CMap Int
  huffmanCodes : CMap (List CChar)
  codeLengths : CMap Int
  totalOriginalSize : Nat
  totalCompressedSize : Nat
  deriving DecidableEq, Repr

/-- The loop of `generateCompressionStatistics` that sums
`freq * stats.huffmanCodes[ch].length()` over the frequency table; the state is
`(huffmanCodes, compressedBits)`, the access `huffmanCodes[ch]` inserting an
empty code for a key without one.  The product and the sum are of type
`size_t`: the `int` count is converted to its value modulo `2^64`, and the
arithmetic is modulo `2^64`. -/
def compressedBitsLoop (frequencies : CMap Int) (st : CMap (List CChar) × Nat) :
    CMap (List CChar) × Nat :=
  frequencies.foldl (fun st pair =>
    let r := mapIndex st.1 pair.1 []
    (r.2, (st.2 + (pair.2 % 2 ^ 64).toNat * r.1.length) % 2 ^ 64)) st

/-- The function `generateCompressionStatistics`, without the floating-point
fields.  The loop for `huffmanAverage` makes the same accesses
`huffmanCodes[ch]` as the loop for the compressed size. -/
def generateCompressionStatistics (H : HeapAlgorithms) (text : List CChar) :
    Option CompressionStatistics := do
  let frequencies := buildFrequencyTable text
  let tree ← buildHuffmanTree H frequencies
  let huffmanCodes := generateCodes tree [] []
  let codeLengths : CMap Int :=
    huffmanCodes.foldl (fun m pair => mapSet m pair.1 (wrapInt (pair.2.length : Int))) []
  let st := compressedBitsLoop frequencies (huffmanCodes, 0)
  let st2 := compressedBitsLoop frequencies (st.1, 0)
  pure
    { frequencies := frequencies
      huffmanCodes := st2.1
      codeLengths := codeLengths
      totalOriginalSize := text.length
      totalCompressedSize := (st.2 + 7) % 2 ^ 64 / 8 }

/-- The function `compressText`: the returned bit string with the two output
parameters `outTree` and `outStats`. -/
def compressText (H : HeapAlgorithms) (text : List CChar) :
    Option (List CChar × HuffmanNodePtr × CompressionStatistics) := do
  let outStats ← generateCompressionStatistics H text
  let outTree ← buildHuffmanTree H outStats.frequencies
  pure (encodeText text outStats.huffmanCodes, outTree, outStats)

/-- The function `decompressText`. -/
def decompressText (encodedText : List CChar) (tree : HuffmanNodePtr) : Option (List CChar) :=
  decodeText encodedText tree

/-! ## Specification vocabulary -/

/-- A well-formed tree: a non-null pointer to a leaf (both children null) or to
a node whose two children are well-formed trees. -/
inductive IsTree : HuffmanNodePtr → Prop where
  | leaf (c : CChar) (f : Int) : IsTree (node c f nullptr nullptr)
  | inner (c : CChar) (f : Int) (l r : HuffmanNodePtr) :
      IsTree l → IsTree r → IsTree (node c f l r)

/-- The leaf that `buildHuffmanTree` allocates for an entry of the table. -/
def leafOf (pair : CChar × Int) : HuffmanNodePtr := node pair.1 pair.2 nullptr nullptr

/-- The `(character, frequency)` pairs at the leaves, left to right. -/
def leafEntries : HuffmanNodePtr → List (CChar × Int)
  | nullptr => []
  | node c f l r =>
    if (node c f l r).isLeaf then [(c, f)] else leafEntries l ++ leafEntries r

/-- The characters at the leaves, left to right. -/
def leafChars (t : HuffmanNodePtr) : List CChar := (leafEntries t).map Prod.fst

/-- The path from the root to a leaf that carries `c`, written with `'0'` for
left and `'1'` for right; the right subtree is searched first, as the later
write of `generateCodes` wins. -/
def codePath : HuffmanNodePtr → CChar → Option (List CChar)
  | nullptr, _ => none
  | node ch f l r, c =>
    if (node ch f l r).isLeaf then (if ch = c then some [] else none)
    else
      match codePath r c with
      | some p => some (chr1 :: p)
      | none => (codePath l c).map (fun p => chr0 :: p)

/-- The greedy merging of a forest `F` into one tree `t`, as a relation: while
more than one tree is left, a tree `l` of least frequency and then a tree `r` of
least frequency among the others are replaced by the node
`HuffmanNode(0, sum)` with children `l` and `r`.  The order inside the forest
is immaterial, and ties may be broken either way. -/
inductive Merges : List HuffmanNodePtr → HuffmanNodePtr → Prop where
  | done (t : HuffmanNodePtr) : Merges [t] t
  | step (F rest : List HuffmanNodePtr) (l r t : HuffmanNodePtr) :
      F.Perm (l :: r :: rest) →
      (∀ y ∈ F, l.getFrequency ≤ y.getFrequency) →
      (∀ y ∈ rest, r.getFrequency ≤ y.getFrequency) →
      Merges (node 0 (wrapInt (l.getFrequency + r.getFrequency)) l r :: rest) t →
      Merges F t

/-- A code table is prefix-free when the code of no symbol is a prefix of the
code of another symbol. -/
def PrefixFree (codes : CMap (List CChar)) : Prop :=
  ∀ a b ca cb, a ≠ b → mapFind codes a = some ca → mapFind codes b = some cb → ¬ ca <+: cb

/-- The loop of `decodeArchive` that reads the stored frequency table back:
`frequencies[ch] = freq` for every stored pair.  The pairs are those that
`encodeFiles` wrote, the entries of the table in key order. -/
def readFrequencyTable (entries : List (CChar × Int)) : CMap Int :=
  entries.foldl (fun frequencies e => mapSet frequencies e.1 e.2) []

/-! ## Vocabulary for optimality -/

/-- The sum of the frequencies at the leaves of a tree. -/
def weight (t : HuffmanNodePtr) : Int := ((leafEntries t).map Prod.snd).sum

/-- The weighted path length of a tree: the sum over its leaves of frequency
times depth, computed as the sum of the weights of the subtrees below inner
nodes. -/
def treeCost : HuffmanNodePtr → Int
  | nullptr => 0
  | node c f l r =>
    if (node c f l r).isLeaf then 0 else treeCost l + treeCost r + weight l + weight r

/-- The length of the code of `c` in a code table (0 without an entry). -/
def codeLength (codes : CMap (List CChar)) (c : CChar) : Nat :=
  ((mapFind codes c).getD []).length

/-- The total weighted length of a code for a frequency table: the sum over
the entries of count times code length. -/
def weightedLength (frequencies : CMap Int) (len : CChar → Nat) : Int :=
  (frequencies.map (fun e => e.2 * (len e.1 : Int))).sum

/-- The shape of a full binary tree. -/
inductive Shape where
  | leaf : Shape
  | node (l r : Shape) : Shape

/-- The depths of the leaves of a shape, left to right, the root being at depth
`k`. -/
def depthsFrom : Nat → Shape → List Nat
  | k, Shape.leaf => [k]
  | k, Shape.node l r => depthsFrom (k + 1) l ++ depthsFrom (k + 1) r

/-- The height of a shape. -/
def Shape.height : Shape → Nat
  | Shape.leaf => 0
  | Shape.node l r => max l.height r.height + 1

/-- The weighted path length of the weights `ws` placed at depths `ds`. -/
def dot (ws : List Int) (ds : List Nat) : Int :=
  (List.zipWith (fun (w : Int) (d : Nat) => w * (d : Int)) ws ds).sum

/-! ## Leaves and their paths -/

/-- The path `p` leads from `t` to a leaf that carries `c`: `'0'` is a step to
the left child, `'1'` a step to the right child; the length of `p` is the depth
of the leaf. -/
inductive LeafAt : HuffmanNodePtr → List CChar → CChar → Prop where
  | here (c : CChar) (f : Int) : LeafAt (node c f nullptr nullptr) [] c
  | left (ch : CChar) (f : Int) (l r : HuffmanNodePtr) (p : List CChar) (c : CChar) :
      LeafAt l p c → LeafAt (node ch f l r) (chr0 :: p) c
  | right (ch : CChar) (f : Int) (l r : HuffmanNodePtr) (p : List CChar) (c : CChar) :
      LeafAt r p c → LeafAt (node ch f l r) (chr1 :: p) c

/-! ## The value of a packed byte -/

/-- The value that byte `k` of the packed data has by the specification: the
sum over `j` in `0..7` with `8k + j < L` of `bit(s[8k+j]) * 2^(7-j)`, the bit of
a character being 1 for `'1'` and 0 otherwise. -/
def packedByteValue (s : List CChar) (k : Nat) : Nat :=
  ((List.range 8).map (fun j =>
    if 8 * k + j < s.length ∧ s.getD (8 * k + j) chr0 = chr1 then 2 ^ (7 - j) else 0)).sum

/-! ## The entry point `encodeFiles` (`HuffmanAlgorithm.cpp`, lines 273-403)

The files are explicit state: a `FileSystem` tells which input files open and
with what content, and whether the output file can be created.  An archive is
the sequence of the fields written to the output file; the floating-point
statistics and the byte layout of the fields are left out. -/

/-- The enumeration `OperationMode`. -/
inductive OperationMode where
  | None : OperationMode
  | Encode : OperationMode
  | Decode : OperationMode
  | Info : OperationMode
  deriving DecidableEq, Repr

/-- The fields of the class `CommandLineOptions`. -/
structure CommandLineOptions where
  mode : OperationMode
  recursive : Bool
  verbose : Bool
  outputFile : List CChar
  inputFiles : List (List CChar)
  deriving DecidableEq, Repr

/-- The files as `encodeFiles` sees them. -/
structure FileSystem where
  /-- The content of an input file that opens, `none` for one that does not. -/
  readFile : List CChar → Option (List CChar)
  /-- Whether the output file of this name can be created. -/
  canCreate : List CChar → Bool

/-- The fields that `encodeFiles` writes to the archive, in their order. -/
structure Archive where
  fileInfo : List (List CChar × Nat)
  originalSize : Nat
  frequencies : List (CChar × Int)
  totalOriginalSize : Nat
  totalCompressedSize : Nat
  paddingBits : Nat
  binaryData : List Nat
  deriving DecidableEq, Repr

/-- The error messages of `encodeFiles` on `std::cerr`. -/
inductive EncodeMessage where
  | couldNotOpenFile (inputFile : List CChar) : EncodeMessage
  | noContentToCompress : EncodeMessage
  | couldNotCreateOutputFile (outputFile : List CChar) : EncodeMessage
  deriving DecidableEq, Repr

/-- What a run of `encodeFiles` does: the value it returns, the error message
it prints, the text it passes to `compressText` when it makes the call, and the
archive it writes. -/
structure EncodeOutcome where
  returned : Bool
  message : Option EncodeMessage
  compressedText : Option (List CChar)
  archive : Option Archive
  deriving DecidableEq, Repr

/-- The file name without its path: the part after the last `'/'` or `'\\'`
(`find_last_of` and `substr` in the source). -/
def fileNameOf (inputFile : List CChar) : List CChar :=
  (inputFile.reverse.takeWhile (fun c => decide (c ≠ 47 ∧ c ≠ 92))).reverse

/-- The loop of `encodeFiles` over the input files; the state is
`(allText, fileInfo)`, and the loop ends at the first file that does not
open. -/
def readInputFiles (fs : FileSystem) :
    List (List CChar) → List CChar × List (List CChar × Nat) →
      Except (List CChar) (List CChar × List (List CChar × Nat))
  | [], st => Except.ok st
  | inputFile :: rest, st =>
    match fs.readFile inputFile with
    | none => Except.error inputFile
    | some fileContent =>
      readInputFiles fs rest
        (st.1 ++ fileContent, st.2 ++ [(fileNameOf inputFile, fileContent.length)])

/-- The function `encodeFiles`.  No outcome when `compressText` has no result. -/
def encodeFiles (H : HeapAlgorithms) (fs : FileSystem) (options : CommandLineOptions) :
    Option EncodeOutcome :=
  match readInputFiles fs options.inputFiles ([], []) with
  | Except.error inputFile =>
    some { returned := false, message := some (EncodeMessage.couldNotOpenFile inputFile),
           compressedText := none, archive := none }
  | Except.ok (allText, fileInfo) =>
    if allText.isEmpty then
      some { returned := false, message := some EncodeMessage.noContentToCompress,
             compressedText := none, archive := none }
    else
      match compressText H allText with
      | none => none
      | some (compressed, _, stats) =>
        if fs.canCreate options.outputFile then
          let binaryData := stringToBinaryData compressed
          some { returned := true, message := none, compressedText := some allText,
                 archive := some
                   { fileInfo := fileInfo
                     originalSize := allText.length
                     frequencies := stats.frequencies
                     totalOriginalSize := stats.totalOriginalSize
                     totalCompressedSize := binaryData.length
                     paddingBits := paddingBits compressed.length
                     binaryData := binaryData } }
        else
          some { returned := false,
                 message := some (EncodeMessage.couldNotCreateOutputFile options.outputFile),
                 compressedText := some allText, archive := none }

/-! ## Vocabulary for the invariants of the built tree -/

/-- The nodes of a tree: the node the pointer refers to, then the nodes of its
left and of its right subtree. -/
def nodes : HuffmanNodePtr → List HuffmanNodePtr
  | nullptr => []
  | node c f l r => node c f l r :: (nodes l ++ nodes r)

/-- The number of children of a node: its child pointers that are not null. -/
def childCount : HuffmanNodePtr → Nat
  | nullptr => 0
  | node _ _ l r => (if l.isNull then 0 else 1) + (if r.isNull then 0 else 1)

/-- A merge node, as the loop of `buildHuffmanTree` allocates it: the node
`HuffmanNode('\0', left->getFrequency() + right->getFrequency())` with the two
extracted nodes set as its children. -/
def isMergeNode : HuffmanNodePtr → Bool
  | nullptr => false
  | node c f l r =>
    !l.isNull && !r.isNull && decide (c = 0) &&
      decide (f = wrapInt (l.getFrequency + r.getFrequency))

/-- The queues at the head of the loop of `buildHuffmanTree`: the queue after
the leaves are pushed, and the queue after an iteration made from such a
queue of more than one node. -/
inductive QueueAt (H : HeapAlgorithms) (frequencies : CMap Int) :
    List HuffmanNodePtr → Prop where
  | start : QueueAt H frequencies (pushLeaves H frequencies)
  | next (pq pq1 : List HuffmanNodePtr) :
      QueueAt H frequencies pq → pq.length > 1 → mergeStep H pq = some pq1 →
      QueueAt H frequencies pq1

/-! ## The command line (`CommandLineOptions.cpp`) and `HuffmanException` -/

/-- The enumeration `HuffmanErrorCode`. -/
inductive HuffmanErrorCode where
  | Unknown : HuffmanErrorCode
  | MissingArgument : HuffmanErrorCode
  | MissingOutputFile : HuffmanErrorCode
  | UnknownOption : HuffmanErrorCode
  | InvalidMode : HuffmanErrorCode
  | FileError : HuffmanErrorCode
  | CompressionError : HuffmanErrorCode
  | ArchiveFormatError : HuffmanErrorCode
  deriving DecidableEq, Repr

/-- The fields of the class `HuffmanException`. -/
structure HuffmanException where
  message : List CChar
  errorCode : HuffmanErrorCode
  deriving DecidableEq, Repr

/-- The accessor `getErrorCode`. -/
def HuffmanException.getErrorCode (e : HuffmanException) : HuffmanErrorCode := e.errorCode

/-- The factory `HuffmanException::missingArgument`. -/
def HuffmanException.missingArgument (flag : List CChar) : HuffmanException :=
  { message := ofString "Error: " ++ flag ++ ofString " requires an argument"
    errorCode := HuffmanErrorCode.MissingArgument }

/-- The factory `HuffmanException::missingOutputFile`. -/
def HuffmanException.missingOutputFile : HuffmanException :=
  { message := ofString "Error: Output file (-o) is required for encoding operations"
    errorCode := HuffmanErrorCode.MissingOutputFile }

/-- The factory `HuffmanException::unknownOption`. -/
def HuffmanException.unknownOption (option : List CChar) : HuffmanException :=
  { message := ofString "Error: Unknown option '" ++ option ++ ofString "'"
    errorCode := HuffmanErrorCode.UnknownOption }

/-- The factory `HuffmanException::invalidMode`. -/
def HuffmanException.invalidMode (message : List CChar) : HuffmanException :=
  { message := ofString "Error: Invalid operation mode - " ++ message
    errorCode := HuffmanErrorCode.InvalidMode }

/-- The loop of `parseCommandLine` from the argument at index `i` on: the first
parameter lists `argv[i]`, ..., `argv[argc - 1]`, the second is the object. -/
def parseLoop : List (List CChar) → CommandLineOptions →
    Except HuffmanException CommandLineOptions
  | [], o => Except.ok o
  | arg :: rest, o =>
    if arg = ofString "-e" ∨ arg = ofString "--encode" then
      if o.mode ≠ OperationMode.None then
        Except.error (HuffmanException.invalidMode (ofString "Multiple operation modes specified"))
      else parseLoop rest { o with mode := OperationMode.Encode }
    else if arg = ofString "-d" ∨ arg = ofString "--decode" then
      if o.mode ≠ OperationMode.None then
        Except.error (HuffmanException.invalidMode (ofString "Multiple operation modes specified"))
      else parseLoop rest { o with mode := OperationMode.Decode }
    else if arg = ofString "-i" ∨ arg = ofString "--info" then
      if o.mode ≠ OperationMode.None then
        Except.error (HuffmanException.invalidMode (ofString "Multiple operation modes specified"))
      else parseLoop rest { o with mode := OperationMode.Info }
    else if arg = ofString "-r" ∨ arg = ofString "--recursive" then
      if o.recursive then
        Except.error (HuffmanException.invalidMode
          (ofString "Recursive flag (-r) specified multiple times"))
      else parseLoop rest { o with recursive := true }
    else if arg = ofString "-v" ∨ arg = ofString "--verbose" then
      if o.verbose then
        Except.error (HuffmanException.invalidMode
          (ofString "Verbose flag (-v) specified multiple times"))
      else parseLoop rest { o with verbose := true }
    else if arg = ofString "-o" ∨ arg = ofString "--output" then
      if !o.outputFile.isEmpty then
        Except.error (HuffmanException.invalidMode
          (ofString "Output file (-o) specified multiple times"))
      else
        match rest with
        | value :: rest1 => parseLoop rest1 { o with outputFile := value }
        | [] => Except.error (HuffmanException.missingArgument (ofString "-o"))
    else if arg.headD 0 ≠ 45 then
      parseLoop rest { o with inputFiles := o.inputFiles ++ [arg] }
    else Except.error (HuffmanException.unknownOption arg)

/-- The method `parseCommandLine` on the object `o`; `argv` lists `argv[0]`,
..., `argv[argc - 1]`, so that `argc` is its length. -/
def parseCommandLine (o : CommandLineOptions) (argv : List (List CChar)) :
    Except HuffmanException CommandLineOptions :=
  let o1 := { o with recursive := false, verbose := false, mode := OperationMode.None }
  if argv.length < 2 then
    Except.error (HuffmanException.invalidMode (ofString "No command line arguments provided"))
  else parseLoop (argv.drop 1) o1

/-- The method `validateOptions`, which leaves the object as it is. -/
def validateOptions (o : CommandLineOptions) : Except HuffmanException Unit :=
  if o.mode = OperationMode.None then
    Except.error (HuffmanException.invalidMode
      (ofString "No operation mode specified (use -e, -d, or -i)"))
  else if o.mode = OperationMode.Encode ∧ o.inputFiles.isEmpty then
    Except.error (HuffmanException.invalidMode (ofString "No input files specified for encoding"))
  else if o.mode = OperationMode.Encode ∧ o.outputFile.isEmpty then
    Except.error HuffmanException.missingOutputFile
  else if (o.mode = OperationMode.Decode ∨ o.mode = OperationMode.Info) ∧
      o.inputFiles.length ≠ 1 then
    Except.error (HuffmanException.invalidMode
      (ofString "Exactly one archive file required for decode/info operations"))
  else if o.recursive ∧ o.mode ≠ OperationMode.Encode then
    Except.error (HuffmanException.invalidMode
      (ofString "Recursive flag (-r) can only be used with encode (-e)"))
  else Except.ok ()

/-- The constructor of `CommandLineOptions`: the members `outputFile` and
`inputFiles` start empty, then `parseCommandLine` and `validateOptions` run.
An error stands for the `catch` branch, which prints the message and the usage
and ends the process with `EXIT_FAILURE`. -/
def CommandLineOptions.construct (argv : List (List CChar)) :
    Except HuffmanException CommandLineOptions :=
  match parseCommandLine { mode := OperationMode.None, recursive := false, verbose := false,
                           outputFile := [], inputFiles := [] } argv with
  | Except.error e => Except.error e
  | Except.ok o =>
    match validateOptions o with
    | Except.error e => Except.error e
    | Except.ok _ => Except.ok o

/-- The operation mode that an argument selects when it is one of the flags
`-e`/`--encode`, `-d`/`--decode`, `-i`/`--info`. -/
def modeOfFlag (arg : List CChar) : Option OperationMode :=
  if arg = ofString "-e" ∨ arg = ofString "--encode" then some OperationMode.Encode
  else if arg = ofString "-d" ∨ arg = ofString "--decode" then some OperationMode.Decode
  else if arg = ofString "-i" ∨ arg = ofString "--info" then some OperationMode.Info
  else none

/-! ## The entry point `decodeArchive` (`HuffmanAlgorithm.cpp`, lines 405-608)

The archive file is taken as the sequence of its fields, as `encodeFiles`
writes them; the reads of a file that ends early, the verbose printing and the
`mkdir` command are left out. -/

/-- The files as `decodeArchive` sees them. -/
structure ArchiveStore where
  /-- The fields of an archive file that opens, `none` for one that does not. -/
  readArchive : List CChar → Option Archive
  /-- Whether the output file of this path can be created. -/
  canCreate : List CChar → Bool

/-- The error messages of `decodeArchive` on `std::cerr`. -/
inductive DecodeMessage where
  | couldNotOpenArchive (inputFile : List CChar) : DecodeMessage
  | noCompressedDataFound : DecodeMessage
  | couldNotReconstructTree : DecodeMessage
  | notEnoughData (fileName : List CChar) : DecodeMessage
  | couldNotCreateOutputFile (fullPath : List CChar) : DecodeMessage
  deriving DecidableEq, Repr

/-- What a run of `decodeArchive` does: the value it returns, the error message
it prints, whether it prints the size warning, and the files it writes, each
with its path and content. -/
structure DecodeOutcome where
  returned : Bool
  message : Option DecodeMessage
  sizeWarning : Bool
  restored : List (List CChar × List CChar)
  deriving DecidableEq, Repr

/-- The loop of `decodeArchive` that restores the files; the state is
`(currentPos, files written)`, and `currentPos` is a `size_t`. -/
def restoreFiles (store : ArchiveStore) (outputDir allDecompressed : List CChar) :
    List (List CChar × Nat) → Nat × List (List CChar × List CChar) →
      Option DecodeMessage × List (List CChar × List CChar)
  | [], st => (none, st.2)
  | (fileName, fileSize) :: rest, st =>
    if (st.1 + fileSize) % 2 ^ 64 > allDecompressed.length then
      (some (DecodeMessage.notEnoughData fileName), st.2)
    else
      let fileContent := (allDecompressed.drop st.1).take fileSize
      let fullPath := outputDir ++ ofString "/" ++ fileName
      if store.canCreate fullPath then
        restoreFiles store outputDir allDecompressed rest
          ((st.1 + fileSize) % 2 ^ 64, st.2 ++ [(fullPath, fileContent)])
      else (some (DecodeMessage.couldNotCreateOutputFile fullPath), st.2)

/-- The function `decodeArchive`.  No outcome when there is no input file name
to index, or when `buildHuffmanTree` or `decompressText` has no result. -/
def decodeArchive (H : HeapAlgorithms) (store : ArchiveStore) (options : CommandLineOptions) :
    Option DecodeOutcome :=
  match options.inputFiles.head? with
  | none => none
  | some inputFile =>
    match store.readArchive inputFile with
    | none =>
      some { returned := false, message := some (DecodeMessage.couldNotOpenArchive inputFile),
             sizeWarning := false, restored := [] }
    | some archive =>
      if archive.binaryData.isEmpty then
        some { returned := false, message := some DecodeMessage.noCompressedDataFound,
               sizeWarning := false, restored := [] }
      else
        let totalBits := validBits archive.binaryData.length archive.paddingBits
        let compressedData := binaryDataToString archive.binaryData totalBits
        let frequencies := readFrequencyTable archive.frequencies
        match buildHuffmanTree H frequencies with
        | none => none
        | some tree =>
          if tree.isNull then
            some { returned := false, message := some DecodeMessage.couldNotReconstructTree,
                   sizeWarning := false, restored := [] }
          else
            match decompressText compressedData tree with
            | none => none
            | some allDecompressed =>
              let outputDir :=
                if options.outputFile.isEmpty then ofString "decompressed"
                else options.outputFile
              let r := restoreFiles store outputDir allDecompressed archive.fileInfo (0, [])
              some { returned := r.1.isNone, message := r.1,
                     sizeWarning := decide (allDecompressed.length ≠ archive.originalSize),
                     restored := r.2 }

/-! ## Serialization of the statistics (`ArchiveStructures.cpp`, lines 13-17 and 63-78) -/

/-- The default constructor of `CompressionStatistics`: empty tables and zero
sizes. -/
def CompressionStatistics.construct : CompressionStatistics :=
  { frequencies := [], huffmanCodes := [], codeLengths := [],
    totalOriginalSize := 0, totalCompressedSize := 0 }

/-- The method `serialize`: it returns the vector `result` as declared, which
is empty. -/
def CompressionStatistics.serialize (_stats : CompressionStatistics) : List Nat := []

/-- The function `deserialize`: it leaves `data` unused and returns the
default-constructed `stats`. -/
def CompressionStatistics.deserialize (_data : List Nat) : CompressionStatistics :=
  CompressionStatistics.construct

/-! ## The loops observed: iterations and intermediate states -/

/-- The number of iterations that the loop `while (pq.size() > 1)` of
`buildHuffmanTree` makes: `mergeLoop` with a counter in place of the queue it
returns. -/
def mergeCount (H : HeapAlgorithms) : Nat → List HuffmanNodePtr → Option Nat
  | 0, pq => if pq.length > 1 then none else some 0
  | fuel + 1, pq =>
    if pq.length > 1 then
      (mergeStep H pq).bind (fun pq1 => (mergeCount H fuel pq1).map (· + 1))
    else some 0

/-- The state `(current, decoded)` of the loop of `decodeText` after the
characters of `encodedText` are consumed; `decodeLoop` returns its second
component. -/
def decodeWalk (root : HuffmanNodePtr) :
    List CChar → HuffmanNodePtr × List CChar → Option (HuffmanNodePtr × List CChar)
  | [], st => some st
  | bit :: rest, st => (decodeStep root st bit).bind (decodeWalk root rest)

/-! ## Combining frequency tables -/

/-- The count of a key in the combination of two tables, from its counts in
the two: the sum, an absent key counting as 0, and no count when the key is
absent from both. -/
def sumCounts (a b : Option Int) : Option Int :=
  match a, b with
  | none, none => none
  | _, _ => some (a.getD 0 + b.getD 0)

/-- The combination of two frequency tables by summing the counts of matching
keys: every entry of the second table is added to the count of its key in the
first, a key without an entry counting as 0. -/
def combineTables (m1 m2 : CMap Int) : CMap Int :=
  m2.foldl (fun acc e => mapSet acc e.1 ((mapFind acc e.1).getD 0 + e.2)) m1

/-! # Theorems -/

/-! ## Bit packing -/

/-- Bit `p` of the result of the packing loop. -/
theorem packBitsIntoByteLoop_testBit (bits : List Int) (s : Nat) :
    ∀ (fuel i byte p : Nat), i + fuel = 8 →
      (packBitsIntoByteLoop bits s fuel i byte).testBit p =
        (byte.testBit p || decide (p < 8 ∧ i ≤ 7 - p ∧ s + (7 - p) < bits.length ∧
          bits.getD (s + (7 - p)) 0 = 1)) := by
  intro fuel
  induction fuel with
  | zero =>
    intro i byte p h
    have : ¬ (p < 8 ∧ i ≤ 7 - p ∧ s + (7 - p) < bits.length ∧ bits.getD (s + (7 - p)) 0 = 1) := by
      omega
    rw [decide_eq_false this]
    simp [packBitsIntoByteLoop]
  | succ fuel ih =>
    intro i byte p h
    unfold packBitsIntoByteLoop
    by_cases hc : i < 8 ∧ s + i < bits.length
    · rw [if_pos hc, ih (i + 1) _ p (by omega)]
      by_cases hb : bits.getD (s + i) 0 = 1
      · rw [if_pos hb, Nat.testBit_lor, Nat.one_shiftLeft, Nat.testBit_two_pow, Bool.or_assoc]
        congr 1
        rw [Bool.eq_iff_iff]
        simp only [Bool.or_eq_true, decide_eq_true_eq]
        constructor
        · rintro (hp | ⟨a, b, c, d⟩)
          · have e : 7 - p = i := by omega
            rw [e]
            exact ⟨by omega, le_refl _, hc.2, hb⟩
          · exact ⟨a, by omega, c, d⟩
        · rintro ⟨a, b, c, d⟩
          by_cases hp : 7 - i = p
          · exact Or.inl hp
          · exact Or.inr ⟨a, by omega, c, d⟩
      · rw [if_neg hb]
        congr 1
        rw [Bool.eq_iff_iff]
        simp only [decide_eq_true_eq]
        constructor
        · rintro ⟨a, b, c, d⟩; exact ⟨a, by omega, c, d⟩
        · rintro ⟨a, b, c, d⟩
          refine ⟨a, ?_, c, d⟩
          by_contra hh
          have e : 7 - p = i := by omega
          rw [e] at d
          exact hb d
    · rw [if_neg hc]
      have : ¬ (p < 8 ∧ i ≤ 7 - p ∧ s + (7 - p) < bits.length ∧ bits.getD (s + (7 - p)) 0 = 1) := by
        rintro ⟨a, b, c, d⟩
        exact hc (by omega)
      rw [decide_eq_false this, Bool.or_false]

theorem packBitsIntoByte_testBit (bits : List Int) (s p : Nat) :
    (packBitsIntoByte bits s).testBit p =
      decide (p < 8 ∧ s + (7 - p) < bits.length ∧ bits.getD (s + (7 - p)) 0 = 1) := by
  unfold packBitsIntoByte
  rw [packBitsIntoByteLoop_testBit bits s 8 0 0 p (by omega)]
  simp

theorem byteChars_length (byte k : Nat) : (byteChars byte k).length = k := by
  induction k with
  | zero => rfl
  | succ k ih => simp [byteChars, ih]

theorem byteChars_getElem? (byte : Nat) : ∀ (k j : Nat), j < k →
    (byteChars byte k)[j]? = some (if byte.testBit (k - 1 - j) then chr1 else chr0) := by
  intro k
  induction k with
  | zero => intro j h; omega
  | succ k ih =>
    intro j h
    cases j with
    | zero =>
      simp only [byteChars, List.getElem?_cons_zero, Nat.one_shiftLeft, Nat.and_two_pow]
      cases hb : byte.testBit k <;> simp [hb]
    | succ j =>
      simp only [byteChars, List.getElem?_cons_succ]
      rw [ih j (by omega)]
      have e : k + 1 - 1 - (j + 1) = k - 1 - j := by omega
      rw [e]

theorem binaryDataToStringByte_eq (byte total : Nat) : ∀ (k : Nat) (acc : List CChar) (cnt : Nat),
    binaryDataToStringByte byte total k (acc, cnt) =
      (acc ++ (byteChars byte k).take (total - cnt), cnt + min k (total - cnt)) := by
  intro k
  induction k with
  | zero => intro acc cnt; simp [binaryDataToStringByte, byteChars]
  | succ k ih =>
    intro acc cnt
    unfold binaryDataToStringByte
    by_cases h : cnt ≥ total
    · rw [if_pos h]
      have : total - cnt = 0 := by omega
      simp [this]
    · rw [if_neg h, ih]
      have e : total - cnt = (total - (cnt + 1)) + 1 := by omega
      rw [e, byteChars, List.take_succ_cons]
      simp only [List.append_assoc, List.singleton_append, Prod.mk.injEq, true_and]
      omega


theorem stringToBinaryDataLoop_acc (bits : List Int) : ∀ (fuel i : Nat) (data : List Nat),
    stringToBinaryDataLoop bits fuel i data = data ++ stringToBinaryDataLoop bits fuel i [] := by
  intro fuel
  induction fuel with
  | zero => intro i data; simp [stringToBinaryDataLoop]
  | succ fuel ih =>
    intro i data
    unfold stringToBinaryDataLoop
    by_cases h : i < bits.length
    · rw [if_pos h, if_pos h, ih (i + 8) (data ++ _), ih (i + 8) ([] ++ _)]
      simp
    · rw [if_neg h, if_neg h]; simp

/-- The characters unpacked from the byte packed at position `i` are the
characters of the string from position `i` on. -/
theorem byteChars_packBitsIntoByte (s : List CChar) (hs : IsBitString s) (i : Nat) :
    (byteChars (packBitsIntoByte (s.map (fun c => c - chr0)) i) 8).take (s.length - i) =
      (s.drop i).take 8 := by
  apply List.ext_getElem?
  intro j
  rw [List.getElem?_take, List.getElem?_take, List.getElem?_drop]
  by_cases hj : j < 8
  · by_cases hl : j < s.length - i
    · rw [if_pos hl, if_pos hj, byteChars_getElem? _ 8 j hj, packBitsIntoByte_testBit]
      have hlt : i + j < s.length := by omega
      have e : 7 - (8 - 1 - j) = j := by omega
      rw [e, List.getElem?_eq_getElem hlt]
      have hmem := hs _ (List.getElem_mem hlt)
      have hg : (s.map (fun c => c - chr0)).getD (i + j) 0 = s[i + j] - chr0 := by
        rw [List.getD_eq_getElem?_getD, List.getElem?_map, List.getElem?_eq_getElem hlt]
        rfl
      rw [hg]
      rcases hmem with h0 | h1
      · rw [h0]; simp [chr0]
      · rw [h1]
        have : 8 - 1 - j < 8 ∧ i + j < (s.map (fun c => c - chr0)).length ∧ chr1 - chr0 = 1 := by
          refine ⟨by omega, by simpa using hlt, by decide⟩
        rw [decide_eq_true this]; rfl
    · rw [if_neg hl, if_pos hj]
      symm
      rw [List.getElem?_eq_none_iff]
      omega
  · rw [if_neg hj]
    by_cases hl : j < s.length - i
    · rw [if_pos hl, List.getElem?_eq_none_iff, byteChars_length]; omega
    · rw [if_neg hl]

theorem unpack_pack_loop (s : List CChar) (hs : IsBitString s) :
    ∀ (fuel i : Nat) (acc : List CChar), s.length - i ≤ 8 * fuel →
      binaryDataToStringLoop s.length
        (stringToBinaryDataLoop (s.map (fun c => c - chr0)) fuel i []) (acc, i) =
        acc ++ s.drop i := by
  intro fuel
  induction fuel with
  | zero =>
    intro i acc h
    have : s.drop i = [] := List.drop_eq_nil_iff.mpr (by omega)
    simp [stringToBinaryDataLoop, binaryDataToStringLoop, this]
  | succ fuel ih =>
    intro i acc h
    unfold stringToBinaryDataLoop
    by_cases hi : i < (s.map (fun c => c - chr0)).length
    · rw [if_pos hi, stringToBinaryDataLoop_acc]
      have hi2 : i < s.length := by simpa using hi
      simp only [List.nil_append, List.singleton_append, binaryDataToStringLoop]
      rw [binaryDataToStringByte_eq, byteChars_packBitsIntoByte s hs i]
      simp only
      by_cases hend : i + min 8 (s.length - i) ≥ s.length
      · rw [if_pos hend]
        congr 1
        apply List.take_of_length_le
        rw [List.length_drop]; omega
      · rw [if_neg hend]
        have e : i + min 8 (s.length - i) = i + 8 := by omega
        rw [e]
        show binaryDataToStringLoop s.length
          (stringToBinaryDataLoop (s.map (fun c => c - chr0)) fuel (i + 8) []) _ = _
        rw [ih (i + 8) _ (by omega), List.append_assoc]
        congr 1
        have e2 : s.drop (i + 8) = (s.drop i).drop 8 := by rw [List.drop_drop]
        rw [e2]
        exact List.take_append_drop 8 (s.drop i)
    · rw [if_neg hi]
      have hi2 : ¬ i < s.length := by simpa using hi
      have : s.drop i = [] := List.drop_eq_nil_iff.mpr (by omega)
      simp [binaryDataToStringLoop, this]

theorem binaryDataToString_stringToBinaryData (s : List CChar) (hs : IsBitString s) :
    binaryDataToString (stringToBinaryData s) s.length = s := by
  unfold binaryDataToString stringToBinaryData
  have := unpack_pack_loop s hs (s.map (fun c => c - chr0)).length 0 [] (by simp; omega)
  simpa using this

/-! ## Maps and the frequency table -/

theorem mapFind_mapSet {V : Type} (m : CMap V) (k : CChar) (v : V) (k' : CChar) :
    mapFind (mapSet m k v) k' = if k' = k then some v else mapFind m k' := by
  induction m with
  | nil => simp [mapSet, mapFind]
  | cons e rest ih =>
    obtain ⟨ke, ve⟩ := e
    unfold mapSet
    by_cases h1 : k < ke
    · rw [if_pos h1]
      by_cases h : k' = k <;> simp [mapFind, h]
    · rw [if_neg h1]
      by_cases h2 : k = ke
      · rw [if_pos h2]
        subst h2
        by_cases h : k' = k <;> simp [mapFind, h]
      · rw [if_neg h2]
        by_cases h : k' = k
        · subst h
          simp [mapFind, h2, ih]
        · by_cases h3 : k' = ke
          · subst h3
            simp [mapFind, h]
          · simp [mapFind, h, h3, ih]

theorem mem_of_mapFind {V : Type} (m : CMap V) (k : CChar) (v : V) (h : mapFind m k = some v) :
    (k, v) ∈ m := by
  induction m with
  | nil => simp [mapFind] at h
  | cons e rest ih =>
    obtain ⟨ke, ve⟩ := e
    unfold mapFind at h
    by_cases hk : k = ke
    · rw [if_pos hk] at h
      cases h
      subst hk
      exact List.mem_cons_self _ _
    · rw [if_neg hk] at h
      exact List.mem_cons_of_mem _ (ih h)

theorem mapFind_eq_none {V : Type} (m : CMap V) (k : CChar) (h : k ∉ m.map Prod.fst) :
    mapFind m k = none := by
  induction m with
  | nil => rfl
  | cons e rest ih =>
    obtain ⟨ke, ve⟩ := e
    simp only [List.map_cons, List.mem_cons, not_or] at h
    unfold mapFind
    rw [if_neg h.1]
    exact ih h.2

theorem mapFind_of_mem {V : Type} (m : CMap V) (hm : IsMap m) (k : CChar) (v : V)
    (h : (k, v) ∈ m) : mapFind m k = some v := by
  induction m with
  | nil => cases h
  | cons e rest ih =>
    obtain ⟨ke, ve⟩ := e
    unfold IsMap at hm
    rw [List.map_cons, List.pairwise_cons] at hm
    unfold mapFind
    rcases List.mem_cons.mp h with h1 | h1
    · cases h1
      rw [if_pos rfl]
    · have hlt : ke < k := hm.1 k (List.mem_map.mpr ⟨(k, v), h1, rfl⟩)
      rw [if_neg (ne_of_gt hlt)]
      exact ih hm.2 h1

theorem mapSet_keys {V : Type} (m : CMap V) (k : CChar) (v : V) (x : CChar) :
    x ∈ (mapSet m k v).map Prod.fst ↔ x = k ∨ x ∈ m.map Prod.fst := by
  induction m with
  | nil => simp [mapSet]
  | cons e rest ih =>
    obtain ⟨ke, ve⟩ := e
    unfold mapSet
    by_cases h1 : k < ke
    · rw [if_pos h1]; simp
    · rw [if_neg h1]
      by_cases h2 : k = ke
      · rw [if_pos h2]; subst h2; simp
      · rw [if_neg h2]
        simp only [List.map_cons, List.mem_cons, ih]
        tauto

theorem isMap_mapSet {V : Type} (m : CMap V) (hm : IsMap m) (k : CChar) (v : V) :
    IsMap (mapSet m k v) := by
  induction m with
  | nil => simp [mapSet, IsMap]
  | cons e rest ih =>
    obtain ⟨ke, ve⟩ := e
    have hm' := hm
    unfold IsMap at hm
    rw [List.map_cons, List.pairwise_cons] at hm
    unfold mapSet
    by_cases h1 : k < ke
    · rw [if_pos h1]
      unfold IsMap
      rw [List.map_cons, List.pairwise_cons]
      refine ⟨?_, hm'⟩
      intro a ha
      rcases List.mem_cons.mp ha with h | h
      · rw [h]; exact h1
      · exact lt_trans h1 (hm.1 a h)
    · rw [if_neg h1]
      by_cases h2 : k = ke
      · rw [if_pos h2]
        subst h2
        unfold IsMap
        rw [List.map_cons, List.pairwise_cons]
        exact hm
      · rw [if_neg h2]
        unfold IsMap
        rw [List.map_cons, List.pairwise_cons]
        refine ⟨?_, ih hm.2⟩
        intro a ha
        rcases (mapSet_keys rest k v a).mp ha with h | h
        · rw [h]; exact lt_of_le_of_ne (not_lt.mp h1) (fun hh => h2 hh.symm)
        · exact hm.1 a h

theorem isMap_nodup {V : Type} (m : CMap V) (hm : IsMap m) : (m.map Prod.fst).Nodup := by
  unfold IsMap at hm
  exact hm.imp (fun h => ne_of_lt h)

/-- The sum of the counts stored in a frequency table. -/
theorem sum_mapSet_incr (m : CMap Int) (hm : IsMap m) (k : CChar) :
    ((mapSet m k ((mapFind m k).getD 0 + 1)).map Prod.snd).sum = (m.map Prod.snd).sum + 1 := by
  induction m with
  | nil => simp [mapSet, mapFind]
  | cons e rest ih =>
    obtain ⟨ke, ve⟩ := e
    unfold IsMap at hm
    rw [List.map_cons, List.pairwise_cons] at hm
    unfold mapSet
    by_cases h1 : k < ke
    · rw [if_pos h1]
      have : mapFind ((ke, ve) :: rest) k = none := by
        apply mapFind_eq_none
        simp only [List.map_cons, List.mem_cons, not_or]
        refine ⟨ne_of_lt h1, fun hk => ?_⟩
        exact lt_irrefl _ (lt_trans h1 (hm.1 k hk))
      rw [this]
      simp only [Option.getD_none, List.map_cons, List.sum_cons]
      omega
    · rw [if_neg h1]
      by_cases h2 : k = ke
      · rw [if_pos h2]
        subst h2
        simp only [mapFind, if_true, Option.getD_some, List.map_cons, List.sum_cons]
        omega
      · rw [if_neg h2]
        have : mapFind ((ke, ve) :: rest) k = mapFind rest k := by
          simp [mapFind, h2]
        rw [this]
        simp only [List.map_cons, List.sum_cons, ih hm.2]
        omega

theorem wrapInt_of_range (x : Int) (h1 : -2147483648 ≤ x) (h2 : x ≤ 2147483647) :
    wrapInt x = x := by
  unfold wrapInt
  omega

theorem wrapInt_range (x : Int) : -2147483648 ≤ wrapInt x ∧ wrapInt x ≤ 2147483647 := by
  unfold wrapInt
  omega

theorem wrapInt_add_wrapInt (a b : Int) : wrapInt (wrapInt a + b) = wrapInt (a + b) := by
  unfold wrapInt
  omega

/-- The loop of `buildFrequencyTable` started from a table `m`. -/
theorem countLoop_spec (text : List CChar) : ∀ (m : CMap Int), IsMap m →
    let r := text.foldl (fun frequencies ch =>
      mapSet frequencies ch (wrapInt ((mapFind frequencies ch).getD 0 + 1))) m
    IsMap r ∧
    ∀ c, mapFind r c =
      if text.count c = 0 then mapFind m c
      else some (wrapInt ((mapFind m c).getD 0 + (text.count c : Int))) := by
  induction text with
  | nil => intro m hm; simp [hm]
  | cons ch rest ih =>
    intro m hm
    simp only [List.foldl_cons]
    have hm1 := isMap_mapSet m hm ch (wrapInt ((mapFind m ch).getD 0 + 1))
    obtain ⟨h1, h3⟩ := ih _ hm1
    refine ⟨h1, ?_⟩
    intro c
    rw [h3 c, mapFind_mapSet, List.count_cons]
    by_cases hc : c = ch
    · subst hc
      simp only [if_true, beq_self_eq_true, Option.getD_some]
      by_cases h0 : List.count c rest = 0
      · simp [h0]
      · rw [if_neg h0, if_neg (by omega), wrapInt_add_wrapInt]
        congr 2
        push_cast
        ring
    · have hb : (ch == c) = false := by
        simp only [beq_eq_false_iff_ne, ne_eq]
        exact fun h => hc h.symm
      simp only [hc, if_false, hb, Bool.false_eq_true, add_zero]

theorem buildFrequencyTable_isMap (text : List CChar) : IsMap (buildFrequencyTable text) :=
  (countLoop_spec text [] (by simp [IsMap])).1

/-- The count stored for a character is the number of its occurrences as an
`int`. -/
theorem buildFrequencyTable_find (text : List CChar) (c : CChar) :
    mapFind (buildFrequencyTable text) c =
      if text.count c = 0 then none else some (wrapInt (text.count c : Int)) := by
  have := (countLoop_spec text [] (by simp [IsMap])).2 c
  simpa [mapFind] using this

theorem buildFrequencyTable_keys (text : List CChar) (c : CChar) :
    c ∈ (buildFrequencyTable text).map Prod.fst ↔ c ∈ text := by
  constructor
  · intro h
    obtain ⟨⟨k, v⟩, hmem, hk⟩ := List.mem_map.mp h
    simp only at hk
    subst hk
    have := mapFind_of_mem _ (buildFrequencyTable_isMap text) k v hmem
    rw [buildFrequencyTable_find] at this
    by_contra hc
    rw [if_pos (List.count_eq_zero_of_not_mem hc)] at this
    cases this
  · intro h
    have hpos : text.count c ≠ 0 := by
      have := List.count_pos_iff.mpr h
      omega
    have := buildFrequencyTable_find text c
    rw [if_neg hpos] at this
    exact List.mem_map.mpr ⟨_, mem_of_mapFind _ _ _ this, rfl⟩

/-! ## The priority queue -/

theorem isHeap_nil : IsHeap [] := by
  intro i _ h
  simp at h

theorem isHeap_front_le (pq : List HuffmanNodePtr) (h : IsHeap pq) :
    ∀ i, i < pq.length →
      (pq.getD 0 nullptr).getFrequency ≤ (pq.getD i nullptr).getFrequency := by
  intro i
  induction i using Nat.strong_induction_on with
  | _ i ih =>
    intro hi
    rcases Nat.eq_zero_or_pos i with h0 | hpos
    · subst h0; exact le_refl _
    · have hp : (i - 1) / 2 < i := by omega
      have h1 := ih ((i - 1) / 2) hp (by omega)
      have h2 := h i hpos hi
      unfold NodeComparator at h2
      have h3 : ¬ (pq.getD ((i - 1) / 2) nullptr).getFrequency > (pq.getD i nullptr).getFrequency := by
        simpa using h2
      exact le_trans h1 (not_lt.mp h3)

theorem isHeap_head_le (x : HuffmanNodePtr) (tl : List HuffmanNodePtr) (h : IsHeap (x :: tl)) :
    ∀ y ∈ x :: tl, x.getFrequency ≤ y.getFrequency := by
  intro y hy
  obtain ⟨i, hi, rfl⟩ := List.getElem_of_mem hy
  have := isHeap_front_le (x :: tl) h i hi
  rw [List.getD_eq_getElem _ _ hi] at this
  simpa using this

theorem pqPush_spec (H : HeapAlgorithms) (hH : H.Lawful) (pq : List HuffmanNodePtr)
    (h : IsHeap pq) (x : HuffmanNodePtr) :
    IsHeap (pqPush H pq x) ∧ (pqPush H pq x).Perm (x :: pq) := by
  have hd : IsHeap (pq ++ [x]).dropLast := by rw [List.dropLast_concat]; exact h
  exact ⟨hH.push_heap_isHeap _ hd, (hH.push_heap_perm _ hd).trans (List.perm_append_singleton x pq)⟩

theorem pqPop_spec (H : HeapAlgorithms) (hH : H.Lawful) (x : HuffmanNodePtr)
    (tl : List HuffmanNodePtr) (h : IsHeap (x :: tl)) :
    ∃ pq1, pqPop H (x :: tl) = some pq1 ∧ IsHeap pq1 ∧ pq1.Perm tl := by
  have hne : x :: tl ≠ [] := List.cons_ne_nil _ _
  refine ⟨(H.pop_heap (x :: tl)).dropLast, rfl, hH.pop_heap_isHeap _ hne h, ?_⟩
  have hlast := hH.pop_heap_last _ hne h
  have hperm := hH.pop_heap_perm _ hne h
  rw [List.head?_cons] at hlast
  have hsplit := List.dropLast_append_getLast? x (by rw [hlast]; rfl)
  rw [← hsplit] at hperm
  exact ((List.perm_append_singleton x _).symm.trans hperm).cons_inv

theorem pushLeaves_spec (H : HeapAlgorithms) (hH : H.Lawful) (frequencies : CMap Int) :
    ∀ pq, IsHeap pq →
      IsHeap (frequencies.foldl (fun pq pair => pqPush H pq (node pair.1 pair.2 nullptr nullptr)) pq) ∧
      (frequencies.foldl (fun pq pair => pqPush H pq (node pair.1 pair.2 nullptr nullptr)) pq).Perm
        (pq ++ frequencies.map leafOf) := by
  induction frequencies with
  | nil => intro pq h; simp [h]
  | cons e rest ih =>
    intro pq h
    simp only [List.foldl_cons, List.map_cons]
    obtain ⟨h1, h2⟩ := pqPush_spec H hH pq h (node e.1 e.2 nullptr nullptr)
    obtain ⟨h3, h4⟩ := ih _ h1
    refine ⟨h3, h4.trans ?_⟩
    have : (pqPush H pq (node e.1 e.2 nullptr nullptr)).Perm (pq ++ [leafOf e]) := by
      unfold leafOf
      exact h2.trans (List.perm_append_singleton _ pq).symm
    have := this.append_right (rest.map leafOf)
    simpa using this

theorem mergeStep_spec (H : HeapAlgorithms) (hH : H.Lawful) (pq : List HuffmanNodePtr)
    (h : IsHeap pq) (hn : ∀ t ∈ pq, t.isNull = false) (hlen : 2 ≤ pq.length) :
    ∃ l r rest pq1, mergeStep H pq = some pq1 ∧ IsHeap pq1 ∧
      pq.Perm (l :: r :: rest) ∧
      pq1.Perm (node 0 (wrapInt (l.getFrequency + r.getFrequency)) l r :: rest) ∧
      (∀ y ∈ pq, l.getFrequency ≤ y.getFrequency) ∧
      (∀ y ∈ rest, r.getFrequency ≤ y.getFrequency) := by
  cases pq with
  | nil => simp at hlen
  | cons l tl =>
    obtain ⟨pqa, hpa, hha, hperma⟩ := pqPop_spec H hH l tl h
    have hla : pqa.length = tl.length := hperma.length_eq
    cases pqa with
    | nil =>
      simp only [List.length_nil] at hla
      simp only [List.length_cons] at hlen
      omega
    | cons r tla =>
      obtain ⟨pqb, hpb, hhb, hpermb⟩ := pqPop_spec H hH r tla hha
      have hperm : (l :: tl).Perm (l :: r :: pqb) :=
        (hperma.symm.trans (hpermb.symm.cons r)).cons l
      have hl : l.isNull = false := hn l (List.mem_cons_self _ _)
      have hr : r.isNull = false := hn r (hperm.symm.subset (by simp))
      obtain ⟨h1, h2⟩ := pqPush_spec H hH pqb hhb (node 0 (wrapInt (l.getFrequency + r.getFrequency)) l r)
      refine ⟨l, r, pqb, _, ?_, h1, hperm, h2, isHeap_head_le l tl h, ?_⟩
      · cases l with
        | nullptr => simp [isNull] at hl
        | node cl fl ll lr =>
          cases r with
          | nullptr => simp [isNull] at hr
          | node cr fr rl rr =>
            simp [mergeStep, pqTop, hpa, hpb, getFrequency]
      · intro y hy
        exact isHeap_head_le r tla hha y (List.mem_cons_of_mem r (hpermb.subset hy))

theorem merges_perm {F : List HuffmanNodePtr} {t : HuffmanNodePtr} (h : Merges F t) :
    ∀ F', F'.Perm F → Merges F' t := by
  induction h with
  | done t => intro F' hp; rw [List.perm_singleton.mp hp]; exact Merges.done t
  | step F rest l r t h1 h2 h3 h4 _ =>
    intro F' hp
    exact Merges.step F' rest l r t (hp.trans h1) (fun y hy => h2 y (hp.subset hy)) h3 h4

theorem mergeLoop_spec (H : HeapAlgorithms) (hH : H.Lawful) :
    ∀ (fuel : Nat) (pq : List HuffmanNodePtr), IsHeap pq → (∀ t ∈ pq, t.isNull = false) →
      pq ≠ [] → pq.length ≤ fuel + 1 →
      ∃ t, mergeLoop H fuel pq = some [t] ∧ Merges pq t := by
  intro fuel
  induction fuel with
  | zero =>
    intro pq _ _ hne hlen
    cases pq with
    | nil => exact absurd rfl hne
    | cons t tl =>
      cases tl with
      | nil => exact ⟨t, by simp [mergeLoop], Merges.done t⟩
      | cons u tl => simp at hlen
  | succ fuel ih =>
    intro pq h hn hne hlen
    by_cases h1 : pq.length > 1
    · obtain ⟨l, r, rest, pq1, hs, hh1, hp, hp1, hmin1, hmin2⟩ :=
        mergeStep_spec H hH pq h hn (by omega)
      have hlen1 : pq1.length = rest.length + 1 := by rw [hp1.length_eq]; simp
      have hlen0 : pq.length = rest.length + 2 := by rw [hp.length_eq]; simp
      have hn1 : ∀ t ∈ pq1, t.isNull = false := by
        intro t ht
        rcases List.mem_cons.mp (hp1.subset ht) with e | e
        · rw [e]; rfl
        · exact hn t (hp.symm.subset (by simp [e]))
      obtain ⟨t, ht, hm⟩ := ih pq1 hh1 hn1 (by intro e; rw [e] at hlen1; simp at hlen1) (by omega)
      refine ⟨t, ?_, Merges.step pq rest l r t hp hmin1 hmin2 (merges_perm hm _ hp1.symm)⟩
      simp [mergeLoop, h1, hs, ht]
    · cases pq with
      | nil => exact absurd rfl hne
      | cons t tl =>
        cases tl with
        | nil => exact ⟨t, by simp [mergeLoop], Merges.done t⟩
        | cons u tl => simp at h1

theorem buildHuffmanTree_nil (H : HeapAlgorithms) : buildHuffmanTree H [] = some nullptr := rfl

/-- The function `buildHuffmanTree` refines the greedy merging of the leaves of
the table: it returns, and its result is reached by greedy steps. -/
theorem buildHuffmanTree_merges (H : HeapAlgorithms) (hH : H.Lawful) (frequencies : CMap Int)
    (hne : frequencies ≠ []) :
    ∃ t, buildHuffmanTree H frequencies = some t ∧ Merges (frequencies.map leafOf) t := by
  obtain ⟨h1, h2⟩ : IsHeap (pushLeaves H frequencies) ∧
      (pushLeaves H frequencies).Perm ([] ++ frequencies.map leafOf) :=
    pushLeaves_spec H hH frequencies [] isHeap_nil
  rw [List.nil_append] at h2
  have hn : ∀ t ∈ pushLeaves H frequencies, t.isNull = false := by
    intro t ht
    obtain ⟨e, _, he⟩ := List.mem_map.mp (h2.subset ht)
    rw [← he]; rfl
  have hlen : (pushLeaves H frequencies).length = frequencies.length := by
    rw [h2.length_eq, List.length_map]
  have hne1 : pushLeaves H frequencies ≠ [] := by
    intro e
    rw [e] at hlen
    exact hne (List.length_eq_zero.mp hlen.symm)
  obtain ⟨t, ht, hm⟩ := mergeLoop_spec H hH frequencies.length _ h1 hn hne1 (by omega)
  refine ⟨t, ?_, merges_perm hm _ h2.symm⟩
  unfold buildHuffmanTree
  rw [ht]
  rfl

/-! ## The reference heap algorithms satisfy the contract -/

theorem isHeap_of_sorted (c : List HuffmanNodePtr) (h : List.Sorted freqLe c) : IsHeap c := by
  intro i hpos hi
  have hp : (i - 1) / 2 < i := by omega
  have hp2 : (i - 1) / 2 < c.length := by omega
  have := List.pairwise_iff_getElem.mp h ((i - 1) / 2) i hp2 hi hp
  rw [List.getD_eq_getElem _ _ hi, List.getD_eq_getElem _ _ hp2]
  unfold NodeComparator
  unfold freqLe at this
  simpa using this

theorem sortingHeap_lawful : sortingHeap.Lawful where
  push_heap_perm := fun c _ => List.perm_insertionSort freqLe c
  push_heap_isHeap := fun c _ => isHeap_of_sorted _ (List.sorted_insertionSort freqLe c)
  pop_heap_perm := by
    intro c hne _
    cases c with
    | nil => exact absurd rfl hne
    | cons x rest =>
      exact (List.perm_append_singleton x _).trans ((List.perm_insertionSort freqLe rest).cons x)
  pop_heap_last := by
    intro c hne _
    cases c with
    | nil => exact absurd rfl hne
    | cons x rest => simp [sortingHeap]
  pop_heap_isHeap := by
    intro c hne _
    cases c with
    | nil => exact absurd rfl hne
    | cons x rest =>
      show IsHeap (List.insertionSort freqLe rest ++ [x]).dropLast
      rw [List.dropLast_concat]
      exact isHeap_of_sorted _ (List.sorted_insertionSort freqLe rest)

/-! ## Trees, code paths and the decoding walk -/

theorem isTree_isNull {t : HuffmanNodePtr} (h : IsTree t) : t.isNull = false := by
  cases h <;> rfl

theorem isLeaf_inner (c : CChar) (f : Int) {l : HuffmanNodePtr} (r : HuffmanNodePtr)
    (hl : IsTree l) : (node c f l r).isLeaf = false := by
  simp [isLeaf, isTree_isNull hl]

theorem isTree_leafOf (e : CChar × Int) : IsTree (leafOf e) := IsTree.leaf _ _

theorem leafEntries_inner (c : CChar) (f : Int) {l : HuffmanNodePtr} (r : HuffmanNodePtr)
    (hl : IsTree l) : leafEntries (node c f l r) = leafEntries l ++ leafEntries r := by
  rw [leafEntries, isLeaf_inner c f r hl]
  simp

theorem merges_singleton {x t : HuffmanNodePtr} (h : Merges [x] t) : t = x := by
  cases h with
  | done => rfl
  | step _ rest l r _ h1 _ _ _ =>
    have := List.Perm.length_eq h1
    simp at this

theorem merges_isTree {F : List HuffmanNodePtr} {t : HuffmanNodePtr} (h : Merges F t) :
    (∀ u ∈ F, IsTree u) → IsTree t := by
  induction h with
  | done t => intro hF; exact hF t (List.mem_singleton_self t)
  | step F rest l r t h1 _ _ _ ih =>
    intro hF
    apply ih
    intro u hu
    rcases List.mem_cons.mp hu with e | e
    · rw [e]
      exact IsTree.inner _ _ _ _ (hF l (h1.symm.subset (by simp))) (hF r (h1.symm.subset (by simp)))
    · exact hF u (h1.symm.subset (by simp [e]))

theorem merges_leafEntries {F : List HuffmanNodePtr} {t : HuffmanNodePtr} (h : Merges F t) :
    (∀ u ∈ F, IsTree u) → (leafEntries t).Perm (F.flatMap leafEntries) := by
  induction h with
  | done t => intro _; simp
  | step F rest l r t h1 _ _ _ ih =>
    intro hF
    have hl : IsTree l := hF l (h1.symm.subset (by simp))
    have hr : IsTree r := hF r (h1.symm.subset (by simp))
    have hF1 : ∀ u ∈ node 0 (wrapInt (l.getFrequency + r.getFrequency)) l r :: rest, IsTree u := by
      intro u hu
      rcases List.mem_cons.mp hu with e | e
      · rw [e]; exact IsTree.inner _ _ _ _ hl hr
      · exact hF u (h1.symm.subset (by simp [e]))
    refine (ih hF1).trans ?_
    refine List.Perm.trans ?_ (List.Perm.flatMap_right leafEntries h1.symm)
    simp [List.flatMap_cons, leafEntries_inner _ _ _ hl]

theorem merges_inner {F : List HuffmanNodePtr} {t : HuffmanNodePtr} (h : Merges F t) :
    (∀ u ∈ F, IsTree u) → 2 ≤ F.length → t.isLeaf = false := by
  induction h with
  | done t => intro _ hlen; simp at hlen
  | step F rest l r t h1 _ _ h4 ih =>
    intro hF _
    have hl : IsTree l := hF l (h1.symm.subset (by simp))
    have hr : IsTree r := hF r (h1.symm.subset (by simp))
    cases rest with
    | nil =>
      rw [merges_singleton h4]
      exact isLeaf_inner _ _ _ hl
    | cons u rest =>
      apply ih
      · intro v hv
        rcases List.mem_cons.mp hv with e | e
        · rw [e]; exact IsTree.inner _ _ _ _ hl hr
        · exact hF v (h1.symm.subset (List.mem_cons_of_mem _ (List.mem_cons_of_mem _ e)))
      · simp

theorem codePath_isSome {t : HuffmanNodePtr} (h : IsTree t) (c : CChar) :
    c ∈ leafChars t → (codePath t c).isSome = true := by
  induction h with
  | leaf ch f =>
    intro hc
    have : ch = c := by
      have := hc
      simp only [leafChars, leafEntries, isLeaf, isNull, Bool.and_self, if_true, List.map_cons,
        List.map_nil, List.mem_singleton] at this
      exact this.symm
    simp [codePath, isLeaf, isNull, this]
  | inner ch f l r hl hr ihl ihr =>
    intro hc
    unfold leafChars at hc
    rw [leafEntries_inner _ _ _ hl, List.map_append, List.mem_append] at hc
    rw [codePath, isLeaf_inner _ _ _ hl]
    simp only [Bool.false_eq_true, if_false]
    cases hr' : codePath r c with
    | some p => rfl
    | none =>
      rcases hc with hc | hc
      · have := ihl hc
        cases hl' : codePath l c with
        | some p => rfl
        | none => rw [hl'] at this; cases this
      · have := ihr hc
        rw [hr'] at this; cases this

/-- The entry `generateCodes` leaves for `c`: the accumulated prefix followed by
the code path of `c`, or the entry found before the call. -/
theorem generateCodes_find {t : HuffmanNodePtr} (h : IsTree t) :
    ∀ (pre : List CChar) (codes : CMap (List CChar)) (c : CChar),
      (pre ≠ [] ∨ t.isLeaf = false) →
      mapFind (generateCodes t pre codes) c =
        match codePath t c with
        | some p => some (pre ++ p)
        | none => mapFind codes c := by
  induction h with
  | leaf ch f =>
    intro pre codes c hpre
    have hne : pre ≠ [] := by
      rcases hpre with h1 | h1
      · exact h1
      · simp [isLeaf, isNull] at h1
    have he : pre.isEmpty = false := by
      cases pre with
      | nil => exact absurd rfl hne
      | cons a b => rfl
    simp only [generateCodes, isLeaf, isNull, Bool.and_self, if_true, he, Bool.false_eq_true,
      if_false, mapFind_mapSet, codePath]
    by_cases hc : c = ch
    · subst hc; simp
    · have hc2 : ¬ ch = c := fun e => hc e.symm
      simp [hc, hc2]
  | inner ch f l r hl hr ihl ihr =>
    intro pre codes c _
    rw [generateCodes, isLeaf_inner _ _ _ hl]
    simp only [Bool.false_eq_true, if_false]
    rw [ihr (pre ++ [chr1]) _ c (Or.inl (by simp)), ihl (pre ++ [chr0]) _ c (Or.inl (by simp)),
      codePath, isLeaf_inner _ _ _ hl]
    simp only [Bool.false_eq_true, if_false]
    cases codePath r c with
    | some p => simp
    | none =>
      cases codePath l c with
      | some p => simp
      | none => simp

theorem encodeText_acc (codes : CMap (List CChar)) (text : List CChar) :
    ∀ acc : List CChar,
      text.foldl (fun encoded ch =>
        match mapFind codes ch with
        | some code => encoded ++ code
        | none => encoded) acc = acc ++ encodeText text codes := by
  unfold encodeText
  induction text with
  | nil => intro acc; simp
  | cons ch rest ih =>
    intro acc
    simp only [List.foldl_cons]
    rw [ih]
    conv_rhs => rw [ih]
    cases mapFind codes ch <;> simp

theorem encodeText_cons (codes : CMap (List CChar)) (ch : CChar) (rest : List CChar) :
    encodeText (ch :: rest) codes =
      (match mapFind codes ch with
        | some code => code
        | none => []) ++ encodeText rest codes := by
  conv_lhs => unfold encodeText
  simp only [List.foldl_cons]
  rw [encodeText_acc]
  cases mapFind codes ch <;> simp

/-- Walking down the code path of `c` from an inner node emits `c` and returns
to the root. -/
theorem decodeLoop_codePath (root : HuffmanNodePtr) {t : HuffmanNodePtr} (h : IsTree t) :
    ∀ (c : CChar) (p rest decoded : List CChar), t.isLeaf = false → codePath t c = some p →
      decodeLoop root (p ++ rest) (t, decoded) = decodeLoop root rest (root, decoded ++ [c]) := by
  induction h with
  | leaf ch f => intro c p rest decoded hl; simp [isLeaf, isNull] at hl
  | inner ch f l r hl hr ihl ihr =>
    intro c p rest decoded _ hp
    rw [codePath, isLeaf_inner _ _ _ hl] at hp
    simp only [Bool.false_eq_true, if_false] at hp
    cases hr' : codePath r c with
    | some q =>
      rw [hr'] at hp
      simp only [Option.some.injEq] at hp
      subst hp
      cases hr with
      | leaf cr fr =>
        have hq : cr = c ∧ q = [] := by
          simp only [codePath, isLeaf, isNull, Bool.and_self, if_true] at hr'
          by_cases e : cr = c
          · rw [if_pos e] at hr'; exact ⟨e, by cases hr'; rfl⟩
          · rw [if_neg e] at hr'; cases hr'
        obtain ⟨rfl, rfl⟩ := hq
        simp [decodeLoop, decodeStep, getRight, getLeft, chr0, chr1, isLeaf, isNull]
      | inner cr fr rl rr hrl hrr =>
        have := ihr c q rest decoded (isLeaf_inner _ _ _ hrl) hr'
        rw [← this]
        simp [decodeLoop, decodeStep, getRight, getLeft, chr0, chr1, isLeaf_inner _ _ _ hrl]
    | none =>
      rw [hr'] at hp
      cases hl' : codePath l c with
      | none => rw [hl'] at hp; cases hp
      | some q =>
        rw [hl'] at hp
        simp only [Option.map_some', Option.some.injEq] at hp
        subst hp
        cases hl with
        | leaf cl fl =>
          have hq : cl = c ∧ q = [] := by
            simp only [codePath, isLeaf, isNull, Bool.and_self, if_true] at hl'
            by_cases e : cl = c
            · rw [if_pos e] at hl'; exact ⟨e, by cases hl'; rfl⟩
            · rw [if_neg e] at hl'; cases hl'
          obtain ⟨rfl, rfl⟩ := hq
          simp [decodeLoop, decodeStep, getRight, getLeft, chr0, chr1, isLeaf, isNull]
        | inner cl fl ll lr hll hlr =>
          have := ihl c q rest decoded (isLeaf_inner _ _ _ hll) hl'
          rw [← this]
          simp [decodeLoop, decodeStep, getRight, getLeft, chr0, chr1, isLeaf_inner _ _ _ hll]

/-- Decoding the encoding of a text whose characters all have a leaf in a tree
with an inner root returns the text. -/
theorem decodeLoop_encodeText (root : HuffmanNodePtr) (h : IsTree root)
    (hroot : root.isLeaf = false) (codes : CMap (List CChar)) (text : List CChar) :
    ∀ decoded : List CChar,
      (∀ ch ∈ text, ∃ p, codePath root ch = some p ∧ mapFind codes ch = some p) →
      decodeLoop root (encodeText text codes) (root, decoded) = some (decoded ++ text) := by
  induction text with
  | nil => intro decoded _; simp [encodeText, decodeLoop]
  | cons ch rest ih =>
    intro decoded hall
    obtain ⟨p, hp1, hp2⟩ := hall ch (List.mem_cons_self _ _)
    rw [encodeText_cons, hp2]
    simp only
    rw [decodeLoop_codePath root h ch p _ decoded hroot hp1,
      ih _ (fun c hc => hall c (List.mem_cons_of_mem _ hc))]
    simp

/-! ## The tree and the code table of a frequency table -/

theorem flatMap_leafEntries_leafOf (frequencies : CMap Int) :
    (frequencies.map leafOf).flatMap leafEntries = frequencies := by
  induction frequencies with
  | nil => rfl
  | cons e rest ih =>
    rw [List.map_cons, List.flatMap_cons, ih]
    simp [leafOf, leafEntries, isLeaf, isNull]

/-- What `buildHuffmanTree` returns on a non-empty table: a well-formed tree,
reached by greedy merging, whose leaves are the entries of the table. -/
theorem buildHuffmanTree_spec (H : HeapAlgorithms) (hH : H.Lawful) (frequencies : CMap Int)
    (hne : frequencies ≠ []) :
    ∃ t, buildHuffmanTree H frequencies = some t ∧ Merges (frequencies.map leafOf) t ∧
      IsTree t ∧ (leafEntries t).Perm frequencies ∧
      (2 ≤ frequencies.length → t.isLeaf = false) := by
  obtain ⟨t, ht, hm⟩ := buildHuffmanTree_merges H hH frequencies hne
  have hF : ∀ u ∈ frequencies.map leafOf, IsTree u := by
    intro u hu
    obtain ⟨e, _, he⟩ := List.mem_map.mp hu
    rw [← he]; exact isTree_leafOf e
  refine ⟨t, ht, hm, merges_isTree hm hF, ?_, ?_⟩
  · have := merges_leafEntries hm hF
    rwa [flatMap_leafEntries_leafOf] at this
  · intro h2
    exact merges_inner hm hF (by rwa [List.length_map])

theorem generateCodes_find_mono (t : HuffmanNodePtr) :
    ∀ (pre : List CChar) (codes : CMap (List CChar)) (c : CChar),
      (mapFind codes c).isSome = true → (mapFind (generateCodes t pre codes) c).isSome = true := by
  induction t with
  | nullptr => intro pre codes c h; exact h
  | node ch f l r ihl ihr =>
    intro pre codes c h
    rw [generateCodes]
    by_cases hleaf : (node ch f l r).isLeaf = true
    · rw [if_pos hleaf, mapFind_mapSet]
      by_cases hc : c = ch
      · rw [if_pos hc]; rfl
      · rw [if_neg hc]; exact h
    · rw [if_neg hleaf]
      exact ihr _ _ c (ihl _ _ c h)

theorem generateCodes_find_isSome {t : HuffmanNodePtr} (h : IsTree t) :
    ∀ (pre : List CChar) (codes : CMap (List CChar)) (c : CChar),
      c ∈ leafChars t → (mapFind (generateCodes t pre codes) c).isSome = true := by
  induction h with
  | leaf ch f =>
    intro pre codes c hc
    have : c = ch := by
      simpa [leafChars, leafEntries, isLeaf, isNull] using hc
    subst this
    simp [generateCodes, isLeaf, isNull, mapFind_mapSet]
  | inner ch f l r hl hr ihl ihr =>
    intro pre codes c hc
    unfold leafChars at hc
    rw [leafEntries_inner _ _ _ hl, List.map_append, List.mem_append] at hc
    rw [generateCodes, isLeaf_inner _ _ _ hl]
    simp only [Bool.false_eq_true, if_false]
    rcases hc with hc | hc
    · exact generateCodes_find_mono r _ _ c (ihl _ _ c hc)
    · exact ihr _ _ c hc

theorem compressedBitsLoop_codes (frequencies : CMap Int) (codes : CMap (List CChar)) :
    (∀ e ∈ frequencies, (mapFind codes e.1).isSome = true) →
      ∀ n, (compressedBitsLoop frequencies (codes, n)).1 = codes := by
  unfold compressedBitsLoop
  induction frequencies with
  | nil => intro _ n; rfl
  | cons e rest ih =>
    intro h n
    simp only [List.foldl_cons]
    have he := h e (List.mem_cons_self _ _)
    cases hf : mapFind codes e.1 with
    | none => rw [hf] at he; cases he
    | some v =>
      simp only [mapIndex, hf]
      exact ih (fun x hx => h x (List.mem_cons_of_mem _ hx)) _

/-- Every key of the table has a code in the table of the tree built from it. -/
theorem codes_cover (H : HeapAlgorithms) (hH : H.Lawful) (frequencies : CMap Int)
    (t : HuffmanNodePtr) (ht : buildHuffmanTree H frequencies = some t) :
    ∀ e ∈ frequencies, (mapFind (generateCodes t [] []) e.1).isSome = true := by
  intro e he
  have hne : frequencies ≠ [] := List.ne_nil_of_mem he
  obtain ⟨t', ht', _, htree, hperm, _⟩ := buildHuffmanTree_spec H hH frequencies hne
  rw [ht] at ht'
  cases ht'
  apply generateCodes_find_isSome htree
  exact List.mem_map.mpr ⟨e, hperm.symm.subset he, rfl⟩

theorem buildHuffmanTree_isSome (H : HeapAlgorithms) (hH : H.Lawful) (frequencies : CMap Int) :
    ∃ t, buildHuffmanTree H frequencies = some t := by
  by_cases hne : frequencies = []
  · rw [hne]; exact ⟨nullptr, rfl⟩
  · obtain ⟨t, ht, _⟩ := buildHuffmanTree_spec H hH frequencies hne
    exact ⟨t, ht⟩

/-- The function `generateCompressionStatistics` returns, with the frequency
table of the text and the code table of the tree built from it. -/
theorem generateCompressionStatistics_spec (H : HeapAlgorithms) (hH : H.Lawful)
    (text : List CChar) :
    ∃ t stats, buildHuffmanTree H (buildFrequencyTable text) = some t ∧
      generateCompressionStatistics H text = some stats ∧
      stats.frequencies = buildFrequencyTable text ∧
      stats.huffmanCodes = generateCodes t [] [] := by
  obtain ⟨t, ht⟩ := buildHuffmanTree_isSome H hH (buildFrequencyTable text)
  have hc := codes_cover H hH _ t ht
  cases hs : generateCompressionStatistics H text with
  | none =>
    simp only [generateCompressionStatistics, ht, Option.bind_eq_bind, Option.some_bind,
      Option.pure_def] at hs
    cases hs
  | some stats =>
    simp only [generateCompressionStatistics, ht, Option.bind_eq_bind, Option.some_bind,
      Option.pure_def, Option.some.injEq] at hs
    refine ⟨t, stats, ht, rfl, ?_, ?_⟩
    · rw [← hs]
    · rw [← hs]
      simp only
      rw [compressedBitsLoop_codes _ _ hc 0, compressedBitsLoop_codes _ _ hc 0]

/-- The function `compressText` returns, with the encoding of the text under
the code table of the tree built from the frequency table of the text. -/
theorem compressText_spec (H : HeapAlgorithms) (hH : H.Lawful) (text : List CChar) :
    ∃ t stats, buildHuffmanTree H (buildFrequencyTable text) = some t ∧
      compressText H text = some (encodeText text (generateCodes t [] []), t, stats) ∧
      stats.frequencies = buildFrequencyTable text ∧
      stats.huffmanCodes = generateCodes t [] [] := by
  obtain ⟨t, stats, ht, hs, hf, hc⟩ := generateCompressionStatistics_spec H hH text
  refine ⟨t, stats, ht, ?_, hf, hc⟩
  simp only [compressText, hs, Option.bind_eq_bind, Option.some_bind, hf, ht, hc, Option.pure_def]

/-- A buffer with two distinct bytes has a frequency table of two entries or
more. -/
theorem buildFrequencyTable_length (B : List CChar) (a b : CChar) (ha : a ∈ B) (hb : b ∈ B)
    (hab : a ≠ b) : 2 ≤ (buildFrequencyTable B).length := by
  have h1 := (buildFrequencyTable_keys B a).mpr ha
  have h2 := (buildFrequencyTable_keys B b).mpr hb
  rw [← List.length_map (buildFrequencyTable B) Prod.fst]
  generalize (buildFrequencyTable B).map Prod.fst = ks at h1 h2
  cases ks with
  | nil => cases h1
  | cons x ks =>
    cases ks with
    | nil =>
      rw [List.mem_singleton] at h1 h2
      exact absurd (h1.trans h2.symm) hab
    | cons y ks => simp

/-- The core round trip: on a buffer with two distinct bytes, the tree built
from the frequency table decodes the encoding of the buffer back to it. -/
theorem decodeText_encodeText (H : HeapAlgorithms) (hH : H.Lawful) (B : List CChar)
    (t : HuffmanNodePtr) (ht : buildHuffmanTree H (buildFrequencyTable B) = some t)
    (h2 : 2 ≤ (buildFrequencyTable B).length) :
    decodeText (encodeText B (generateCodes t [] [])) t = some B := by
  have hne : buildFrequencyTable B ≠ [] := by
    intro e; rw [e] at h2; simp at h2
  obtain ⟨t', ht', _, htree, hperm, hin⟩ := buildHuffmanTree_spec H hH _ hne
  rw [ht] at ht'
  cases ht'
  have hroot := hin h2
  unfold decodeText
  rw [isTree_isNull htree]
  simp only [Bool.false_eq_true, if_false]
  rw [decodeLoop_encodeText t htree hroot]
  · simp
  · intro ch hch
    have hk : ch ∈ leafChars t := by
      have := (buildFrequencyTable_keys B ch).mpr hch
      exact (hperm.map Prod.fst).symm.subset this
    have hs := codePath_isSome htree ch hk
    cases hp : codePath t ch with
    | none => rw [hp] at hs; cases hs
    | some p =>
      refine ⟨p, rfl, ?_⟩
      rw [generateCodes_find htree [] [] ch (Or.inr hroot), hp]
      simp

/-! ## Bit strings and the payload size -/

theorem codePath_isBitString (t : HuffmanNodePtr) :
    ∀ (c : CChar) (p : List CChar), codePath t c = some p → IsBitString p := by
  induction t with
  | nullptr => intro c p h; simp [codePath] at h
  | node ch f l r ihl ihr =>
    intro c p h
    rw [codePath] at h
    by_cases hleaf : (node ch f l r).isLeaf = true
    · rw [if_pos hleaf] at h
      by_cases hc : ch = c
      · rw [if_pos hc] at h
        cases h
        intro x hx
        cases hx
      · rw [if_neg hc] at h; cases h
    · rw [if_neg hleaf] at h
      cases hr : codePath r c with
      | some q =>
        rw [hr] at h
        cases h
        intro x hx
        rcases List.mem_cons.mp hx with e | e
        · exact Or.inr e
        · exact ihr c q hr x e
      | none =>
        rw [hr] at h
        cases hl : codePath l c with
        | none => rw [hl] at h; cases h
        | some q =>
          rw [hl] at h
          cases h
          intro x hx
          rcases List.mem_cons.mp hx with e | e
          · exact Or.inl e
          · exact ihl c q hl x e

theorem encodeText_isBitString (codes : CMap (List CChar))
    (h : ∀ c code, mapFind codes c = some code → IsBitString code) (text : List CChar) :
    IsBitString (encodeText text codes) := by
  induction text with
  | nil => intro x hx; cases hx
  | cons ch rest ih =>
    rw [encodeText_cons]
    intro x hx
    rcases List.mem_append.mp hx with e | e
    · cases hf : mapFind codes ch with
      | none => rw [hf] at e; cases e
      | some code => rw [hf] at e; exact h ch code hf x e
    · exact ih x e

theorem stringToBinaryDataLoop_length (bits : List Int) :
    ∀ (fuel i : Nat), bits.length - i ≤ 8 * fuel →
      (stringToBinaryDataLoop bits fuel i []).length = (bits.length - i + 7) / 8 := by
  intro fuel
  induction fuel with
  | zero => intro i h; simp only [stringToBinaryDataLoop, List.length_nil]; omega
  | succ fuel ih =>
    intro i h
    unfold stringToBinaryDataLoop
    by_cases hi : i < bits.length
    · rw [if_pos hi, stringToBinaryDataLoop_acc, List.length_append, ih (i + 8) (by omega)]
      simp only [List.nil_append, List.length_singleton]
      omega
    · rw [if_neg hi]
      simp only [List.length_nil]
      omega

theorem stringToBinaryData_length (s : List CChar) :
    (stringToBinaryData s).length = (s.length + 7) / 8 := by
  unfold stringToBinaryData
  have := stringToBinaryDataLoop_length (s.map (fun c => c - chr0))
    (s.map (fun c => c - chr0)).length 0 (by simp only [List.length_map]; omega)
  simpa using this

theorem validBits_paddingBits (L : Nat) : validBits ((L + 7) / 8) (paddingBits L) = L := by
  unfold validBits paddingBits
  rw [if_pos (by omega)]
  omega

/-- Packing a bit string and unpacking it with the valid-bit count that
`decodeArchive` derives from the stored padding count returns the bit string. -/
theorem unpack_pack_archive (s : List CChar) (hs : IsBitString s) :
    binaryDataToString (stringToBinaryData s)
      (validBits (stringToBinaryData s).length (paddingBits s.length)) = s := by
  rw [stringToBinaryData_length, validBits_paddingBits]
  exact binaryDataToString_stringToBinaryData s hs

/-- The codes of a tree with an inner root are its code paths. -/
theorem generateCodes_find_root {t : HuffmanNodePtr} (h : IsTree t) (hroot : t.isLeaf = false)
    (c : CChar) : mapFind (generateCodes t [] []) c = codePath t c := by
  rw [generateCodes_find h [] [] c (Or.inr hroot)]
  cases codePath t c <;> simp [mapFind]

theorem encodeText_generateCodes_isBitString {t : HuffmanNodePtr} (h : IsTree t)
    (hroot : t.isLeaf = false) (text : List CChar) :
    IsBitString (encodeText text (generateCodes t [] [])) := by
  apply encodeText_isBitString
  intro c code hc
  rw [generateCodes_find_root h hroot] at hc
  exact codePath_isBitString t c code hc

/-! ## The single-symbol buffer -/

theorem countLoop_replicate (x : CChar) : ∀ (m : Nat) (k : Int),
    (List.replicate m x).foldl (fun frequencies ch =>
      mapSet frequencies ch (wrapInt ((mapFind frequencies ch).getD 0 + 1))) [(x, wrapInt k)] =
        [(x, wrapInt (k + m))] := by
  intro m
  induction m with
  | zero => intro k; simp
  | succ m ih =>
    intro k
    rw [List.replicate_succ, List.foldl_cons]
    have : mapSet [(x, wrapInt k)] x (wrapInt ((mapFind [(x, wrapInt k)] x).getD 0 + 1)) =
        [(x, wrapInt (k + 1))] := by
      simp [mapSet, mapFind, wrapInt_add_wrapInt]
    rw [this, ih]
    congr 3
    push_cast
    ring

/-- The table of `n` copies of a byte has the one entry of that byte, with `n`
as an `int`. -/
theorem buildFrequencyTable_replicate (x : CChar) (n : Nat) (hn : 1 ≤ n) :
    buildFrequencyTable (List.replicate n x) = [(x, wrapInt (n : Int))] := by
  obtain ⟨m, rfl⟩ : ∃ m, n = m + 1 := ⟨n - 1, by omega⟩
  unfold buildFrequencyTable
  rw [List.replicate_succ, List.foldl_cons]
  have : mapSet ([] : CMap Int) x (wrapInt ((mapFind ([] : CMap Int) x).getD 0 + 1)) =
      [(x, wrapInt 1)] := by
    simp [mapSet, mapFind]
  rw [this, countLoop_replicate]
  congr 3
  push_cast
  ring

theorem buildHuffmanTree_single (H : HeapAlgorithms) (hH : H.Lawful) (e : CChar × Int) :
    buildHuffmanTree H [e] = some (leafOf e) := by
  obtain ⟨t, ht, hm⟩ := buildHuffmanTree_merges H hH [e] (List.cons_ne_nil _ _)
  rw [ht, merges_singleton hm]

theorem encodeText_replicate (x : CChar) (n : Nat) :
    encodeText (List.replicate n x) [(x, [chr0])] = List.replicate n chr0 := by
  induction n with
  | zero => rfl
  | succ n ih =>
    rw [List.replicate_succ, encodeText_cons, ih]
    simp [mapFind, List.replicate_succ]

theorem decodeLoop_null (root : HuffmanNodePtr) (decoded : List CChar) (n : Nat) :
    decodeLoop root (List.replicate (n + 1) chr0) (nullptr, decoded) = none := by
  simp [List.replicate_succ, decodeLoop, decodeStep, getLeft]

/-- On a tree that is a single leaf, the decoding walk steps to the null left
child at the first `'0'` and dereferences it at the second. -/
theorem decodeText_single (x : CChar) (f : Int) (n : Nat) :
    decodeText (List.replicate n chr0) (node x f nullptr nullptr) =
      if n ≤ 1 then some [] else none := by
  unfold decodeText
  cases n with
  | zero => simp [isNull, decodeLoop]
  | succ n =>
    cases n with
    | zero => simp [isNull, decodeLoop, decodeStep, getLeft]
    | succ n =>
      have h := decodeLoop_null (node x f nullptr nullptr) [] n
      rw [List.replicate_succ (n := n + 1)]
      rw [if_neg (by omega : ¬ n + 1 + 1 ≤ 1)]
      simp only [isNull, Bool.false_eq_true, if_false, decodeLoop, decodeStep, getLeft, if_true,
        Option.bind_eq_bind, Option.some_bind]
      exact h

/-! ## Prefix-freeness of the code paths -/

theorem codePath_prefixFree {t : HuffmanNodePtr} (h : IsTree t) :
    ∀ (a b : CChar) (pa pb : List CChar), a ≠ b → codePath t a = some pa →
      codePath t b = some pb → ¬ pa <+: pb := by
  induction h with
  | leaf ch f =>
    intro a b pa pb hab ha hb
    simp only [codePath, isLeaf, isNull, Bool.and_self, if_true] at ha hb
    by_cases e1 : ch = a
    · by_cases e2 : ch = b
      · exact absurd (e1.symm.trans e2) hab
      · rw [if_neg e2] at hb; cases hb
    · rw [if_neg e1] at ha; cases ha
  | inner ch f l r hl hr ihl ihr =>
    intro a b pa pb hab ha hb
    rw [codePath, isLeaf_inner _ _ _ hl] at ha hb
    simp only [Bool.false_eq_true, if_false] at ha hb
    have h01 : chr0 ≠ chr1 := by decide
    cases hra : codePath r a with
    | some qa =>
      rw [hra] at ha
      cases ha
      cases hrb : codePath r b with
      | some qb =>
        rw [hrb] at hb
        cases hb
        intro hp
        exact ihr a b qa qb hab hra hrb ((List.prefix_cons_inj chr1).mp hp)
      | none =>
        rw [hrb] at hb
        cases hlb : codePath l b with
        | none => rw [hlb] at hb; cases hb
        | some qb =>
          rw [hlb] at hb
          cases hb
          intro hp
          obtain ⟨s, hs⟩ := hp
          simp only [List.cons_append, List.cons.injEq] at hs
          exact h01 hs.1.symm
    | none =>
      rw [hra] at ha
      cases hla : codePath l a with
      | none => rw [hla] at ha; cases ha
      | some qa =>
        rw [hla] at ha
        cases ha
        cases hrb : codePath r b with
        | some qb =>
          rw [hrb] at hb
          cases hb
          intro hp
          obtain ⟨s, hs⟩ := hp
          simp only [List.cons_append, List.cons.injEq] at hs
          exact h01 hs.1
        | none =>
          rw [hrb] at hb
          cases hlb : codePath l b with
          | none => rw [hlb] at hb; cases hb
          | some qb =>
            rw [hlb] at hb
            cases hb
            intro hp
            exact ihl a b qa qb hab hla hlb ((List.prefix_cons_inj chr0).mp hp)

theorem prefixFree_generateCodes (H : HeapAlgorithms) (hH : H.Lawful) (frequencies : CMap Int)
    (t : HuffmanNodePtr) (ht : buildHuffmanTree H frequencies = some t) :
    PrefixFree (generateCodes t [] []) := by
  intro a b ca cb hab ha hb
  cases frequencies with
  | nil =>
    rw [buildHuffmanTree_nil] at ht
    cases ht
    simp [generateCodes, mapFind] at ha
  | cons e rest =>
    cases rest with
    | nil =>
      rw [buildHuffmanTree_single H hH] at ht
      cases ht
      simp only [leafOf, generateCodes, isLeaf, isNull, Bool.and_self, if_true, mapSet,
        mapFind] at ha hb
      by_cases e1 : a = e.1
      · by_cases e2 : b = e.1
        · exact absurd (e1.trans e2.symm) hab
        · rw [if_neg e2] at hb; cases hb
      · rw [if_neg e1] at ha; cases ha
    | cons e2 rest =>
      obtain ⟨t', ht', _, htree, _, hin⟩ :=
        buildHuffmanTree_spec H hH (e :: e2 :: rest) (List.cons_ne_nil _ _)
      rw [ht] at ht'
      cases ht'
      have hroot := hin (by simp)
      rw [generateCodes_find_root htree hroot] at ha hb
      exact codePath_prefixFree htree a b ca cb hab ha hb

/-! ## Reading the stored frequency table back -/

theorem mapSet_append_last {V : Type} (acc : CMap V) (k : CChar) (v : V)
    (h : ∀ e ∈ acc, e.1 < k) : mapSet acc k v = acc ++ [(k, v)] := by
  induction acc with
  | nil => rfl
  | cons e rest ih =>
    obtain ⟨ke, ve⟩ := e
    have hlt : ke < k := h (ke, ve) (List.mem_cons_self _ _)
    unfold mapSet
    rw [if_neg (not_lt.mpr (le_of_lt hlt)), if_neg (ne_of_gt hlt)]
    rw [ih (fun e he => h e (List.mem_cons_of_mem _ he))]
    rfl

theorem readLoop_eq (rest : CMap Int) : ∀ acc : CMap Int, IsMap (acc ++ rest) →
    rest.foldl (fun frequencies e => mapSet frequencies e.1 e.2) acc = acc ++ rest := by
  induction rest with
  | nil => intro acc _; simp
  | cons e rest ih =>
    intro acc h
    rw [List.foldl_cons]
    have hlast : mapSet acc e.1 e.2 = acc ++ [e] := by
      apply mapSet_append_last
      intro x hx
      unfold IsMap at h
      rw [List.map_append, List.pairwise_append] at h
      exact h.2.2 x.1 (List.mem_map.mpr ⟨x, hx, rfl⟩) e.1 (by simp)
    rw [hlast, ih (acc ++ [e]) (by simpa using h)]
    simp

/-- Reading back the entries of a frequency table gives the table. -/
theorem readFrequencyTable_eq (m : CMap Int) (hm : IsMap m) : readFrequencyTable m = m := by
  unfold readFrequencyTable
  have := readLoop_eq m [] (by simpa using hm)
  simpa using this

/-! ## The worked example `"aaabbc"` -/

theorem merges_step_inv {F : List HuffmanNodePtr} {t : HuffmanNodePtr} (h : Merges F t)
    (hlen : 2 ≤ F.length) :
    ∃ l r rest, F.Perm (l :: r :: rest) ∧ (∀ y ∈ F, l.getFrequency ≤ y.getFrequency) ∧
      (∀ y ∈ rest, r.getFrequency ≤ y.getFrequency) ∧
      Merges (node 0 (wrapInt (l.getFrequency + r.getFrequency)) l r :: rest) t := by
  cases h with
  | done => simp at hlen
  | step _ rest l r _ h1 h2 h3 h4 => exact ⟨l, r, rest, h1, h2, h3, h4⟩

theorem perm_cons_erase_inv {F L : List HuffmanNodePtr} {l : HuffmanNodePtr}
    (h : F.Perm (l :: L)) : l ∈ F ∧ (F.erase l).Perm L := by
  have hmem : l ∈ F := h.symm.subset (List.mem_cons_self _ _)
  exact ⟨hmem, ((List.perm_cons_erase hmem).symm.trans h).cons_inv⟩

theorem perm_pair_inv {x y r : HuffmanNodePtr} {rest : List HuffmanNodePtr}
    (h : [x, y].Perm (r :: rest)) : (r = x ∧ rest = [y]) ∨ (r = y ∧ rest = [x]) := by
  obtain ⟨hmem, hp⟩ := perm_cons_erase_inv h
  rcases List.mem_cons.mp hmem with e | e
  · subst e
    left
    rw [List.erase_cons_head] at hp
    exact ⟨rfl, List.perm_singleton.mp hp.symm⟩
  · have e' : r = y := by simpa using e
    subst e'
    right
    by_cases hxy : x = r
    · subst hxy
      rw [List.erase_cons_head] at hp
      exact ⟨rfl, List.perm_singleton.mp hp.symm⟩
    · have : [x, r].erase r = [x] := by
        rw [List.erase_cons_tail (by simpa using hxy), List.erase_cons_head]
      rw [this] at hp
      exact ⟨rfl, List.perm_singleton.mp hp.symm⟩

/-- The two trees the greedy merging can build for `"aaabbc"`: the leaf `c`
(extracted first) is the left child and the leaf `b` the right child of the
first merged node; the second step has a tie between the leaf `a` and the
merged node. -/
theorem buildHuffmanTree_aaabbc (H : HeapAlgorithms) (hH : H.Lawful) :
    buildHuffmanTree H [(97, 3), (98, 2), (99, 1)] =
        some (node 0 6 (node 97 3 nullptr nullptr)
          (node 0 3 (node 99 1 nullptr nullptr) (node 98 2 nullptr nullptr))) ∨
    buildHuffmanTree H [(97, 3), (98, 2), (99, 1)] =
        some (node 0 6 (node 0 3 (node 99 1 nullptr nullptr) (node 98 2 nullptr nullptr))
          (node 97 3 nullptr nullptr)) := by
  obtain ⟨t, ht, hm⟩ := buildHuffmanTree_merges H hH [(97, 3), (98, 2), (99, 1)]
    (List.cons_ne_nil _ _)
  rw [ht]
  simp only [List.map_cons, List.map_nil, leafOf] at hm
  obtain ⟨l, r, rest, hp, hmin1, hmin2, hm1⟩ := merges_step_inv hm (by simp)
  obtain ⟨hl, hp1⟩ := perm_cons_erase_inv hp
  have hA := hmin1 (node 99 1 nullptr nullptr) (by simp)
  simp only [List.mem_cons, List.mem_singleton, List.not_mem_nil, or_false] at hl
  rcases hl with e | e | e
  · subst e; simp [getFrequency] at hA
  · subst e; simp [getFrequency] at hA
  · subst e
    have he : [node 97 3 nullptr nullptr, node 98 2 nullptr nullptr,
        node 99 1 nullptr nullptr].erase (node 99 1 nullptr nullptr) =
        [node 97 3 nullptr nullptr, node 98 2 nullptr nullptr] := by decide
    rw [he] at hp1
    rcases perm_pair_inv hp1 with ⟨e1, e2⟩ | ⟨e1, e2⟩
    · subst e1 e2
      have := hmin2 (node 98 2 nullptr nullptr) (by simp)
      simp [getFrequency] at this
    · subst e1 e2
      have hw3 : wrapInt (1 + 2) = 3 := by decide
      have hw6 : wrapInt 6 = 6 := by decide
      simp only [getFrequency, hw3] at hm1
      obtain ⟨l2, r2, rest2, hq, _, _, hm2⟩ := merges_step_inv hm1 (by simp)
      rcases perm_pair_inv hq with ⟨e1, e2⟩ | ⟨e1, e2⟩
      · have e3 : r2 = node 97 3 nullptr nullptr ∧ rest2 = [] := by simpa using e2
        obtain ⟨e4, e5⟩ := e3
        subst e1 e4 e5
        right
        rw [merges_singleton hm2]
        simp [getFrequency, hw6]
      · have e3 : r2 = node 0 3 (node 99 1 nullptr nullptr) (node 98 2 nullptr nullptr) ∧
            rest2 = [] := by simpa using e2
        obtain ⟨e4, e5⟩ := e3
        subst e1 e4 e5
        left
        rw [merges_singleton hm2]
        simp [getFrequency, hw6]

/-! ## Optimality: the exchange argument -/

theorem dot_nil_left (ds : List Nat) : dot [] ds = 0 := by simp [dot]

theorem dot_cons (w : Int) (ws : List Int) (d : Nat) (ds : List Nat) :
    dot (w :: ws) (d :: ds) = w * d + dot ws ds := by
  simp [dot]

theorem dot_append (u v : List Int) (p q : List Nat) (h : u.length = p.length) :
    dot (u ++ v) (p ++ q) = dot u p + dot v q := by
  unfold dot
  rw [List.zipWith_append _ _ _ _ _ h, List.sum_append]

/-- Moving a least weight `a` to a deepest place: the weight `x` found there
takes the place of `a`, and the weighted path length does not grow. -/
theorem exchange_one (D : Nat) (a : Int) : ∀ (ws : List Int) (ds : List Nat) (x : Int) (V : List Int),
    ws.length = ds.length → (∀ d ∈ ds, d ≤ D) → (x :: ws).Perm (a :: V) →
    (∀ w ∈ x :: ws, a ≤ w) →
    ∃ ws', ws'.Perm V ∧ ws'.length = ws.length ∧
      dot ws' ds + a * D ≤ dot ws ds + x * D := by
  intro ws
  induction ws with
  | nil =>
    intro ds x V _ _ hp _
    refine ⟨[], ?_, rfl, ?_⟩
    · have hl := hp.length_eq
      simp only [List.length_cons, List.length_nil, zero_add] at hl
      have : V = [] := List.length_eq_zero.mp (by omega)
      rw [this]
    · have hx : x = a := by
        have := hp.subset (List.mem_cons_self x [])
        have hl := hp.length_eq
        simp only [List.length_cons, List.length_nil, zero_add] at hl
        have hV : V = [] := List.length_eq_zero.mp (by omega)
        rw [hV] at this
        simpa using this
      rw [hx]
  | cons w ws ih =>
    intro ds x V hlen hD hp hmin
    cases ds with
    | nil => simp at hlen
    | cons d ds =>
      have hd : d ≤ D := hD d (List.mem_cons_self _ _)
      by_cases hax : x = a
      · subst hax
        exact ⟨w :: ws, hp.cons_inv, rfl, le_refl _⟩
      · by_cases haw : w = a
        · subst haw
          refine ⟨x :: ws, ?_, rfl, ?_⟩
          · exact ((List.Perm.swap x w ws).trans hp).cons_inv
          · rw [dot_cons, dot_cons]
            have h1 : w ≤ x := hmin x (List.mem_cons_self _ _)
            have h2 : (d : Int) ≤ D := by exact_mod_cast hd
            nlinarith
        · have hwV : w ∈ V := by
            have := hp.subset (List.mem_cons_of_mem x (List.mem_cons_self w ws))
            rcases List.mem_cons.mp this with e | e
            · exact absurd e haw
            · exact e
          have hp2 : (x :: ws).Perm (a :: V.erase w) := by
            have h1 : (w :: x :: ws).Perm (w :: a :: V.erase w) := by
              refine (List.Perm.swap x w ws).trans (hp.trans ?_)
              exact ((List.perm_cons_erase hwV).cons a).trans (List.Perm.swap w a _)
            exact h1.cons_inv
          obtain ⟨ws1, hq, hl1, hc⟩ := ih ds x (V.erase w) (by simpa using hlen)
            (fun d' hd' => hD d' (List.mem_cons_of_mem _ hd')) hp2
            (by
              intro y hy
              rcases List.mem_cons.mp hy with e | e
              · exact hmin y (by simp [e])
              · exact hmin y (by simp [e]))
          refine ⟨w :: ws1, (hq.cons w).trans (List.perm_cons_erase hwV).symm, by simp [hl1], ?_⟩
          rw [dot_cons, dot_cons]
          linarith


/-- Moving the two least weights `a` and `b` to two deepest places. -/
theorem exchange_two (D : Nat) (a b : Int) (ws : List Int) (ds : List Nat) (x y : Int)
    (W : List Int) (hlen : ws.length = ds.length) (hD : ∀ d ∈ ds, d ≤ D)
    (hp : (x :: y :: ws).Perm (a :: b :: W)) (hmin1 : ∀ w ∈ x :: y :: ws, a ≤ w)
    (hmin2 : ∀ w ∈ W, b ≤ w) :
    ∃ ws', ws'.Perm W ∧ ws'.length = ws.length ∧
      dot ws' ds + (a + b) * D ≤ dot ws ds + (x + y) * D := by
  obtain ⟨ws1, hq1, hl1, hc1⟩ := exchange_one D a (y :: ws) (D :: ds) x (b :: W)
    (by simp [hlen])
    (by
      intro d hd
      rcases List.mem_cons.mp hd with e | e
      · rw [e]
      · exact hD d e) hp hmin1
  cases ws1 with
  | nil => simp at hl1
  | cons y1 wo =>
    have hmin3 : ∀ w ∈ y1 :: wo, b ≤ w := by
      intro w hw
      rcases List.mem_cons.mp (hq1.subset hw) with e | e
      · rw [e]
      · exact hmin2 w e
    obtain ⟨ws2, hq2, hl2, hc2⟩ := exchange_one D b wo ds y1 W
      (by simpa [hlen] using hl1) hD hq1 hmin3
    refine ⟨ws2, hq2, by rw [hl2]; simpa using hl1, ?_⟩
    rw [dot_cons, dot_cons] at hc1
    linarith

theorem depthsFrom_length_pos (k : Nat) (sh : Shape) : 0 < (depthsFrom k sh).length := by
  induction sh generalizing k with
  | leaf => simp [depthsFrom]
  | node l r ihl _ =>
    rw [depthsFrom, List.length_append]
    have := ihl (k + 1)
    omega

theorem depthsFrom_le (sh : Shape) : ∀ (k : Nat), ∀ d ∈ depthsFrom k sh, d ≤ k + sh.height := by
  induction sh with
  | leaf => intro k d hd; simp [depthsFrom] at hd; omega
  | node l r ihl ihr =>
    intro k d hd
    rw [depthsFrom, List.mem_append] at hd
    simp only [Shape.height]
    rcases hd with h | h
    · have := ihl (k + 1) d h
      omega
    · have := ihr (k + 1) d h
      omega

/-- A shape with an inner root has two sibling leaves at the greatest depth;
replacing them by one leaf gives a shape again. -/
theorem deepest_siblings (sh : Shape) : ∀ (k : Nat), 0 < sh.height →
    ∃ pre post sh',
      depthsFrom k sh = pre ++ [k + sh.height, k + sh.height] ++ post ∧
      depthsFrom k sh' = pre ++ [k + sh.height - 1] ++ post := by
  induction sh with
  | leaf => intro k h; simp [Shape.height] at h
  | node l r ihl ihr =>
    intro k _
    by_cases hl : 0 < l.height
    · by_cases hlr : r.height ≤ l.height
      · obtain ⟨pre, post, l', h1, h2⟩ := ihl (k + 1) hl
        refine ⟨pre, post ++ depthsFrom (k + 1) r, Shape.node l' r, ?_, ?_⟩
        · rw [depthsFrom, h1]
          have : k + (Shape.node l r).height = k + 1 + l.height := by
            simp only [Shape.height]; omega
          rw [this]
          simp
        · rw [depthsFrom, h2]
          have : k + (Shape.node l r).height = k + 1 + l.height := by
            simp only [Shape.height]; omega
          rw [this]
          simp
      · have hr : 0 < r.height := by omega
        obtain ⟨pre, post, r', h1, h2⟩ := ihr (k + 1) hr
        refine ⟨depthsFrom (k + 1) l ++ pre, post, Shape.node l r', ?_, ?_⟩
        · rw [depthsFrom, h1]
          have : k + (Shape.node l r).height = k + 1 + r.height := by
            simp only [Shape.height]; omega
          rw [this]
          simp
        · rw [depthsFrom, h2]
          have : k + (Shape.node l r).height = k + 1 + r.height := by
            simp only [Shape.height]; omega
          rw [this]
          simp
    · by_cases hr : 0 < r.height
      · obtain ⟨pre, post, r', h1, h2⟩ := ihr (k + 1) hr
        refine ⟨depthsFrom (k + 1) l ++ pre, post, Shape.node l r', ?_, ?_⟩
        · rw [depthsFrom, h1]
          have : k + (Shape.node l r).height = k + 1 + r.height := by
            simp only [Shape.height]; omega
          rw [this]
          simp
        · rw [depthsFrom, h2]
          have : k + (Shape.node l r).height = k + 1 + r.height := by
            simp only [Shape.height]; omega
          rw [this]
          simp
      · have e1 : l = Shape.leaf := by
          cases l with
          | leaf => rfl
          | node a b => simp [Shape.height] at hl
        have e2 : r = Shape.leaf := by
          cases r with
          | leaf => rfl
          | node a b => simp [Shape.height] at hr
        subst e1 e2
        refine ⟨[], [], Shape.leaf, ?_, ?_⟩
        · simp [depthsFrom, Shape.height]
        · simp [depthsFrom, Shape.height]


theorem depthsFrom_length_one (k : Nat) (sh : Shape) (h : (depthsFrom k sh).length = 1) :
    sh = Shape.leaf := by
  cases sh with
  | leaf => rfl
  | node l r =>
    rw [depthsFrom, List.length_append] at h
    have h1 := depthsFrom_length_pos (k + 1) l
    have h2 := depthsFrom_length_pos (k + 1) r
    omega

/-- The exchange step of the optimality argument: in any shape with the
weights `ws` at its leaves, the two least weights `a` and `b` can be brought to
two deepest sibling leaves and merged, which gives a shape for the weights with
`a + b` in place of `a` and `b` whose weighted path length is smaller by at
least `a + b`. -/
theorem merge_two_least (sh : Shape) (ws : List Int) (a b : Int) (W : List Int)
    (hlen : ws.length = (depthsFrom 0 sh).length) (hp : ws.Perm (a :: b :: W))
    (hmin1 : ∀ w ∈ ws, a ≤ w) (hmin2 : ∀ w ∈ W, b ≤ w) :
    ∃ sh' ws', ws'.Perm ((a + b) :: W) ∧ ws'.length = (depthsFrom 0 sh').length ∧
      dot ws' (depthsFrom 0 sh') + (a + b) ≤ dot ws (depthsFrom 0 sh) := by
  have hl2 : 2 ≤ ws.length := by rw [hp.length_eq]; simp
  have hh : 0 < sh.height := by
    cases sh with
    | leaf => simp [depthsFrom] at hlen; omega
    | node l r => simp [Shape.height]
  obtain ⟨pre, post, sh', hd, hd'⟩ := deepest_siblings sh 0 hh
  simp only [zero_add] at hd hd'
  have hlen2 : ws.length = pre.length + 2 + post.length := by
    rw [hlen, hd]; simp; omega
  have hsplit : ws = ws.take pre.length ++ ws.drop pre.length := (List.take_append_drop _ _).symm
  have htl : (ws.take pre.length).length = pre.length := by
    rw [List.length_take]; omega
  have hdl : (ws.drop pre.length).length = 2 + post.length := by
    rw [List.length_drop]; omega
  generalize ws.take pre.length = wpre at hsplit htl
  cases hdr : ws.drop pre.length with
  | nil => rw [hdr] at hdl; simp at hdl; omega
  | cons x tl1 =>
    cases tl1 with
    | nil => rw [hdr] at hdl; simp at hdl; omega
    | cons y wpost =>
      rw [hdr] at hsplit hdl
      have hpl : wpost.length = post.length := by
        simp only [List.length_cons] at hdl
        omega
      have hperm1 : (x :: y :: (wpre ++ wpost)).Perm (a :: b :: W) := by
        refine List.Perm.trans ?_ hp
        rw [hsplit]
        have : (wpre ++ x :: y :: wpost).Perm (x :: y :: wpost ++ wpre) := List.perm_append_comm
        refine List.Perm.trans ?_ this.symm
        simp only [List.cons_append]
        exact (List.perm_append_comm).cons y |>.cons x
      have hD : ∀ d ∈ pre ++ post, d ≤ sh.height := by
        intro d hdm
        have := depthsFrom_le sh 0 d (by
          rw [hd]
          rcases List.mem_append.mp hdm with e | e
          · simp [e]
          · simp [e])
        omega
      obtain ⟨wo, hq, hlo, hc⟩ := exchange_two sh.height a b (wpre ++ wpost) (pre ++ post) x y W
        (by simp [htl, hpl]) hD hperm1
        (by
          intro w hw
          exact hmin1 w (hp.symm.subset (hperm1.subset hw)))
        hmin2
      have hlo2 : wo.length = pre.length + post.length := by
        rw [hlo]; simp [htl, hpl]
      have hwo : wo = wo.take pre.length ++ wo.drop pre.length := (List.take_append_drop _ _).symm
      have hwt : (wo.take pre.length).length = pre.length := by
        rw [List.length_take]; omega
      refine ⟨sh', wo.take pre.length ++ [a + b] ++ wo.drop pre.length, ?_, ?_, ?_⟩
      · have : (wo.take pre.length ++ [a + b] ++ wo.drop pre.length).Perm
            ((a + b) :: (wo.take pre.length ++ wo.drop pre.length)) := by
          rw [List.append_assoc]
          exact List.perm_middle
        refine this.trans (List.Perm.cons _ ?_)
        rw [← hwo]
        exact hq
      · rw [hd']
        simp only [List.length_append, List.length_cons, List.length_nil, hwt, List.length_drop]
        omega
      · rw [hd', hd, hsplit]
        have e1 : dot (wo.take pre.length ++ [a + b] ++ wo.drop pre.length)
            (pre ++ [sh.height - 1] ++ post) =
            dot (wo.take pre.length) pre + (a + b) * ((sh.height - 1 : Nat) : Int) +
              dot (wo.drop pre.length) post := by
          rw [dot_append _ _ _ _ (by simp [hwt]), dot_append _ _ _ _ hwt]
          simp [dot]
        have e2 : dot (wpre ++ x :: y :: wpost) (pre ++ [sh.height, sh.height] ++ post) =
            dot wpre pre + (x + y) * (sh.height : Int) + dot wpost post := by
          have : wpre ++ x :: y :: wpost = wpre ++ [x, y] ++ wpost := by simp
          rw [this, dot_append _ _ _ _ (by simp [htl]), dot_append _ _ _ _ htl]
          simp [dot]
          ring
        have e3 : dot wo (pre ++ post) = dot (wo.take pre.length) pre + dot (wo.drop pre.length) post := by
          conv_lhs => rw [hwo]
          exact dot_append _ _ _ _ hwt
        have e4 : dot (wpre ++ wpost) (pre ++ post) = dot wpre pre + dot wpost post :=
          dot_append _ _ _ _ htl
        have e5 : ((sh.height - 1 : Nat) : Int) = (sh.height : Int) - 1 := by
          omega
        rw [e1, e2, e5]
        rw [e3, e4] at hc
        linarith

/-! ## Optimality: the greedy merging and the cost of the codes -/

theorem weight_inner (c : CChar) (f : Int) {l : HuffmanNodePtr} (r : HuffmanNodePtr)
    (hl : IsTree l) : weight (node c f l r) = weight l + weight r := by
  unfold weight
  rw [leafEntries_inner c f r hl, List.map_append, List.sum_append]

theorem treeCost_inner (c : CChar) (f : Int) {l : HuffmanNodePtr} (r : HuffmanNodePtr)
    (hl : IsTree l) :
    treeCost (node c f l r) = treeCost l + treeCost r + weight l + weight r := by
  rw [treeCost, isLeaf_inner c f r hl]
  simp

/-- The greedy merging is optimal for forests: the cost that the merging adds
to the trees of the forest is at most the weighted path length of any shape
with the frequencies of the forest at its leaves. -/
theorem merges_cost_le {F : List HuffmanNodePtr} {t : HuffmanNodePtr} (h : Merges F t) :
    (∀ u ∈ F, IsTree u ∧ u.getFrequency = weight u ∧ 0 ≤ weight u) →
    (F.map weight).sum ≤ 2147483647 →
    ∀ (sh : Shape) (ws : List Int), ws.Perm (F.map getFrequency) →
      ws.length = (depthsFrom 0 sh).length →
      treeCost t - (F.map treeCost).sum ≤ dot ws (depthsFrom 0 sh) := by
  induction h with
  | done t =>
    intro _ _ sh ws hp hlen
    have h1 : ws.length = 1 := by rw [hp.length_eq]; simp
    have hsh := depthsFrom_length_one 0 sh (by omega)
    subst hsh
    cases ws with
    | nil => simp at h1
    | cons w ws =>
      have : ws = [] := List.length_eq_zero.mp (by simpa using h1)
      subst this
      simp [depthsFrom, dot]
  | step F rest l r t h1 h2 h3 _ ih =>
    intro hF hb sh ws hp hlen
    have hl := hF l (h1.symm.subset (by simp))
    have hr := hF r (h1.symm.subset (by simp))
    have hp1 : ws.Perm (l.getFrequency :: r.getFrequency :: rest.map getFrequency) := by
      refine hp.trans ?_
      have := h1.map getFrequency
      simpa using this
    have hmin1 : ∀ w ∈ ws, l.getFrequency ≤ w := by
      intro w hw
      obtain ⟨u, hu, rfl⟩ := List.mem_map.mp (hp.subset hw)
      exact h2 u hu
    have hmin2 : ∀ w ∈ rest.map getFrequency, r.getFrequency ≤ w := by
      intro w hw
      obtain ⟨u, hu, rfl⟩ := List.mem_map.mp hw
      exact h3 u hu
    obtain ⟨sh', ws', hq, hlen', hc⟩ :=
      merge_two_least sh ws l.getFrequency r.getFrequency _ hlen hp1 hmin1 hmin2
    have hsumw : (F.map weight).sum = weight l + weight r + (rest.map weight).sum := by
      rw [(h1.map weight).sum_eq]
      simp only [List.map_cons, List.sum_cons]
      ring
    have hrest0 : 0 ≤ (rest.map weight).sum := by
      apply List.sum_nonneg
      intro x hx
      obtain ⟨u, hu, rfl⟩ := List.mem_map.mp hx
      exact (hF u (h1.symm.subset (by simp [hu]))).2.2
    have hwrap : wrapInt (l.getFrequency + r.getFrequency) = l.getFrequency + r.getFrequency := by
      apply wrapInt_of_range
      · rw [hl.2.1, hr.2.1]
        have := hl.2.2
        have := hr.2.2
        omega
      · rw [hl.2.1, hr.2.1]
        omega
    rw [hwrap] at ih
    have hF' : ∀ u ∈ node 0 (l.getFrequency + r.getFrequency) l r :: rest,
        IsTree u ∧ u.getFrequency = weight u ∧ 0 ≤ weight u := by
      intro u hu
      rcases List.mem_cons.mp hu with e | e
      · rw [e]
        refine ⟨IsTree.inner _ _ _ _ hl.1 hr.1, ?_, ?_⟩
        · rw [weight_inner _ _ _ hl.1, ← hl.2.1, ← hr.2.1]
          rfl
        · rw [weight_inner _ _ _ hl.1]
          have := hl.2.2
          have := hr.2.2
          omega
      · exact hF u (h1.symm.subset (by simp [e]))
    have hb' : ((node 0 (l.getFrequency + r.getFrequency) l r :: rest).map weight).sum ≤
        2147483647 := by
      simp only [List.map_cons, List.sum_cons, weight_inner _ _ _ hl.1]
      omega
    have := ih hF' hb' sh' ws' (by simpa using hq) hlen'
    have hsum : (F.map treeCost).sum = treeCost l + treeCost r + (rest.map treeCost).sum := by
      rw [(h1.map treeCost).sum_eq]
      simp only [List.map_cons, List.sum_cons]
      ring
    rw [hsum]
    simp only [List.map_cons, List.sum_cons, treeCost_inner _ _ _ hl.1] at this
    rw [← hl.2.1, ← hr.2.1] at this
    linarith

theorem codePath_eq_none (t : HuffmanNodePtr) : ∀ (c : CChar), c ∉ leafChars t →
    codePath t c = none := by
  induction t with
  | nullptr => intro c _; rfl
  | node ch f l r ihl ihr =>
    intro c hc
    rw [codePath]
    by_cases hleaf : (node ch f l r).isLeaf = true
    · rw [if_pos hleaf]
      have : ¬ ch = c := by
        intro e
        apply hc
        unfold leafChars
        rw [leafEntries, if_pos hleaf, e]
        simp
      rw [if_neg this]
    · rw [if_neg hleaf]
      have hc2 : c ∉ leafChars l ∧ c ∉ leafChars r := by
        unfold leafChars at hc ⊢
        rw [leafEntries, if_neg hleaf, List.map_append, List.mem_append] at hc
        exact ⟨fun h => hc (Or.inl h), fun h => hc (Or.inr h)⟩
      rw [ihr c hc2.2, ihl c hc2.1]
      rfl

/-- The weighted path length of a tree with distinct characters at its leaves
is the sum over the leaves of frequency times the length of the code path. -/
theorem treeCost_eq {t : HuffmanNodePtr} (h : IsTree t) : (leafChars t).Nodup →
    ((leafEntries t).map
      (fun e => e.2 * ((((codePath t e.1).getD []).length : Nat) : Int))).sum = treeCost t := by
  induction h with
  | leaf c f => intro _; simp [leafEntries, isLeaf, isNull, codePath, treeCost]
  | inner c f l r hl hr ihl ihr =>
    intro hnd
    unfold leafChars at hnd
    rw [leafEntries_inner _ _ _ hl, List.map_append, List.nodup_append] at hnd
    obtain ⟨hndl, hndr, hdisj⟩ := hnd
    rw [leafEntries_inner _ _ _ hl, List.map_append, List.sum_append, treeCost_inner _ _ _ hl,
      ← ihl hndl, ← ihr hndr]
    have e1 : (leafEntries l).map
        (fun e => e.2 * ((((codePath (node c f l r) e.1).getD []).length : Nat) : Int)) =
        (leafEntries l).map
          (fun e => e.2 * ((((codePath l e.1).getD []).length : Nat) : Int) + e.2) := by
      apply List.map_congr_left
      intro e he
      have hin : e.1 ∈ leafChars l := List.mem_map.mpr ⟨e, he, rfl⟩
      have hnr : e.1 ∉ leafChars r := fun h => hdisj hin h
      rw [codePath, isLeaf_inner _ _ _ hl]
      simp only [Bool.false_eq_true, if_false]
      rw [codePath_eq_none r e.1 hnr]
      have hs := codePath_isSome hl e.1 hin
      cases hp : codePath l e.1 with
      | none => rw [hp] at hs; cases hs
      | some p =>
        simp only [Option.map_some', Option.getD_some, List.length_cons]
        push_cast
        ring
    have e2 : (leafEntries r).map
        (fun e => e.2 * ((((codePath (node c f l r) e.1).getD []).length : Nat) : Int)) =
        (leafEntries r).map
          (fun e => e.2 * ((((codePath r e.1).getD []).length : Nat) : Int) + e.2) := by
      apply List.map_congr_left
      intro e he
      have hin : e.1 ∈ leafChars r := List.mem_map.mpr ⟨e, he, rfl⟩
      rw [codePath, isLeaf_inner _ _ _ hl]
      simp only [Bool.false_eq_true, if_false]
      have hs := codePath_isSome hr e.1 hin
      cases hp : codePath r e.1 with
      | none => rw [hp] at hs; cases hs
      | some p =>
        simp only [Option.getD_some, List.length_cons]
        push_cast
        ring
    rw [e1, e2]
    have hsum : ∀ (es : List (CChar × Int)) (g : CChar × Int → Int),
        (es.map (fun e => g e + e.2)).sum = (es.map g).sum + (es.map Prod.snd).sum := by
      intro es g
      induction es with
      | nil => simp
      | cons e es ih => simp only [List.map_cons, List.sum_cons, ih]; ring
    rw [hsum, hsum]
    unfold weight
    ring

/-! ## Optimality: from a prefix-free code to a tree shape -/

theorem depthsFrom_succ (sh : Shape) : ∀ k, depthsFrom (k + 1) sh = (depthsFrom k sh).map (· + 1) := by
  induction sh with
  | leaf => intro k; rfl
  | node l r ihl ihr => intro k; simp only [depthsFrom, List.map_append, ihl (k + 1), ihr (k + 1)]

theorem dot_map_succ : ∀ (ws : List Int) (ds : List Nat), ws.length = ds.length →
    dot ws (ds.map (· + 1)) = dot ws ds + ws.sum := by
  intro ws
  induction ws with
  | nil => intro ds _; simp [dot]
  | cons w ws ih =>
    intro ds h
    cases ds with
    | nil => simp at h
    | cons d ds =>
      rw [List.map_cons, dot_cons, dot_cons, ih ds (by simpa using h), List.sum_cons]
      push_cast
      ring

/-- Codes that share their first bit: a shape for the rest of the codes gives
a bound with one bit to spare for every weight. -/
theorem shape_of_common_bit (n : Nat)
    (IH : ∀ (L : List (Int × List CChar)), (L.map (fun x => x.2.length)).sum ≤ n → L ≠ [] →
      (∀ x ∈ L, 0 ≤ x.1) → (∀ x ∈ L, IsBitString x.2) →
      L.Pairwise (fun x y => ¬ x.2 <+: y.2 ∧ ¬ y.2 <+: x.2) →
      ∃ sh ws, ws.Perm (L.map Prod.fst) ∧ ws.length = (depthsFrom 0 sh).length ∧
        dot ws (depthsFrom 0 sh) ≤ (L.map (fun x => x.1 * (x.2.length : Int))).sum)
    (c : CChar) (M : List (Int × List CChar)) (hM : M ≠ [])
    (hsum : (M.map (fun x => x.2.length)).sum ≤ n + 1)
    (hc : ∀ x ∈ M, ∃ tl, x.2 = c :: tl) (hnn : ∀ x ∈ M, 0 ≤ x.1)
    (hbits : ∀ x ∈ M, IsBitString x.2)
    (hpw : M.Pairwise (fun x y => ¬ x.2 <+: y.2 ∧ ¬ y.2 <+: x.2)) :
    ∃ sh ws, ws.Perm (M.map Prod.fst) ∧ ws.length = (depthsFrom 0 sh).length ∧
      dot ws (depthsFrom 0 sh) + (M.map Prod.fst).sum ≤
        (M.map (fun x => x.1 * (x.2.length : Int))).sum := by
  have hlen : ∀ (M : List (Int × List CChar)), (∀ x ∈ M, ∃ tl, x.2 = c :: tl) →
      (M.map (fun x => x.2.length)).sum =
        ((M.map (fun x => (x.1, x.2.tail))).map (fun x => x.2.length)).sum + M.length := by
    intro M
    induction M with
    | nil => intro _; rfl
    | cons x M ih =>
      intro h
      obtain ⟨tl, htl⟩ := h x (List.mem_cons_self _ _)
      simp only [List.map_cons, List.sum_cons, List.length_cons, htl, List.tail_cons]
      have := ih (fun y hy => h y (List.mem_cons_of_mem _ hy))
      simp only [List.map_map] at this ⊢
      omega
  have hcost : ∀ (M : List (Int × List CChar)), (∀ x ∈ M, ∃ tl, x.2 = c :: tl) →
      (M.map (fun x => x.1 * (x.2.length : Int))).sum =
        ((M.map (fun x => (x.1, x.2.tail))).map (fun x => x.1 * (x.2.length : Int))).sum +
          (M.map Prod.fst).sum := by
    intro M
    induction M with
    | nil => intro _; rfl
    | cons x M ih =>
      intro h
      obtain ⟨tl, htl⟩ := h x (List.mem_cons_self _ _)
      simp only [List.map_cons, List.sum_cons, htl, List.tail_cons, List.length_cons]
      have := ih (fun y hy => h y (List.mem_cons_of_mem _ hy))
      simp only [List.map_map] at this ⊢
      push_cast
      linarith
  have hMlen : 0 < M.length := List.length_pos.mpr hM
  obtain ⟨sh, ws, hp, hl, hd⟩ := IH (M.map (fun x => (x.1, x.2.tail)))
    (by have := hlen M hc; omega)
    (by simpa using hM)
    (by
      intro x hx
      obtain ⟨y, hy, rfl⟩ := List.mem_map.mp hx
      exact hnn y hy)
    (by
      intro x hx
      obtain ⟨y, hy, rfl⟩ := List.mem_map.mp hx
      intro b hb
      exact hbits y hy b (List.mem_of_mem_tail hb))
    (by
      rw [List.pairwise_map]
      refine hpw.imp_of_mem ?_
      intro x y hx hy hxy
      obtain ⟨tx, htx⟩ := hc x hx
      obtain ⟨ty, hty⟩ := hc y hy
      simp only [htx, hty, List.tail_cons] at hxy ⊢
      exact ⟨fun h => hxy.1 ((List.prefix_cons_inj c).mpr h),
        fun h => hxy.2 ((List.prefix_cons_inj c).mpr h)⟩)
  refine ⟨sh, ws, ?_, hl, ?_⟩
  · simpa [List.map_map, Function.comp] using hp
  · rw [hcost M hc]
    linarith


theorem dot_node (ws0 ws1 : List Int) (sh0 sh1 : Shape)
    (h0 : ws0.length = (depthsFrom 0 sh0).length) (h1 : ws1.length = (depthsFrom 0 sh1).length) :
    dot (ws0 ++ ws1) (depthsFrom 0 (Shape.node sh0 sh1)) =
      dot ws0 (depthsFrom 0 sh0) + ws0.sum + (dot ws1 (depthsFrom 0 sh1) + ws1.sum) := by
  rw [depthsFrom, depthsFrom_succ sh0 0, depthsFrom_succ sh1 0,
    dot_append _ _ _ _ (by simpa using h0), dot_map_succ _ _ h0, dot_map_succ _ _ h1]

/-- Every prefix-free binary code is matched by a full binary tree: for
weights that are not negative there is a shape, with the weights at its leaves,
whose weighted path length is at most the weighted length of the code. -/
theorem shape_of_prefixFree : ∀ (n : Nat) (L : List (Int × List CChar)),
    (L.map (fun x => x.2.length)).sum ≤ n → L ≠ [] →
    (∀ x ∈ L, 0 ≤ x.1) → (∀ x ∈ L, IsBitString x.2) →
    L.Pairwise (fun x y => ¬ x.2 <+: y.2 ∧ ¬ y.2 <+: x.2) →
    ∃ sh ws, ws.Perm (L.map Prod.fst) ∧ ws.length = (depthsFrom 0 sh).length ∧
      dot ws (depthsFrom 0 sh) ≤ (L.map (fun x => x.1 * (x.2.length : Int))).sum := by
  have single : ∀ (x : Int × List CChar), 0 ≤ x.1 →
      ∃ sh ws, ws.Perm ([x].map Prod.fst) ∧ ws.length = (depthsFrom 0 sh).length ∧
        dot ws (depthsFrom 0 sh) ≤ ([x].map (fun x => x.1 * (x.2.length : Int))).sum := by
    intro x hx
    refine ⟨Shape.leaf, [x.1], by simp, by simp [depthsFrom], ?_⟩
    simp only [depthsFrom, dot, List.zipWith_cons_cons, List.zipWith_nil_right, List.sum_cons,
      List.sum_nil, List.map_cons, List.map_nil]
    have : (0 : Int) ≤ x.1 * (x.2.length : Int) := mul_nonneg hx (by positivity)
    simpa using this
  have nonempty : ∀ (x1 x2 : Int × List CChar) (rest : List (Int × List CChar)),
      (x1 :: x2 :: rest).Pairwise (fun x y => ¬ x.2 <+: y.2 ∧ ¬ y.2 <+: x.2) →
      ∀ x ∈ x1 :: x2 :: rest, x.2 ≠ [] := by
    intro x1 x2 rest hpw x hx e
    rw [List.pairwise_cons] at hpw
    rcases List.mem_cons.mp hx with h | h
    · subst h
      have := (hpw.1 x2 (List.mem_cons_self _ _)).1
      rw [e] at this
      exact this (List.nil_prefix)
    · have := (hpw.1 x h).2
      rw [e] at this
      exact this (List.nil_prefix)
  intro n
  induction n with
  | zero =>
    intro L hsum hL hnn _ hpw
    cases L with
    | nil => exact absurd rfl hL
    | cons x1 L =>
      cases L with
      | nil => exact single x1 (hnn x1 (List.mem_cons_self _ _))
      | cons x2 rest =>
        exfalso
        have h1 := nonempty x1 x2 rest hpw x1 (List.mem_cons_self _ _)
        have : 0 < x1.2.length := List.length_pos.mpr h1
        simp only [List.map_cons, List.sum_cons] at hsum
        omega
  | succ n IH =>
    intro L hsum hL hnn hbits hpw
    cases L with
    | nil => exact absurd rfl hL
    | cons x1 L =>
      cases L with
      | nil => exact single x1 (hnn x1 (List.mem_cons_self _ _))
      | cons x2 rest =>
        have hne := nonempty x1 x2 rest hpw
        generalize hLL : x1 :: x2 :: rest = LL at hsum hL hnn hbits hpw hne
        have hperm := List.filter_append_perm (fun x => decide (x.2.head? = some chr0)) LL
        generalize hL0 : LL.filter (fun x => decide (x.2.head? = some chr0)) = L0 at hperm
        generalize hL1 : LL.filter (fun x => !decide (x.2.head? = some chr0)) = L1 at hperm
        have hsub0 : L0.Sublist LL := by rw [← hL0]; exact List.filter_sublist _
        have hsub1 : L1.Sublist LL := by rw [← hL1]; exact List.filter_sublist _
        have hc0 : ∀ x ∈ L0, ∃ tl, x.2 = chr0 :: tl := by
          intro x hx
          rw [← hL0, List.mem_filter] at hx
          have h := hx.2
          simp only [decide_eq_true_eq] at h
          cases hx2 : x.2 with
          | nil => rw [hx2] at h; simp at h
          | cons b tl =>
            rw [hx2] at h
            simp only [List.head?_cons, Option.some.injEq] at h
            exact ⟨tl, by rw [h]⟩
        have hc1 : ∀ x ∈ L1, ∃ tl, x.2 = chr1 :: tl := by
          intro x hx
          rw [← hL1, List.mem_filter] at hx
          have h := hx.2
          simp only [Bool.not_eq_true', decide_eq_false_iff_not] at h
          cases hx2 : x.2 with
          | nil => exact absurd hx2 (hne x hx.1)
          | cons b tl =>
            rw [hx2] at h
            simp only [List.head?_cons, Option.some.injEq] at h
            have hb := hbits x hx.1 b (by rw [hx2]; exact List.mem_cons_self _ _)
            rcases hb with e | e
            · exact absurd e h
            · exact ⟨tl, by rw [e]⟩
        have hsumN : (LL.map (fun x => x.2.length)).sum =
            (L0.map (fun x => x.2.length)).sum + (L1.map (fun x => x.2.length)).sum := by
          rw [← (hperm.map (fun x => x.2.length)).sum_eq, List.map_append, List.sum_append]
        have hsumC : (LL.map (fun x => x.1 * (x.2.length : Int))).sum =
            (L0.map (fun x => x.1 * (x.2.length : Int))).sum +
              (L1.map (fun x => x.1 * (x.2.length : Int))).sum := by
          rw [← (hperm.map (fun x => x.1 * (x.2.length : Int))).sum_eq, List.map_append,
            List.sum_append]
        have hfst : (L0.map Prod.fst ++ L1.map Prod.fst).Perm (LL.map Prod.fst) := by
          rw [← List.map_append]
          exact hperm.map Prod.fst
        have hnn0 : ∀ x ∈ L0, 0 ≤ x.1 := fun x hx => hnn x (hsub0.subset hx)
        have hnn1 : ∀ x ∈ L1, 0 ≤ x.1 := fun x hx => hnn x (hsub1.subset hx)
        have hs0 : 0 ≤ (L0.map Prod.fst).sum :=
          List.sum_nonneg (fun w hw => by
            obtain ⟨x, hx, rfl⟩ := List.mem_map.mp hw
            exact hnn0 x hx)
        have hs1 : 0 ≤ (L1.map Prod.fst).sum :=
          List.sum_nonneg (fun w hw => by
            obtain ⟨x, hx, rfl⟩ := List.mem_map.mp hw
            exact hnn1 x hx)
        by_cases e0 : L0 = []
        · have hL1ne : L1 ≠ [] := by
            intro e1
            rw [e0, e1] at hperm
            exact hL (List.perm_nil.mp hperm.symm)
          obtain ⟨sh, ws, hp, hl, hd⟩ := shape_of_common_bit n IH chr1 L1 hL1ne (by omega) hc1
            hnn1 (fun x hx => hbits x (hsub1.subset hx)) (hpw.sublist hsub1)
          refine ⟨sh, ws, hp.trans ?_, hl, ?_⟩
          · rw [e0] at hfst; simpa using hfst
          · rw [hsumC, e0]
            simp only [List.map_nil, List.sum_nil, zero_add]
            linarith
        · by_cases e1 : L1 = []
          · obtain ⟨sh, ws, hp, hl, hd⟩ := shape_of_common_bit n IH chr0 L0 e0 (by omega) hc0
              hnn0 (fun x hx => hbits x (hsub0.subset hx)) (hpw.sublist hsub0)
            refine ⟨sh, ws, hp.trans ?_, hl, ?_⟩
            · rw [e1] at hfst; simpa using hfst
            · rw [hsumC, e1]
              simp only [List.map_nil, List.sum_nil, add_zero]
              linarith
          · obtain ⟨sh0, ws0, hp0, hl0, hd0⟩ := shape_of_common_bit n IH chr0 L0 e0 (by omega)
              hc0 hnn0 (fun x hx => hbits x (hsub0.subset hx)) (hpw.sublist hsub0)
            obtain ⟨sh1, ws1, hp1, hl1, hd1⟩ := shape_of_common_bit n IH chr1 L1 e1 (by omega)
              hc1 hnn1 (fun x hx => hbits x (hsub1.subset hx)) (hpw.sublist hsub1)
            refine ⟨Shape.node sh0 sh1, ws0 ++ ws1, (hp0.append hp1).trans hfst, ?_, ?_⟩
            · rw [depthsFrom, depthsFrom_succ sh0 0, depthsFrom_succ sh1 0]
              simp [hl0, hl1]
            · rw [dot_node ws0 ws1 sh0 sh1 hl0 hl1, hsumC, hp0.sum_eq, hp1.sum_eq]
              linarith

/-! ## Optimality of the generated code -/

/-- The weighted length of the generated code is the weighted path length of
the tree. -/
theorem weightedLength_generateCodes (frequencies : CMap Int) (hmap : IsMap frequencies)
    {t : HuffmanNodePtr} (htree : IsTree t) (hroot : t.isLeaf = false)
    (hperm : (leafEntries t).Perm frequencies) :
    weightedLength frequencies (codeLength (generateCodes t [] [])) = treeCost t := by
  have hnd : (leafChars t).Nodup :=
    ((hperm.map Prod.fst).nodup_iff).mpr (isMap_nodup frequencies hmap)
  rw [← treeCost_eq htree hnd]
  unfold weightedLength codeLength
  rw [← (hperm.map _).sum_eq]
  congr 1
  apply List.map_congr_left
  intro e _
  rw [generateCodes_find_root htree hroot]

/-- The tree built from a frequency table has the least weighted path length
among all shapes with the counts of the table at their leaves. -/
theorem buildHuffmanTree_cost_le (H : HeapAlgorithms) (hH : H.Lawful) (frequencies : CMap Int)
    (hne : frequencies ≠ []) (hnn : ∀ e ∈ frequencies, 0 ≤ e.2)
    (hbound : (frequencies.map Prod.snd).sum ≤ 2147483647)
    (t : HuffmanNodePtr) (ht : buildHuffmanTree H frequencies = some t)
    (sh : Shape) (ws : List Int) (hp : ws.Perm (frequencies.map Prod.snd))
    (hlen : ws.length = (depthsFrom 0 sh).length) :
    treeCost t ≤ dot ws (depthsFrom 0 sh) := by
  obtain ⟨t', ht', hm, _⟩ := buildHuffmanTree_spec H hH frequencies hne
  rw [ht] at ht'
  cases ht'
  have hF : ∀ u ∈ frequencies.map leafOf,
      IsTree u ∧ u.getFrequency = weight u ∧ 0 ≤ weight u := by
    intro u hu
    obtain ⟨e, he, rfl⟩ := List.mem_map.mp hu
    have hw : weight (leafOf e) = e.2 := by
      simp [leafOf, weight, leafEntries, isLeaf, isNull]
    exact ⟨isTree_leafOf e, by rw [hw]; rfl, by rw [hw]; exact hnn e he⟩
  have hwsum : ((frequencies.map leafOf).map weight).sum ≤ 2147483647 := by
    have : (frequencies.map leafOf).map weight = frequencies.map Prod.snd := by
      rw [List.map_map]
      apply List.map_congr_left
      intro e _
      simp [leafOf, weight, leafEntries, isLeaf, isNull]
    rw [this]
    exact hbound
  have h0 : ((frequencies.map leafOf).map treeCost).sum = 0 := by
    apply List.sum_eq_zero
    intro x hx
    obtain ⟨u, hu, rfl⟩ := List.mem_map.mp hx
    obtain ⟨e, _, rfl⟩ := List.mem_map.mp hu
    simp [leafOf, treeCost, isLeaf, isNull]
  have hg : (frequencies.map leafOf).map getFrequency = frequencies.map Prod.snd := by
    rw [List.map_map]
    apply List.map_congr_left
    intro e _
    rfl
  have := merges_cost_le hm hF hwsum sh ws (by rw [hg]; exact hp) hlen
  rw [h0] at this
  linarith

/-- The generated code is optimal: on a table with two entries or more and
positive counts that sum to at most `INT_MAX`, its weighted length is at most
that of any prefix-free binary code for the keys of the table. -/
theorem generateCodes_optimal (H : HeapAlgorithms) (hH : H.Lawful) (frequencies : CMap Int)
    (hmap : IsMap frequencies) (h2 : 2 ≤ frequencies.length)
    (hpos : ∀ e ∈ frequencies, 0 < e.2)
    (hbound : (frequencies.map Prod.snd).sum ≤ 2147483647) (code : CChar → List CChar)
    (hbits : ∀ e ∈ frequencies, IsBitString (code e.1))
    (hpf : ∀ e1 ∈ frequencies, ∀ e2 ∈ frequencies, e1.1 ≠ e2.1 → ¬ code e1.1 <+: code e2.1)
    (t : HuffmanNodePtr) (ht : buildHuffmanTree H frequencies = some t) :
    weightedLength frequencies (codeLength (generateCodes t [] [])) ≤
      weightedLength frequencies (fun c => (code c).length) := by
  have hne : frequencies ≠ [] := by
    intro e; rw [e] at h2; simp at h2
  obtain ⟨t', ht', _, htree, hperm, hin⟩ := buildHuffmanTree_spec H hH frequencies hne
  rw [ht] at ht'
  cases ht'
  rw [weightedLength_generateCodes frequencies hmap htree (hin h2) hperm]
  have hpw : (frequencies.map (fun e => (e.2, code e.1))).Pairwise
      (fun x y => ¬ x.2 <+: y.2 ∧ ¬ y.2 <+: x.2) := by
    rw [List.pairwise_map]
    have hk : frequencies.Pairwise (fun a b => a.1 < b.1) := by
      have := hmap
      unfold IsMap at this
      rwa [List.pairwise_map] at this
    refine hk.imp_of_mem ?_
    intro a b ha hb hab
    exact ⟨hpf a ha b hb (ne_of_lt hab), hpf b hb a ha (ne_of_gt hab)⟩
  obtain ⟨sh, ws, hp, hlen, hd⟩ := shape_of_prefixFree _
    (frequencies.map (fun e => (e.2, code e.1))) (le_refl _)
    (by simpa using hne)
    (by
      intro x hx
      obtain ⟨e, he, rfl⟩ := List.mem_map.mp hx
      exact le_of_lt (hpos e he))
    (by
      intro x hx
      obtain ⟨e, he, rfl⟩ := List.mem_map.mp hx
      exact hbits e he)
    hpw
  have hp' : ws.Perm (frequencies.map Prod.snd) := by
    simpa [List.map_map, Function.comp] using hp
  have hc := buildHuffmanTree_cost_le H hH frequencies hne (fun e he => le_of_lt (hpos e he))
    hbound t ht sh ws hp' hlen
  refine le_trans hc (le_trans hd (le_of_eq ?_))
  unfold weightedLength
  rw [List.map_map]
  rfl

/-! ## Code tables of arbitrary trees -/

/-- The entry `generateCodes` leaves for `c`, for any tree: the accumulated
prefix followed by the code path of `c`, or the entry found before the call. -/
theorem generateCodes_find_any (t : HuffmanNodePtr) :
    ∀ (pre : List CChar) (codes : CMap (List CChar)) (c : CChar),
      (pre ≠ [] ∨ t.isLeaf = false) →
      mapFind (generateCodes t pre codes) c =
        match codePath t c with
        | some p => some (pre ++ p)
        | none => mapFind codes c := by
  induction t with
  | nullptr => intro pre codes c _; rfl
  | node ch f l r ihl ihr =>
    intro pre codes c hpre
    by_cases hleaf : (node ch f l r).isLeaf = true
    · have hne : pre ≠ [] := by
        rcases hpre with h1 | h1
        · exact h1
        · rw [hleaf] at h1; cases h1
      have he : pre.isEmpty = false := by
        cases pre with
        | nil => exact absurd rfl hne
        | cons a b => rfl
      rw [generateCodes, if_pos hleaf, he, codePath, if_pos hleaf, mapFind_mapSet]
      by_cases hc : c = ch
      · subst hc; simp
      · have hc2 : ¬ ch = c := fun e => hc e.symm
        simp [hc, hc2]
    · rw [generateCodes, if_neg hleaf, codePath, if_neg hleaf,
        ihr (pre ++ [chr1]) _ c (Or.inl (by simp)), ihl (pre ++ [chr0]) _ c (Or.inl (by simp))]
      cases codePath r c with
      | some p => simp
      | none =>
        cases codePath l c with
        | some p => simp
        | none => simp

theorem generateCodes_find_inner (t : HuffmanNodePtr) (hroot : t.isLeaf = false) (c : CChar) :
    mapFind (generateCodes t [] []) c = codePath t c := by
  rw [generateCodes_find_any t [] [] c (Or.inr hroot)]
  cases codePath t c <;> simp [mapFind]

theorem codePath_isSome_iff (t : HuffmanNodePtr) :
    ∀ c : CChar, (codePath t c).isSome = true ↔ c ∈ leafChars t := by
  induction t with
  | nullptr => intro c; simp [codePath, leafChars, leafEntries]
  | node ch f l r ihl ihr =>
    intro c
    unfold leafChars at ihl ihr ⊢
    by_cases hleaf : (node ch f l r).isLeaf = true
    · rw [codePath, if_pos hleaf, leafEntries, if_pos hleaf]
      by_cases hc : ch = c
      · simp [hc]
      · have hc2 : ¬ c = ch := fun e => hc e.symm
        simp [hc, hc2]
    · rw [codePath, if_neg hleaf, leafEntries, if_neg hleaf, List.map_append, List.mem_append,
        ← ihl c, ← ihr c]
      cases codePath r c with
      | some p => simp
      | none =>
        cases codePath l c with
        | some p => simp
        | none => simp

theorem leafAt_of_codePath (t : HuffmanNodePtr) :
    ∀ (c : CChar) (p : List CChar), codePath t c = some p → LeafAt t p c := by
  induction t with
  | nullptr => intro c p h; simp [codePath] at h
  | node ch f l r ihl ihr =>
    intro c p h
    by_cases hleaf : (node ch f l r).isLeaf = true
    · rw [codePath, if_pos hleaf] at h
      by_cases hc : ch = c
      · rw [if_pos hc] at h
        cases h
        subst hc
        cases l with
        | node _ _ _ _ => simp [isLeaf, isNull] at hleaf
        | nullptr =>
          cases r with
          | node _ _ _ _ => simp [isLeaf, isNull] at hleaf
          | nullptr => exact LeafAt.here ch f
      · rw [if_neg hc] at h; cases h
    · rw [codePath, if_neg hleaf] at h
      cases hr : codePath r c with
      | some q =>
        rw [hr] at h
        cases h
        exact LeafAt.right _ _ _ _ _ _ (ihr c q hr)
      | none =>
        rw [hr] at h
        cases hl : codePath l c with
        | none => rw [hl] at h; cases h
        | some q =>
          rw [hl] at h
          cases h
          exact LeafAt.left _ _ _ _ _ _ (ihl c q hl)

theorem leafAt_mem {t : HuffmanNodePtr} {p : List CChar} {c : CChar} (h : LeafAt t p c) :
    c ∈ leafChars t := by
  induction h with
  | here c f => simp [leafChars, leafEntries, isLeaf, isNull]
  | left ch f l r p c hl ih =>
    have hnl : l.isNull = false := by cases hl <;> rfl
    unfold leafChars at ih ⊢
    rw [leafEntries]
    simp only [isLeaf, hnl, Bool.false_and, Bool.false_eq_true, if_false, List.map_append,
      List.mem_append]
    exact Or.inl ih
  | right ch f l r p c hr ih =>
    have hnr : r.isNull = false := by cases hr <;> rfl
    unfold leafChars at ih ⊢
    rw [leafEntries]
    simp only [isLeaf, hnr, Bool.and_false, Bool.false_eq_true, if_false, List.map_append,
      List.mem_append]
    exact Or.inr ih

/-- In a tree whose leaves carry distinct characters, the code path of a
character is the path to the leaf that carries it. -/
theorem codePath_of_leafAt {t : HuffmanNodePtr} {p : List CChar} {c : CChar}
    (h : LeafAt t p c) : (leafChars t).Nodup → codePath t c = some p := by
  induction h with
  | here c f => intro _; simp [codePath, isLeaf, isNull]
  | left ch f l r p c hl ih =>
    intro hnd
    have hnl : l.isNull = false := by cases hl <;> rfl
    have hleaf : (node ch f l r).isLeaf = false := by simp [isLeaf, hnl]
    unfold leafChars at hnd
    rw [leafEntries, hleaf] at hnd
    simp only [Bool.false_eq_true, if_false, List.map_append] at hnd
    rw [List.nodup_append] at hnd
    have hnr : c ∉ leafChars r := fun hc => hnd.2.2 (leafAt_mem hl) hc
    rw [codePath, hleaf]
    simp only [Bool.false_eq_true, if_false]
    rw [codePath_eq_none r c hnr, ih hnd.1]
    rfl
  | right ch f l r p c hr ih =>
    intro hnd
    have hnr : r.isNull = false := by cases hr <;> rfl
    have hleaf : (node ch f l r).isLeaf = false := by simp [isLeaf, hnr]
    unfold leafChars at hnd
    rw [leafEntries, hleaf] at hnd
    simp only [Bool.false_eq_true, if_false, List.map_append] at hnd
    rw [List.nodup_append] at hnd
    rw [codePath, hleaf]
    simp only [Bool.false_eq_true, if_false]
    rw [ih hnd.2.1]

theorem mem_mapSet {V : Type} (m : CMap V) (k : CChar) (v : V) (e : CChar × V)
    (h : e ∈ mapSet m k v) : e = (k, v) ∨ e ∈ m := by
  induction m with
  | nil => simpa [mapSet] using h
  | cons x rest ih =>
    obtain ⟨kx, vx⟩ := x
    unfold mapSet at h
    by_cases h1 : k < kx
    · rw [if_pos h1] at h
      rcases List.mem_cons.mp h with e1 | e1
      · exact Or.inl e1
      · exact Or.inr e1
    · rw [if_neg h1] at h
      by_cases h2 : k = kx
      · rw [if_pos h2] at h
        rcases List.mem_cons.mp h with e1 | e1
        · exact Or.inl e1
        · exact Or.inr (List.mem_cons_of_mem _ e1)
      · rw [if_neg h2] at h
        rcases List.mem_cons.mp h with e1 | e1
        · exact Or.inr (by rw [e1]; exact List.mem_cons_self _ _)
        · rcases ih e1 with e2 | e2
          · exact Or.inl e2
          · exact Or.inr (List.mem_cons_of_mem _ e2)

/-- Every entry that `generateCodes` adds is a non-empty string of `'0'` and
`'1'`. -/
theorem generateCodes_entries (t : HuffmanNodePtr) :
    ∀ (pre : List CChar) (codes : CMap (List CChar)), IsBitString pre →
      ∀ e ∈ generateCodes t pre codes, e ∈ codes ∨ (e.2 ≠ [] ∧ IsBitString e.2) := by
  induction t with
  | nullptr => intro pre codes _ e he; exact Or.inl he
  | node ch f l r ihl ihr =>
    intro pre codes hpre e he
    by_cases hleaf : (node ch f l r).isLeaf = true
    · rw [generateCodes, if_pos hleaf] at he
      rcases mem_mapSet _ _ _ _ he with e1 | e1
      · right
        rw [e1]
        cases pre with
        | nil =>
          refine ⟨by simp, ?_⟩
          intro x hx
          simp only [List.isEmpty_nil, if_true, List.mem_singleton] at hx
          exact Or.inl hx
        | cons a b => exact ⟨by simp, by simpa using hpre⟩
      · exact Or.inl e1
    · rw [generateCodes, if_neg hleaf] at he
      have hp1 : IsBitString (pre ++ [chr1]) := by
        intro x hx
        rcases List.mem_append.mp hx with h | h
        · exact hpre x h
        · exact Or.inr (List.mem_singleton.mp h)
      have hp0 : IsBitString (pre ++ [chr0]) := by
        intro x hx
        rcases List.mem_append.mp hx with h | h
        · exact hpre x h
        · exact Or.inl (List.mem_singleton.mp h)
      rcases ihr _ _ hp1 e he with h | h
      · rcases ihl _ _ hp0 e h with h2 | h2
        · exact Or.inl h2
        · exact Or.inr h2
      · exact Or.inr h

theorem isMap_generateCodes (t : HuffmanNodePtr) :
    ∀ (pre : List CChar) (codes : CMap (List CChar)), IsMap codes →
      IsMap (generateCodes t pre codes) := by
  induction t with
  | nullptr => intro pre codes h; exact h
  | node ch f l r ihl ihr =>
    intro pre codes h
    by_cases hleaf : (node ch f l r).isLeaf = true
    · rw [generateCodes, if_pos hleaf]
      exact isMap_mapSet _ h _ _
    · rw [generateCodes, if_neg hleaf]
      exact ihr _ _ (ihl _ _ h)

/-- The symbols with a code are the characters at the leaves. -/
theorem generateCodes_isSome_iff (t : HuffmanNodePtr) (c : CChar) :
    (mapFind (generateCodes t [] []) c).isSome = true ↔ c ∈ leafChars t := by
  by_cases hleaf : t.isLeaf = true
  · cases t with
    | nullptr => simp [isLeaf] at hleaf
    | node ch f l r =>
      unfold leafChars
      rw [generateCodes, if_pos hleaf, leafEntries, if_pos hleaf, mapFind_mapSet]
      by_cases hc : c = ch
      · simp [hc]
      · simp [hc, mapFind]
  · have hroot : t.isLeaf = false := by simpa using hleaf
    rw [generateCodes_find_inner t hroot, codePath_isSome_iff]

/-! ## The bytes of the packed data -/

theorem packBitsIntoByteLoop_eq_sum (bits : List Int) (start : Nat) :
    ∀ (fuel i byte : Nat), i + fuel = 8 → 2 ^ (8 - i) ∣ byte →
      packBitsIntoByteLoop bits start fuel i byte =
        byte + ((List.range fuel).map (fun d =>
          if start + (i + d) < bits.length ∧ bits.getD (start + (i + d)) 0 = 1
          then 2 ^ (7 - (i + d)) else 0)).sum := by
  intro fuel
  induction fuel with
  | zero => intro i byte _ _; simp [packBitsIntoByteLoop]
  | succ fuel ih =>
    intro i byte hi hdvd
    rw [List.range_succ_eq_map, List.map_cons, List.sum_cons, List.map_map]
    unfold packBitsIntoByteLoop
    have hsum : ((List.range fuel).map ((fun d =>
          if start + (i + d) < bits.length ∧ bits.getD (start + (i + d)) 0 = 1
          then 2 ^ (7 - (i + d)) else 0) ∘ Nat.succ)) =
        (List.range fuel).map (fun d =>
          if start + (i + 1 + d) < bits.length ∧ bits.getD (start + (i + 1 + d)) 0 = 1
          then 2 ^ (7 - (i + 1 + d)) else 0) := by
      apply List.map_congr_left
      intro d _
      have e : i + d.succ = i + 1 + d := by omega
      simp only [Function.comp, e]
    rw [hsum]
    by_cases hc : i < 8 ∧ start + i < bits.length
    · rw [if_pos hc]
      have hpow : (2 : Nat) ^ (8 - i) = 2 ^ (8 - (i + 1)) * 2 := by
        have : 8 - i = (8 - (i + 1)) + 1 := by omega
        rw [this, pow_succ]
      have h7 : 8 - (i + 1) = 7 - i := by omega
      have hd7 : 2 ^ (8 - (i + 1)) ∣ byte := by
        obtain ⟨a, ha⟩ := hdvd
        exact ⟨2 * a, by rw [ha, hpow]; ring⟩
      by_cases hb : bits.getD (start + i) 0 = 1
      · rw [if_pos hb]
        obtain ⟨a, ha⟩ := hdvd
        have hor : byte ||| 1 <<< (7 - i) = byte + 2 ^ (7 - i) := by
          rw [Nat.one_shiftLeft, ha]
          have hlt : 2 ^ (7 - i) < 2 ^ (8 - i) := Nat.pow_lt_pow_right (by omega) (by omega)
          exact (Nat.mul_add_lt_is_or hlt a).symm
        rw [hor, ih (i + 1) _ (by omega) (by
          refine Nat.dvd_add hd7 ?_
          rw [h7])]
        have : start + (i + 0) < bits.length ∧ bits.getD (start + (i + 0)) 0 = 1 := by
          rw [Nat.add_zero]
          exact ⟨hc.2, hb⟩
        rw [if_pos this]
        simp only [Nat.add_zero]
        omega
      · rw [if_neg hb, ih (i + 1) _ (by omega) hd7]
        have : ¬ (start + (i + 0) < bits.length ∧ bits.getD (start + (i + 0)) 0 = 1) := by
          rw [Nat.add_zero]
          exact fun h => hb h.2
        rw [if_neg this]
        omega
    · rw [if_neg hc]
      have hge : bits.length ≤ start + i := by omega
      have h0 : ¬ (start + (i + 0) < bits.length ∧ bits.getD (start + (i + 0)) 0 = 1) := by
        rw [Nat.add_zero]
        exact fun h => absurd h.1 (by omega)
      rw [if_neg h0]
      have hz : ((List.range fuel).map (fun d =>
          if start + (i + 1 + d) < bits.length ∧ bits.getD (start + (i + 1 + d)) 0 = 1
          then 2 ^ (7 - (i + 1 + d)) else 0)).sum = 0 := by
        apply List.sum_eq_zero
        intro x hx
        obtain ⟨d, _, rfl⟩ := List.mem_map.mp hx
        exact if_neg (fun h => absurd h.1 (by omega))
      rw [hz]
      rfl


theorem getD_map_sub (s : List CChar) (i : Nat) (hi : i < s.length) :
    ((s.map (fun c => c - chr0)).getD i 0 = 1) ↔ s.getD i chr0 = chr1 := by
  rw [List.getD_eq_getElem?_getD, List.getD_eq_getElem?_getD, List.getElem?_map,
    List.getElem?_eq_getElem hi]
  simp only [Option.map_some', Option.getD_some, chr0, chr1]
  constructor
  · intro h; linarith
  · intro h; linarith

/-- The packed byte at position `8k` has the value of the specification. -/
theorem packBitsIntoByte_eq (s : List CChar) (k : Nat) :
    packBitsIntoByte (s.map (fun c => c - chr0)) (8 * k) = packedByteValue s k := by
  unfold packBitsIntoByte packedByteValue
  rw [packBitsIntoByteLoop_eq_sum _ _ 8 0 0 (by omega) (dvd_zero _), Nat.zero_add]
  congr 1
  apply List.map_congr_left
  intro j _
  simp only [Nat.zero_add, List.length_map]
  by_cases hj : 8 * k + j < s.length
  · by_cases hb : s.getD (8 * k + j) chr0 = chr1
    · rw [if_pos ⟨hj, (getD_map_sub s _ hj).mpr hb⟩, if_pos ⟨hj, hb⟩]
    · rw [if_neg (fun h => hb ((getD_map_sub s _ hj).mp h.2)), if_neg (fun h => hb h.2)]
  · rw [if_neg (fun h => hj h.1), if_neg (fun h => hj h.1)]

theorem stringToBinaryDataLoop_getElem? (bits : List Int) :
    ∀ (fuel i k : Nat), bits.length - i ≤ 8 * fuel →
      (stringToBinaryDataLoop bits fuel i [])[k]? =
        if i + 8 * k < bits.length then some (packBitsIntoByte bits (i + 8 * k)) else none := by
  intro fuel
  induction fuel with
  | zero =>
    intro i k h
    rw [if_neg (by omega)]
    simp [stringToBinaryDataLoop]
  | succ fuel ih =>
    intro i k h
    unfold stringToBinaryDataLoop
    by_cases hi : i < bits.length
    · rw [if_pos hi, stringToBinaryDataLoop_acc]
      cases k with
      | zero => simp [hi]
      | succ k =>
        simp only [List.nil_append, List.singleton_append, List.getElem?_cons_succ]
        rw [ih (i + 8) k (by omega)]
        have e : i + 8 + 8 * k = i + 8 * (k + 1) := by ring
        rw [e]
    · rw [if_neg hi, if_neg (by omega)]
      simp

theorem stringToBinaryData_getD (s : List CChar) (k : Nat) (hk : k < (s.length + 7) / 8) :
    (stringToBinaryData s).getD k 0 = packedByteValue s k := by
  unfold stringToBinaryData
  rw [List.getD_eq_getElem?_getD, stringToBinaryDataLoop_getElem? _ _ 0 k (by omega)]
  simp only [Nat.zero_add, List.length_map]
  rw [if_pos (by omega)]
  exact packBitsIntoByte_eq s k

/-- The low-order bits of the last byte that lie beyond the end of the string
are zero. -/
theorem packedByteValue_padding (s : List CChar) (k : Nat) (hk : s.length ≤ 8 * k + 8) :
    2 ^ (8 * k + 8 - s.length) ∣ packedByteValue s k := by
  unfold packedByteValue
  apply List.dvd_sum
  intro x hx
  obtain ⟨j, hj, rfl⟩ := List.mem_map.mp hx
  rw [List.mem_range] at hj
  by_cases h : 8 * k + j < s.length ∧ s.getD (8 * k + j) chr0 = chr1
  · rw [if_pos h]
    exact pow_dvd_pow 2 (by omega)
  · rw [if_neg h]
    exact dvd_zero _

/-! ## The characters of the unpacked data -/

theorem byteChars_isBitString (byte k : Nat) : IsBitString (byteChars byte k) := by
  induction k with
  | zero => intro c hc; cases hc
  | succ k ih =>
    intro c hc
    rw [byteChars] at hc
    rcases List.mem_cons.mp hc with e | e
    · rw [e]
      by_cases h : byte &&& (1 <<< k) ≠ 0
      · rw [if_pos h]; exact Or.inr rfl
      · rw [if_neg h]; exact Or.inl rfl
    · exact ih c e

theorem flatMap_byteChars_length (d : List Nat) :
    (d.flatMap (fun b => byteChars b 8)).length = 8 * d.length := by
  induction d with
  | nil => rfl
  | cons b rest ih =>
    rw [List.flatMap_cons, List.length_append, ih, byteChars_length, List.length_cons]
    ring

/-- The loop of `binaryDataToString` emits the first valid bits of the bytes. -/
theorem binaryDataToStringLoop_eq (total : Nat) : ∀ (d : List Nat) (acc : List CChar) (cnt : Nat),
    binaryDataToStringLoop total d (acc, cnt) =
      acc ++ (d.flatMap (fun b => byteChars b 8)).take (total - cnt) := by
  intro d
  induction d with
  | nil => intro acc cnt; simp [binaryDataToStringLoop]
  | cons b rest ih =>
    intro acc cnt
    rw [binaryDataToStringLoop, binaryDataToStringByte_eq, List.flatMap_cons]
    simp only
    by_cases h : cnt + min 8 (total - cnt) ≥ total
    · rw [if_pos h]
      congr 1
      rw [List.take_append_of_le_length (by rw [byteChars_length]; omega)]
    · rw [if_neg h]
      have e1 : min 8 (total - cnt) = 8 := by omega
      rw [e1, ih]
      have e2 : (byteChars b 8).take (total - cnt) = byteChars b 8 := by
        apply List.take_of_length_le
        rw [byteChars_length]; omega
      rw [e2, List.append_assoc]
      congr 1
      rw [List.take_append_eq_append_take, e2, byteChars_length]
      have e3 : total - cnt - 8 = total - (cnt + 8) := by omega
      rw [e3]

theorem binaryDataToString_eq (d : List Nat) (n : Nat) :
    binaryDataToString d n = (d.flatMap (fun b => byteChars b 8)).take n := by
  unfold binaryDataToString
  rw [binaryDataToStringLoop_eq]
  simp

theorem flatMap_byteChars_getElem? : ∀ (d : List Nat) (i : Nat), i < 8 * d.length →
    (d.flatMap (fun b => byteChars b 8))[i]? =
      some (if (d.getD (i / 8) 0).testBit (7 - i % 8) then chr1 else chr0) := by
  intro d
  induction d with
  | nil => intro i h; simp at h
  | cons b rest ih =>
    intro i h
    rw [List.flatMap_cons]
    by_cases hi : i < 8
    · rw [List.getElem?_append_left (by rw [byteChars_length]; exact hi),
        byteChars_getElem? b 8 i hi]
      have e1 : i / 8 = 0 := by omega
      have e2 : i % 8 = i := by omega
      have e3 : 8 - 1 - i = 7 - i := by omega
      rw [e1, e2, e3]
      rfl
    · rw [List.getElem?_append_right (by rw [byteChars_length]; omega), byteChars_length,
        ih (i - 8) (by simp only [List.length_cons] at h; omega)]
      have e1 : i / 8 = (i - 8) / 8 + 1 := by omega
      have e2 : (i - 8) % 8 = i % 8 := by omega
      rw [e1, e2]
      rfl

theorem binaryDataToString_isBitString (d : List Nat) (n : Nat) :
    IsBitString (binaryDataToString d n) := by
  rw [binaryDataToString_eq]
  intro c hc
  have hc2 := List.mem_of_mem_take hc
  obtain ⟨b, _, hb⟩ := List.mem_flatMap.mp hc2
  exact byteChars_isBitString b 8 c hb

/-! ## Decoding a truncated encoding -/

theorem codePath_leaf_nil (c0 : CChar) (f : Int) (c : CChar) (p : List CChar)
    (h : codePath (node c0 f nullptr nullptr) c = some p) : p = [] := by
  simp only [codePath, isLeaf, isNull, Bool.and_self, if_true] at h
  by_cases e : c0 = c
  · rw [if_pos e] at h; cases h; rfl
  · rw [if_neg e] at h; cases h

/-- Walking down a proper prefix of a code path from an inner node stays inside
the tree and emits nothing. -/
theorem decodeLoop_midPath (root : HuffmanNodePtr) {t : HuffmanNodePtr} (h : IsTree t) :
    ∀ (c : CChar) (p q decoded : List CChar), t.isLeaf = false → codePath t c = some p →
      q <+: p → q ≠ p → decodeLoop root q (t, decoded) = some decoded := by
  induction h with
  | leaf ch f => intro c p q decoded hl; simp [isLeaf, isNull] at hl
  | inner ch f l r hl hr ihl ihr =>
    intro c p q decoded _ hp hq hne
    cases q with
    | nil => rfl
    | cons b q =>
      rw [codePath, isLeaf_inner _ _ _ hl] at hp
      simp only [Bool.false_eq_true, if_false] at hp
      cases hr' : codePath r c with
      | some pr =>
        rw [hr'] at hp
        simp only [Option.some.injEq] at hp
        subst hp
        have hb : b = chr1 := by
          obtain ⟨s, hs⟩ := hq
          simp only [List.cons_append, List.cons.injEq] at hs
          exact hs.1
        subst hb
        have hq' : q <+: pr := (List.prefix_cons_inj chr1).mp hq
        have hne' : q ≠ pr := fun e => hne (by rw [e])
        cases hr with
        | leaf cr fr =>
          have := codePath_leaf_nil cr fr c pr hr'
          subst this
          exact absurd (List.prefix_nil.mp hq') hne'
        | inner cr fr rl rr hrl hrr =>
          have := ihr c pr q decoded (isLeaf_inner _ _ _ hrl) hr' hq' hne'
          rw [← this]
          simp [decodeLoop, decodeStep, getRight, getLeft, chr0, chr1, isLeaf_inner _ _ _ hrl]
      | none =>
        rw [hr'] at hp
        cases hl' : codePath l c with
        | none => rw [hl'] at hp; cases hp
        | some pl =>
          rw [hl'] at hp
          simp only [Option.map_some', Option.some.injEq] at hp
          subst hp
          have hb : b = chr0 := by
            obtain ⟨s, hs⟩ := hq
            simp only [List.cons_append, List.cons.injEq] at hs
            exact hs.1
          subst hb
          have hq' : q <+: pl := (List.prefix_cons_inj chr0).mp hq
          have hne' : q ≠ pl := fun e => hne (by rw [e])
          cases hl with
          | leaf cl fl =>
            have := codePath_leaf_nil cl fl c pl hl'
            subst this
            exact absurd (List.prefix_nil.mp hq') hne'
          | inner cl fl ll lr hll hlr =>
            have := ihl c pl q decoded (isLeaf_inner _ _ _ hll) hl' hq' hne'
            rw [← this]
            simp [decodeLoop, decodeStep, getRight, getLeft, chr0, chr1, isLeaf_inner _ _ _ hll]

/-- Decoding a truncated encoding returns a proper prefix of the text. -/
theorem decodeLoop_truncated (root : HuffmanNodePtr) (h : IsTree root)
    (hroot : root.isLeaf = false) (codes : CMap (List CChar)) (text : List CChar) :
    ∀ (k : Nat) (decoded : List CChar),
      (∀ ch ∈ text, ∃ p, codePath root ch = some p ∧ mapFind codes ch = some p) →
      k < (encodeText text codes).length →
      ∃ j, j < text.length ∧
        decodeLoop root ((encodeText text codes).take k) (root, decoded) =
          some (decoded ++ text.take j) := by
  induction text with
  | nil => intro k decoded _ hk; simp [encodeText] at hk
  | cons ch rest ih =>
    intro k decoded hall hk
    obtain ⟨p, hp1, hp2⟩ := hall ch (List.mem_cons_self _ _)
    rw [encodeText_cons, hp2] at hk ⊢
    simp only at hk ⊢
    by_cases hkp : k < p.length
    · refine ⟨0, by simp, ?_⟩
      rw [List.take_append_of_le_length (le_of_lt hkp)]
      rw [decodeLoop_midPath root h ch p (p.take k) decoded hroot hp1 (List.take_prefix k p)
        (by
          intro e
          have := congrArg List.length e
          rw [List.length_take] at this
          omega)]
      simp
    · have hk2 : k - p.length < (encodeText rest codes).length := by
        rw [List.length_append] at hk
        omega
      obtain ⟨j, hj, hd⟩ := ih (k - p.length) (decoded ++ [ch])
        (fun c hc => hall c (List.mem_cons_of_mem _ hc)) hk2
      refine ⟨j + 1, by simp [hj], ?_⟩
      rw [List.take_append_eq_append_take, List.take_of_length_le (by omega),
        decodeLoop_codePath root h ch p _ decoded hroot hp1, hd]
      simp

/-- On a buffer with two distinct bytes, the decoding of every proper prefix of
the encoding stops without fault and returns a proper prefix of the buffer. -/
theorem decodeText_truncated (H : HeapAlgorithms) (hH : H.Lawful) (B : List CChar)
    (t : HuffmanNodePtr) (ht : buildHuffmanTree H (buildFrequencyTable B) = some t)
    (h2 : 2 ≤ (buildFrequencyTable B).length) (k : Nat)
    (hk : k < (encodeText B (generateCodes t [] [])).length) :
    ∃ j, j < B.length ∧
      decodeText ((encodeText B (generateCodes t [] [])).take k) t = some (B.take j) := by
  have hne : buildFrequencyTable B ≠ [] := by
    intro e; rw [e] at h2; simp at h2
  obtain ⟨t', ht', _, htree, hperm, hin⟩ := buildHuffmanTree_spec H hH _ hne
  rw [ht] at ht'
  cases ht'
  have hroot := hin h2
  obtain ⟨j, hj, hd⟩ := decodeLoop_truncated t htree hroot (generateCodes t [] []) B k []
    (by
      intro ch hch
      have hk : ch ∈ leafChars t := by
        have := (buildFrequencyTable_keys B ch).mpr hch
        exact (hperm.map Prod.fst).symm.subset this
      have hs := codePath_isSome htree ch hk
      cases hp : codePath t ch with
      | none => rw [hp] at hs; cases hs
      | some p => exact ⟨p, rfl, by rw [generateCodes_find_root htree hroot, hp]⟩) hk
  refine ⟨j, hj, ?_⟩
  unfold decodeText
  rw [isTree_isNull htree]
  simpa using hd

/-! ## The entry point `encodeFiles` -/

/-- When every input file opens, the reading loop ends with the concatenation
of the file contents. -/
theorem readInputFiles_ok (fs : FileSystem) : ∀ (files : List (List CChar))
    (st : List CChar × List (List CChar × Nat)),
    (∀ f ∈ files, ∃ fileContent, fs.readFile f = some fileContent) →
    ∃ fileInfo, readInputFiles fs files st =
      Except.ok (st.1 ++ (files.filterMap fs.readFile).flatten, fileInfo) := by
  intro files
  induction files with
  | nil => intro st _; exact ⟨st.2, by simp [readInputFiles]⟩
  | cons f rest ih =>
    intro st h
    obtain ⟨fileContent, hc⟩ := h f (List.mem_cons_self _ _)
    obtain ⟨fileInfo, hi⟩ := ih (st.1 ++ fileContent,
      st.2 ++ [(fileNameOf f, fileContent.length)]) (fun g hg => h g (List.mem_cons_of_mem _ hg))
    refine ⟨fileInfo, ?_⟩
    rw [readInputFiles, hc]
    simp only
    rw [hi, List.filterMap_cons, hc]
    simp

/-- The text that `encodeFiles` passes to `compressText` is never empty. -/
theorem encodeFiles_compressedText (H : HeapAlgorithms) (fs : FileSystem)
    (options : CommandLineOptions) (outcome : EncodeOutcome) (text : List CChar)
    (h : encodeFiles H fs options = some outcome) (ht : outcome.compressedText = some text) :
    text ≠ [] := by
  unfold encodeFiles at h
  cases hr : readInputFiles fs options.inputFiles ([], []) with
  | error f =>
    rw [hr] at h
    simp only [Option.some.injEq] at h
    rw [← h] at ht
    cases ht
  | ok st =>
    obtain ⟨allText, fileInfo⟩ := st
    rw [hr] at h
    simp only at h
    by_cases he : allText.isEmpty = true
    · rw [if_pos he] at h
      simp only [Option.some.injEq] at h
      rw [← h] at ht
      cases ht
    · rw [if_neg he] at h
      have hne : allText ≠ [] := by
        intro e; rw [e] at he; exact he rfl
      cases hc : compressText H allText with
      | none => rw [hc] at h; cases h
      | some r =>
        obtain ⟨compressed, tree, stats⟩ := r
        rw [hc] at h
        simp only at h
        by_cases ho : fs.canCreate options.outputFile = true
        · rw [if_pos ho] at h
          simp only [Option.some.injEq] at h
          rw [← h] at ht
          simp only [Option.some.injEq] at ht
          rw [← ht]; exact hne
        · rw [if_neg ho] at h
          simp only [Option.some.injEq] at h
          rw [← h] at ht
          simp only [Option.some.injEq] at ht
          rw [← ht]; exact hne

/-! ## Invariants of the built tree -/

theorem nodes_self {t : HuffmanNodePtr} (h : t.isNull = false) : t ∈ nodes t := by
  cases t with
  | nullptr => simp [isNull] at h
  | node c f l r => simp [nodes]

/-- A property of merge nodes that holds in every tree of a forest holds in the
tree the greedy merging makes of it. -/
theorem merges_nodes (P : HuffmanNodePtr → Prop)
    (hP : ∀ l r, l.isNull = false → r.isNull = false → l.getFrequency ≤ r.getFrequency →
      P (node 0 (wrapInt (l.getFrequency + r.getFrequency)) l r))
    {F : List HuffmanNodePtr} {t : HuffmanNodePtr} (h : Merges F t) :
    (∀ u ∈ F, u.isNull = false ∧ ∀ n ∈ nodes u, P n) → ∀ n ∈ nodes t, P n := by
  induction h with
  | done t => intro hF; exact (hF t (List.mem_singleton_self t)).2
  | step F rest l r t h1 h2 _ _ ih =>
    intro hF
    have hl := hF l (h1.symm.subset (by simp))
    have hr := hF r (h1.symm.subset (by simp))
    have hlr : l.getFrequency ≤ r.getFrequency := h2 r (h1.symm.subset (by simp))
    apply ih
    intro u hu
    rcases List.mem_cons.mp hu with e | e
    · rw [e]
      refine ⟨rfl, ?_⟩
      intro n hn
      simp only [nodes, List.mem_cons, List.mem_append] at hn
      rcases hn with e1 | e1 | e1
      · rw [e1]; exact hP l r hl.1 hr.1 hlr
      · exact hl.2 n e1
      · exact hr.2 n e1
    · exact hF u (h1.symm.subset (by simp [e]))

/-- The nodes of the tree that `buildHuffmanTree` returns are the leaves of the
table and nodes with the property of the merge nodes. -/
theorem buildHuffmanTree_nodes (H : HeapAlgorithms) (hH : H.Lawful) (frequencies : CMap Int)
    (P : HuffmanNodePtr → Prop)
    (hleaf : ∀ e ∈ frequencies, P (leafOf e))
    (hP : ∀ l r, l.isNull = false → r.isNull = false → l.getFrequency ≤ r.getFrequency →
      P (node 0 (wrapInt (l.getFrequency + r.getFrequency)) l r)) :
    ∃ t, buildHuffmanTree H frequencies = some t ∧ ∀ n ∈ nodes t, P n := by
  by_cases hne : frequencies = []
  · subst hne
    exact ⟨nullptr, rfl, by intro n hn; simp [nodes] at hn⟩
  · obtain ⟨t, ht, hm⟩ := buildHuffmanTree_merges H hH frequencies hne
    refine ⟨t, ht, merges_nodes P hP hm ?_⟩
    intro u hu
    obtain ⟨e, he, rfl⟩ := List.mem_map.mp hu
    refine ⟨rfl, ?_⟩
    intro n hn
    simp only [leafOf, nodes, List.append_nil, List.mem_singleton] at hn
    rw [hn]; exact hleaf e he

theorem childCount_of_isLeaf {n : HuffmanNodePtr} (h : n.isLeaf = true) : childCount n = 0 := by
  cases n with
  | nullptr => rfl
  | node c f l r =>
    simp only [isLeaf, Bool.and_eq_true] at h
    simp [childCount, h.1, h.2]

theorem childCount_of_isMergeNode {n : HuffmanNodePtr} (h : isMergeNode n = true) :
    childCount n = 2 ∧ n.isLeaf = false := by
  cases n with
  | nullptr => simp [isMergeNode] at h
  | node c f l r =>
    simp only [isMergeNode, Bool.and_eq_true, Bool.not_eq_true', decide_eq_true_eq] at h
    simp [childCount, isLeaf, h.1.1.1, h.1.1.2]

/-- While the counts at the leaves are not negative and sum to at most
`INT_MAX`, no sum of the merging wraps: in the tree the greedy merging makes,
the frequency of every node is the sum of the counts at the leaves below it,
and that of a node that is not a leaf is the sum of those of its children. -/
theorem merges_exact {F : List HuffmanNodePtr} {t : HuffmanNodePtr} (h : Merges F t) :
    (∀ u ∈ F, IsTree u ∧ 0 ≤ weight u ∧ ∀ n ∈ nodes u, n.getFrequency = weight n ∧
      ∀ c f l r, n = node c f l r → n.isLeaf = false →
        f = l.getFrequency + r.getFrequency) →
    (F.map weight).sum ≤ 2147483647 →
    ∀ n ∈ nodes t, n.getFrequency = weight n ∧
      ∀ c f l r, n = node c f l r → n.isLeaf = false →
        f = l.getFrequency + r.getFrequency := by
  induction h with
  | done t => intro hF _; exact (hF t (List.mem_singleton_self t)).2.2
  | step F rest l r t h1 _ _ _ ih =>
    intro hF hb
    have hl := hF l (h1.symm.subset (by simp))
    have hr := hF r (h1.symm.subset (by simp))
    have hlf : l.getFrequency = weight l := (hl.2.2 l (nodes_self (isTree_isNull hl.1))).1
    have hrf : r.getFrequency = weight r := (hr.2.2 r (nodes_self (isTree_isNull hr.1))).1
    have hsumw : (F.map weight).sum = weight l + weight r + (rest.map weight).sum := by
      rw [(h1.map weight).sum_eq]
      simp only [List.map_cons, List.sum_cons]
      ring
    have hrest0 : 0 ≤ (rest.map weight).sum := by
      apply List.sum_nonneg
      intro x hx
      obtain ⟨u, hu, rfl⟩ := List.mem_map.mp hx
      exact (hF u (h1.symm.subset (by simp [hu]))).2.1
    have hwrap : wrapInt (l.getFrequency + r.getFrequency) = l.getFrequency + r.getFrequency := by
      have := hl.2.1
      have := hr.2.1
      apply wrapInt_of_range
      · rw [hlf, hrf]; omega
      · rw [hlf, hrf]; omega
    rw [hwrap] at ih
    apply ih
    · intro u hu
      rcases List.mem_cons.mp hu with e | e
      · rw [e]
        have hw := weight_inner 0 (l.getFrequency + r.getFrequency) r hl.1
        refine ⟨IsTree.inner _ _ _ _ hl.1 hr.1, ?_, ?_⟩
        · rw [hw]
          have := hl.2.1
          have := hr.2.1
          omega
        · intro n hn
          simp only [nodes, List.mem_cons, List.mem_append] at hn
          rcases hn with e1 | e1 | e1
          · rw [e1]
            refine ⟨?_, ?_⟩
            · rw [hw, ← hlf, ← hrf]; rfl
            · intro c f l1 r1 he _
              injection he with _ e2 e3 e4
              rw [← e2, ← e3, ← e4]
          · exact hl.2.2 n e1
          · exact hr.2.2 n e1
      · exact hF u (h1.symm.subset (by simp [e]))
    · simp only [List.map_cons, List.sum_cons, weight_inner _ _ _ hl.1]
      omega

/-- The tree built from a table of counts that are not negative and sum to at
most `INT_MAX`: no sum wraps. -/
theorem buildHuffmanTree_exact (H : HeapAlgorithms) (hH : H.Lawful) (frequencies : CMap Int)
    (hne : frequencies ≠ []) (hnn : ∀ e ∈ frequencies, 0 ≤ e.2)
    (hbound : (frequencies.map Prod.snd).sum ≤ 2147483647) (t : HuffmanNodePtr)
    (ht : buildHuffmanTree H frequencies = some t) :
    ∀ n ∈ nodes t, n.getFrequency = weight n ∧
      ∀ c f l r, n = node c f l r → n.isLeaf = false →
        f = l.getFrequency + r.getFrequency := by
  obtain ⟨t1, ht1, hm⟩ := buildHuffmanTree_merges H hH frequencies hne
  rw [ht] at ht1
  cases ht1
  have hw : ∀ e : CChar × Int, weight (leafOf e) = e.2 := by
    intro e
    simp [leafOf, weight, leafEntries, isLeaf, isNull]
  apply merges_exact hm
  · intro u hu
    obtain ⟨e, he, rfl⟩ := List.mem_map.mp hu
    refine ⟨isTree_leafOf e, by rw [hw]; exact hnn e he, ?_⟩
    intro n hn
    simp only [leafOf, nodes, List.append_nil, List.mem_singleton] at hn
    rw [hn]
    refine ⟨(hw e).symm, ?_⟩
    intro c f l r _ hleaf
    simp [isLeaf, isNull] at hleaf
  · have : (frequencies.map leafOf).map weight = frequencies.map Prod.snd := by
      rw [List.map_map]
      apply List.map_congr_left
      intro e _
      exact hw e
    rw [this]
    exact hbound

theorem nodes_leaf_mem : ∀ (t n : HuffmanNodePtr), n ∈ nodes t → n.isLeaf = true →
    ∃ e ∈ leafEntries t, n = leafOf e := by
  intro t
  induction t with
  | nullptr => intro n hn; simp [nodes] at hn
  | node c f l r ihl ihr =>
    intro n hn hleaf
    simp only [nodes, List.mem_cons, List.mem_append] at hn
    rcases hn with e | e | e
    · rw [e] at hleaf
      refine ⟨(c, f), by simp [leafEntries, hleaf], ?_⟩
      rw [e]
      simp only [isLeaf, Bool.and_eq_true] at hleaf
      cases l with
      | node _ _ _ _ => simp [isNull] at hleaf
      | nullptr =>
        cases r with
        | node _ _ _ _ => simp [isNull] at hleaf
        | nullptr => rfl
    · by_cases h0 : (node c f l r).isLeaf = true
      · simp only [isLeaf, Bool.and_eq_true] at h0
        cases l with
        | node _ _ _ _ => simp [isNull] at h0
        | nullptr => simp [nodes] at e
      · obtain ⟨x, hx, hx2⟩ := ihl n e hleaf
        exact ⟨x, by simp [leafEntries, h0, hx], hx2⟩
    · by_cases h0 : (node c f l r).isLeaf = true
      · simp only [isLeaf, Bool.and_eq_true] at h0
        cases r with
        | node _ _ _ _ => simp [isNull] at h0
        | nullptr => simp [nodes] at e
      · obtain ⟨x, hx, hx2⟩ := ihr n e hleaf
        exact ⟨x, by simp [leafEntries, h0, hx], hx2⟩

theorem nodes_subset : ∀ (t n : HuffmanNodePtr), n ∈ nodes t → ∀ m ∈ nodes n, m ∈ nodes t := by
  intro t
  induction t with
  | nullptr => intro n hn; simp [nodes] at hn
  | node c f l r ihl ihr =>
    intro n hn m hm
    simp only [nodes, List.mem_cons, List.mem_append] at hn
    rcases hn with e | e | e
    · rw [e] at hm; exact hm
    · have := ihl n e m hm
      simp [nodes, this]
    · have := ihr n e m hm
      simp [nodes, this]

/-- One iteration of the loop of `buildHuffmanTree` on a heap of two nodes or
more: what is extracted, what is left, and what is pushed. -/
theorem mergeStep_extracts (H : HeapAlgorithms) (hH : H.Lawful) (pq : List HuffmanNodePtr)
    (h : IsHeap pq) (hn : ∀ t ∈ pq, t.isNull = false) (hlen : 2 ≤ pq.length) :
    ∃ left pq1 right pq2, pqTop pq = some left ∧ pqPop H pq = some pq1 ∧
      pqTop pq1 = some right ∧ pqPop H pq1 = some pq2 ∧ pq.Perm (left :: right :: pq2) ∧
      (∀ y ∈ pq2, left.getFrequency ≤ y.getFrequency ∧ right.getFrequency ≤ y.getFrequency) ∧
      left.getFrequency ≤ right.getFrequency ∧
      mergeStep H pq =
        some (pqPush H pq2 (node 0 (wrapInt (left.getFrequency + right.getFrequency)) left right)) := by
  cases pq with
  | nil => simp at hlen
  | cons l tl =>
    obtain ⟨pqa, hpa, hha, hperma⟩ := pqPop_spec H hH l tl h
    have hla : pqa.length = tl.length := hperma.length_eq
    cases pqa with
    | nil =>
      simp only [List.length_nil] at hla
      simp only [List.length_cons] at hlen
      omega
    | cons r tla =>
      obtain ⟨pqb, hpb, _, hpermb⟩ := pqPop_spec H hH r tla hha
      have hperm : (l :: tl).Perm (l :: r :: pqb) :=
        (hperma.symm.trans (hpermb.symm.cons r)).cons l
      have hl : l.isNull = false := hn l (List.mem_cons_self _ _)
      have hr : r.isNull = false := hn r (hperm.symm.subset (by simp))
      have hminl := isHeap_head_le l tl h
      have hminr := isHeap_head_le r tla hha
      refine ⟨l, r :: tla, r, pqb, rfl, hpa, rfl, hpb, hperm, ?_, ?_, ?_⟩
      · intro y hy
        exact ⟨hminl y (hperm.symm.subset (by simp [hy])),
          hminr y (List.mem_cons_of_mem r (hpermb.subset hy))⟩
      · exact hminl r (hperm.symm.subset (by simp))
      · cases l with
        | nullptr => simp [isNull] at hl
        | node cl fl ll lr =>
          cases r with
          | nullptr => simp [isNull] at hr
          | node cr fr rl rr =>
            simp [mergeStep, pqTop, hpa, hpb, getFrequency]

/-- The queue at the head of every iteration is a heap of non-null nodes. -/
theorem queueAt_isHeap (H : HeapAlgorithms) (hH : H.Lawful) (frequencies : CMap Int)
    {pq : List HuffmanNodePtr} (h : QueueAt H frequencies pq) :
    IsHeap pq ∧ ∀ t ∈ pq, t.isNull = false := by
  induction h with
  | start =>
    obtain ⟨h1, h2⟩ : IsHeap (pushLeaves H frequencies) ∧
        (pushLeaves H frequencies).Perm ([] ++ frequencies.map leafOf) :=
      pushLeaves_spec H hH frequencies [] isHeap_nil
    refine ⟨h1, ?_⟩
    intro t ht
    rw [List.nil_append] at h2
    obtain ⟨e, _, he⟩ := List.mem_map.mp (h2.subset ht)
    rw [← he]; rfl
  | next pq pq1 _ hlen hs ih =>
    obtain ⟨l, r, rest, pq2, hs2, hh, hp, hp1, _, _⟩ :=
      mergeStep_spec H hH pq ih.1 ih.2 (by omega)
    rw [hs] at hs2
    cases hs2
    refine ⟨hh, ?_⟩
    intro t ht
    rcases List.mem_cons.mp (hp1.subset ht) with e | e
    · rw [e]; rfl
    · exact ih.2 t (hp.symm.subset (by simp [e]))

/-- The queue that the loop of `buildHuffmanTree` ends with is one of the
queues at the head of an iteration. -/
theorem mergeLoop_queueAt (H : HeapAlgorithms) (frequencies : CMap Int) :
    ∀ (fuel : Nat) (pq res : List HuffmanNodePtr), QueueAt H frequencies pq →
      mergeLoop H fuel pq = some res → QueueAt H frequencies res := by
  intro fuel
  induction fuel with
  | zero =>
    intro pq res hq hres
    by_cases h1 : pq.length > 1
    · simp [mergeLoop, h1] at hres
    · simp only [mergeLoop, h1, if_false, Option.some.injEq] at hres
      rw [← hres]; exact hq
  | succ fuel ih =>
    intro pq res hq hres
    by_cases h1 : pq.length > 1
    · simp only [mergeLoop, h1, if_true] at hres
      cases hs : mergeStep H pq with
      | none => rw [hs] at hres; simp at hres
      | some pq1 =>
        rw [hs] at hres
        exact ih pq1 res (QueueAt.next pq pq1 hq h1 hs) hres
    · simp only [mergeLoop, h1, if_false, Option.some.injEq] at hres
      rw [← hres]; exact hq

/-! ## The command line -/

/-- A mode flag raises `InvalidMode` when a mode is set, and sets its mode
otherwise. -/
theorem parseLoop_modeFlag (arg : List CChar) (m : OperationMode) (h : modeOfFlag arg = some m)
    (rest : List (List CChar)) (o : CommandLineOptions) :
    parseLoop (arg :: rest) o =
      if o.mode ≠ OperationMode.None then
        Except.error (HuffmanException.invalidMode (ofString "Multiple operation modes specified"))
      else parseLoop rest { o with mode := m } := by
  unfold modeOfFlag at h
  rw [parseLoop.eq_def]
  dsimp only
  split_ifs at h ⊢ <;> first | rfl | (cases h; rfl)

/-- Arguments that are parsed without an error are consumed as a whole: the
loop goes on with the arguments that follow them. -/
theorem parseLoop_append : ∀ (n : Nat) (pre : List (List CChar)), pre.length ≤ n →
    ∀ (rest : List (List CChar)) (o o1 : CommandLineOptions),
      parseLoop pre o = Except.ok o1 → parseLoop (pre ++ rest) o = parseLoop rest o1 := by
  intro n
  induction n with
  | zero =>
    intro pre hlen rest o o1 h
    have : pre = [] := List.length_eq_zero.mp (by omega)
    subst this
    simp only [parseLoop, Except.ok.injEq] at h
    rw [List.nil_append, h]
  | succ n ih =>
    intro pre hlen rest o o1 h
    cases pre with
    | nil =>
      simp only [parseLoop, Except.ok.injEq] at h
      rw [List.nil_append, h]
    | cons arg tl =>
      have htl : tl.length ≤ n := by simp only [List.length_cons] at hlen; omega
      rw [List.cons_append, parseLoop.eq_def]
      rw [parseLoop.eq_def] at h
      dsimp only at h ⊢
      split_ifs at h ⊢
      all_goals first
        | exact ih tl htl rest _ _ h
        | (cases tl with
           | nil => cases h
           | cons value rest1 =>
             refine ih rest1 ?_ rest _ _ h
             simp only [List.length_cons] at htl
             omega)

/-- Once a mode is set, arguments that are parsed without an error leave it as
it is. -/
theorem parseLoop_mode : ∀ (n : Nat) (args : List (List CChar)), args.length ≤ n →
    ∀ (o o1 : CommandLineOptions), parseLoop args o = Except.ok o1 →
      o.mode ≠ OperationMode.None → o1.mode = o.mode := by
  intro n
  induction n with
  | zero =>
    intro args hlen o o1 h _
    have : args = [] := List.length_eq_zero.mp (by omega)
    subst this
    simp only [parseLoop, Except.ok.injEq] at h
    rw [h]
  | succ n ih =>
    intro args hlen o o1 h hm
    cases args with
    | nil =>
      simp only [parseLoop, Except.ok.injEq] at h
      rw [h]
    | cons arg tl =>
      have htl : tl.length ≤ n := by simp only [List.length_cons] at hlen; omega
      rw [parseLoop.eq_def] at h
      dsimp only at h
      split_ifs at h
      all_goals first
        | cases h
        | contradiction
        | (have h1 := ih tl htl _ _ h hm
           exact h1)
        | (cases tl with
           | nil => cases h
           | cons value rest1 =>
             have h1 := ih rest1 (by simp only [List.length_cons] at htl; omega) _ _ h hm
             exact h1)

/-! ## The statistics and the encoding -/

theorem sum_mapSet_weighted (g : CChar → Int) (m : CMap Int) (hm : IsMap m) (k : CChar) :
    ((mapSet m k ((mapFind m k).getD 0 + 1)).map (fun e => e.2 * g e.1)).sum =
      (m.map (fun e => e.2 * g e.1)).sum + g k := by
  induction m with
  | nil => simp [mapSet, mapFind]
  | cons e rest ih =>
    obtain ⟨ke, ve⟩ := e
    unfold IsMap at hm
    rw [List.map_cons, List.pairwise_cons] at hm
    unfold mapSet
    by_cases h1 : k < ke
    · rw [if_pos h1]
      have : mapFind ((ke, ve) :: rest) k = none := by
        apply mapFind_eq_none
        simp only [List.map_cons, List.mem_cons, not_or]
        refine ⟨ne_of_lt h1, fun hk => ?_⟩
        exact lt_irrefl _ (lt_trans h1 (hm.1 k hk))
      rw [this]
      simp only [Option.getD_none, List.map_cons, List.sum_cons]
      ring
    · rw [if_neg h1]
      by_cases h2 : k = ke
      · rw [if_pos h2]
        subst h2
        simp only [mapFind, if_true, Option.getD_some, List.map_cons, List.sum_cons]
        ring
      · rw [if_neg h2]
        have : mapFind ((ke, ve) :: rest) k = mapFind rest k := by
          simp [mapFind, h2]
        rw [this]
        simp only [List.map_cons, List.sum_cons, ih hm.2]
        ring

theorem getD_le_sum (m : CMap Int) (hnn : ∀ e ∈ m, 0 ≤ e.2) (k : CChar) :
    0 ≤ (mapFind m k).getD 0 ∧ (mapFind m k).getD 0 ≤ (m.map Prod.snd).sum := by
  induction m with
  | nil => simp [mapFind]
  | cons e rest ih =>
    have h0 := hnn e (List.mem_cons_self _ _)
    obtain ⟨i1, i2⟩ := ih (fun x hx => hnn x (List.mem_cons_of_mem _ hx))
    have hrest : 0 ≤ (rest.map Prod.snd).sum := le_trans i1 i2
    simp only [mapFind, List.map_cons, List.sum_cons]
    by_cases hk : k = e.1
    · rw [if_pos hk]
      simp only [Option.getD_some]
      omega
    · rw [if_neg hk]
      omega

/-- The loop of `buildFrequencyTable` started from a table `m` of counts that
are not negative, while the counts stay within `INT_MAX`: no count wraps. -/
theorem countLoop_exact (g : CChar → Int) (text : List CChar) : ∀ (m : CMap Int), IsMap m →
    (∀ e ∈ m, 0 ≤ e.2) → (m.map Prod.snd).sum + (text.length : Int) ≤ 2147483647 →
    (∀ e ∈ text.foldl (fun frequencies ch =>
      mapSet frequencies ch (wrapInt ((mapFind frequencies ch).getD 0 + 1))) m, 0 ≤ e.2) ∧
    ((text.foldl (fun frequencies ch =>
      mapSet frequencies ch (wrapInt ((mapFind frequencies ch).getD 0 + 1))) m).map
        Prod.snd).sum = (m.map Prod.snd).sum + (text.length : Int) ∧
    ((text.foldl (fun frequencies ch =>
      mapSet frequencies ch (wrapInt ((mapFind frequencies ch).getD 0 + 1))) m).map
        (fun e => e.2 * g e.1)).sum =
      (m.map (fun e => e.2 * g e.1)).sum + (text.map g).sum := by
  induction text with
  | nil => intro m _ hnn _; simp; exact fun a b hab => hnn (a, b) hab
  | cons ch rest ih =>
    intro m hm hnn hb
    simp only [List.length_cons, Nat.cast_add, Nat.cast_one] at hb
    obtain ⟨g1, g2⟩ := getD_le_sum m hnn ch
    have hw : wrapInt ((mapFind m ch).getD 0 + 1) = (mapFind m ch).getD 0 + 1 := by
      apply wrapInt_of_range <;> omega
    simp only [List.foldl_cons, List.map_cons, List.sum_cons, List.length_cons, hw]
    have hsum1 := sum_mapSet_incr m hm ch
    have hnn1 : ∀ e ∈ mapSet m ch ((mapFind m ch).getD 0 + 1), 0 ≤ e.2 := by
      intro e he
      rcases mem_mapSet m ch _ e he with h | h
      · rw [h]; simp only; omega
      · exact hnn e h
    obtain ⟨i1, i2, i3⟩ := ih _ (isMap_mapSet m hm ch _) hnn1 (by rw [hsum1]; omega)
    refine ⟨i1, ?_, ?_⟩
    · rw [i2, hsum1]
      push_cast
      ring
    · rw [i3, sum_mapSet_weighted g m hm ch]
      ring

/-- The counts of a buffer of at most `INT_MAX` bytes sum to its length. -/
theorem buildFrequencyTable_sum (text : List CChar) (hb : text.length ≤ 2147483647) :
    ((buildFrequencyTable text).map Prod.snd).sum = text.length := by
  have := (countLoop_exact (fun _ => 0) text [] (by simp [IsMap]) (by simp)
    (by simp; omega)).2.1
  simpa [buildFrequencyTable] using this

/-- A sum over the characters of a buffer of at most `INT_MAX` bytes is the
sum over its frequency table of count times term. -/
theorem buildFrequencyTable_weighted (g : CChar → Int) (text : List CChar)
    (hb : text.length ≤ 2147483647) :
    ((buildFrequencyTable text).map (fun e => e.2 * g e.1)).sum = (text.map g).sum := by
  have := (countLoop_exact g text [] (by simp [IsMap]) (by simp) (by simp; omega)).2.2
  simpa [buildFrequencyTable] using this

/-- The count stored for a character that occurs at most `INT_MAX` times is
the number of its occurrences. -/
theorem buildFrequencyTable_find_exact (text : List CChar) (c : CChar)
    (hb : text.count c ≤ 2147483647) :
    mapFind (buildFrequencyTable text) c =
      if text.count c = 0 then none else some (text.count c : Int) := by
  rw [buildFrequencyTable_find, wrapInt_of_range _ (by omega) (by omega)]

theorem buildFrequencyTable_pos (text : List CChar) (hb : text.length ≤ 2147483647) :
    ∀ e ∈ buildFrequencyTable text, 1 ≤ e.2 ∧ e.2 ≤ 2147483647 := by
  intro e he
  have h1 := mapFind_of_mem (buildFrequencyTable text) (buildFrequencyTable_isMap text) e.1 e.2 he
  have hle : text.count e.1 ≤ text.length := List.count_le_length _ _
  rw [buildFrequencyTable_find_exact text e.1 (by omega)] at h1
  by_cases h0 : text.count e.1 = 0
  · rw [if_pos h0] at h1; cases h1
  · rw [if_neg h0] at h1
    injection h1 with h2
    rw [← h2]
    omega

theorem encodeText_length (codes : CMap (List CChar)) (text : List CChar) :
    (encodeText text codes).length = (text.map (codeLength codes)).sum := by
  induction text with
  | nil => rfl
  | cons ch rest ih =>
    rw [encodeText_cons, List.length_append, ih, List.map_cons, List.sum_cons]
    congr 1
    unfold codeLength
    cases mapFind codes ch <;> rfl

theorem sum_map_natCast (len : CChar → Nat) (text : List CChar) :
    (((text.map len).sum : Nat) : Int) = (text.map (fun c => ((len c : Nat) : Int))).sum := by
  induction text with
  | nil => rfl
  | cons ch rest ih =>
    simp only [List.map_cons, List.sum_cons]
    rw [← ih]
    push_cast
    rfl

/-- The length of the encoding of a buffer of at most `INT_MAX` bytes is the
sum over the frequency table of count times code length. -/
theorem encodeText_length_eq (codes : CMap (List CChar)) (text : List CChar)
    (hb : text.length ≤ 2147483647) :
    ((encodeText text codes).length : Int) =
      weightedLength (buildFrequencyTable text) (codeLength codes) := by
  have h := buildFrequencyTable_weighted (fun c => ((codeLength codes c : Nat) : Int)) text hb
  unfold weightedLength
  rw [h, encodeText_length]
  exact sum_map_natCast (codeLength codes) text

theorem weightedLength_nonneg (frequencies : CMap Int) (len : CChar → Nat)
    (hnn : ∀ e ∈ frequencies, 0 ≤ e.2) : 0 ≤ weightedLength frequencies len := by
  unfold weightedLength
  apply List.sum_nonneg
  intro x hx
  obtain ⟨e, he, rfl⟩ := List.mem_map.mp hx
  exact mul_nonneg (hnn e he) (Int.natCast_nonneg _)

/-- The loop for the compressed size sums count times code length when every
key of the table has a code, the counts are those of an `int` that is not
negative, and the sum stays below `2^64`. -/
theorem compressedBitsLoop_sum (codes : CMap (List CChar)) :
    ∀ (frequencies : CMap Int) (n : Nat),
      (∀ e ∈ frequencies, (mapFind codes e.1).isSome = true) →
      (∀ e ∈ frequencies, 0 ≤ e.2 ∧ e.2 ≤ 2147483647) →
      (n : Int) + weightedLength frequencies (codeLength codes) < 18446744073709551616 →
      (((compressedBitsLoop frequencies (codes, n)).2 : Nat) : Int) =
        (n : Int) + weightedLength frequencies (codeLength codes) := by
  intro frequencies
  induction frequencies with
  | nil => intro n _ _ _; simp [compressedBitsLoop, weightedLength]
  | cons e rest ih =>
    intro n hc hpos hb
    have he := hc e (List.mem_cons_self _ _)
    have hp := hpos e (List.mem_cons_self _ _)
    have hrest := weightedLength_nonneg rest (codeLength codes)
      (fun x hx => (hpos x (List.mem_cons_of_mem _ hx)).1)
    cases hf : mapFind codes e.1 with
    | none => rw [hf] at he; cases he
    | some v =>
      have hlen : codeLength codes e.1 = v.length := by simp [codeLength, hf]
      have hwl : weightedLength (e :: rest) (codeLength codes) =
          e.2 * (v.length : Int) + weightedLength rest (codeLength codes) := by
        simp only [weightedLength, List.map_cons, List.sum_cons, hlen]
      rw [hwl] at hb ⊢
      obtain ⟨k, hk⟩ := Int.eq_ofNat_of_zero_le hp.1
      have hmod : (e.2 % 2 ^ 64).toNat = k := by
        rw [hk]
        have : ((k : Int) % 2 ^ 64) = (k : Int) := Int.emod_eq_of_lt (by omega) (by omega)
        rw [this]
        exact Int.toNat_ofNat k
      have hsmall : n + k * v.length < 2 ^ 64 := by
        have : ((n + k * v.length : Nat) : Int) < 18446744073709551616 := by
          push_cast
          rw [hk] at hb
          omega
        exact_mod_cast this
      have hstep : compressedBitsLoop (e :: rest) (codes, n) =
          compressedBitsLoop rest (codes, n + k * v.length) := by
        simp only [compressedBitsLoop, List.foldl_cons, mapIndex, hf, hmod,
          Nat.mod_eq_of_lt hsmall]
      rw [hstep, ih _ (fun x hx => hc x (List.mem_cons_of_mem _ hx))
        (fun x hx => hpos x (List.mem_cons_of_mem _ hx))
        (by push_cast; rw [hk] at hb; omega)]
      rw [hk]
      push_cast
      ring

/-- The archive that `encodeFiles` writes holds the byte count of the packed
encoding of the text it compressed. -/
theorem encodeFiles_archive (H : HeapAlgorithms) (fs : FileSystem)
    (options : CommandLineOptions) (outcome : EncodeOutcome) (archive : Archive)
    (h : encodeFiles H fs options = some outcome) (ha : outcome.archive = some archive) :
    ∃ text compressed tree stats, outcome.compressedText = some text ∧
      compressText H text = some (compressed, tree, stats) ∧
      archive.totalCompressedSize = (stringToBinaryData compressed).length ∧
      archive.binaryData = stringToBinaryData compressed := by
  unfold encodeFiles at h
  cases hr : readInputFiles fs options.inputFiles ([], []) with
  | error f =>
    rw [hr] at h
    simp only [Option.some.injEq] at h
    rw [← h] at ha
    cases ha
  | ok st =>
    obtain ⟨allText, fileInfo⟩ := st
    rw [hr] at h
    simp only at h
    by_cases he : allText.isEmpty = true
    · rw [if_pos he] at h
      simp only [Option.some.injEq] at h
      rw [← h] at ha
      cases ha
    · rw [if_neg he] at h
      cases hc : compressText H allText with
      | none => rw [hc] at h; cases h
      | some r =>
        obtain ⟨compressed, tree, stats⟩ := r
        rw [hc] at h
        simp only at h
        by_cases ho : fs.canCreate options.outputFile = true
        · rw [if_pos ho] at h
          simp only [Option.some.injEq] at h
          rw [← h] at ha
          simp only [Option.some.injEq] at ha
          refine ⟨allText, compressed, tree, stats, by rw [← h], hc, ?_, ?_⟩
          · rw [← ha]
          · rw [← ha]
        · rw [if_neg ho] at h
          simp only [Option.some.injEq] at h
          rw [← h] at ha
          cases ha

/-! ## The Kraft sum and the entropy bound -/

/-- The Kraft sum of the code paths of a tree with distinct characters at its
leaves is 1. -/
theorem kraft_codePath {K : Type} [LinearOrderedField K] {t : HuffmanNodePtr} (h : IsTree t) :
    (leafChars t).Nodup →
    ((leafEntries t).map
      (fun e => ((2 : K)⁻¹) ^ ((codePath t e.1).getD []).length)).sum = 1 := by
  induction h with
  | leaf c f => intro _; simp [leafEntries, isLeaf, isNull, codePath]
  | inner c f l r hl hr ihl ihr =>
    intro hnd
    unfold leafChars at hnd
    rw [leafEntries_inner _ _ _ hl, List.map_append, List.nodup_append] at hnd
    obtain ⟨hndl, hndr, hdisj⟩ := hnd
    rw [leafEntries_inner _ _ _ hl, List.map_append, List.sum_append]
    have e1 : (leafEntries l).map
        (fun e => ((2 : K)⁻¹) ^ ((codePath (node c f l r) e.1).getD []).length) =
        (leafEntries l).map
          (fun e => (2 : K)⁻¹ * ((2 : K)⁻¹) ^ ((codePath l e.1).getD []).length) := by
      apply List.map_congr_left
      intro e he
      have hin : e.1 ∈ leafChars l := List.mem_map.mpr ⟨e, he, rfl⟩
      have hnr : e.1 ∉ leafChars r := fun h => hdisj hin h
      rw [codePath, isLeaf_inner _ _ _ hl]
      simp only [Bool.false_eq_true, if_false]
      rw [codePath_eq_none r e.1 hnr]
      have hs := codePath_isSome hl e.1 hin
      cases hp : codePath l e.1 with
      | none => rw [hp] at hs; cases hs
      | some p =>
        simp only [Option.map_some', Option.getD_some, List.length_cons]
        rw [pow_succ]
        ring
    have e2 : (leafEntries r).map
        (fun e => ((2 : K)⁻¹) ^ ((codePath (node c f l r) e.1).getD []).length) =
        (leafEntries r).map
          (fun e => (2 : K)⁻¹ * ((2 : K)⁻¹) ^ ((codePath r e.1).getD []).length) := by
      apply List.map_congr_left
      intro e he
      have hin : e.1 ∈ leafChars r := List.mem_map.mpr ⟨e, he, rfl⟩
      rw [codePath, isLeaf_inner _ _ _ hl]
      simp only [Bool.false_eq_true, if_false]
      have hs := codePath_isSome hr e.1 hin
      cases hp : codePath r e.1 with
      | none => rw [hp] at hs; cases hs
      | some p =>
        simp only [Option.getD_some, List.length_cons]
        rw [pow_succ]
        ring
    rw [e1, e2, List.sum_map_mul_left, List.sum_map_mul_left, ihl hndl, ihr hndr]
    norm_num

/-- The Kraft sum of the generated code over the frequency table is 1 when the
root of the tree is not a leaf. -/
theorem kraft_generateCodes {K : Type} [LinearOrderedField K] (frequencies : CMap Int)
    (hmap : IsMap frequencies) {t : HuffmanNodePtr} (htree : IsTree t)
    (hroot : t.isLeaf = false) (hperm : (leafEntries t).Perm frequencies) :
    (frequencies.map
      (fun e => ((2 : K)⁻¹) ^ codeLength (generateCodes t [] []) e.1)).sum = 1 := by
  have hnd : (leafChars t).Nodup :=
    ((hperm.map Prod.fst).nodup_iff).mpr (isMap_nodup frequencies hmap)
  rw [← kraft_codePath htree hnd]
  unfold codeLength
  rw [← (hperm.map _).sum_eq]
  congr 1
  apply List.map_congr_left
  intro e _
  rw [generateCodes_find_root htree hroot]

/-- The term of the Gibbs inequality for a probability `p` and the code length
`l`. -/
theorem gibbs_term (p : ℝ) (hp : 0 < p) (l : ℕ) :
    (p - ((2 : ℝ)⁻¹) ^ l) / Real.log 2 ≤ p * (l : ℝ) + p * Real.logb 2 p := by
  have hlog2 : 0 < Real.log 2 := Real.log_pos (by norm_num)
  have hq : 0 < ((2 : ℝ)⁻¹) ^ l := by positivity
  have hlq : Real.log (((2 : ℝ)⁻¹) ^ l) = -((l : ℝ) * Real.log 2) := by
    rw [Real.log_pow, Real.log_inv]; ring
  have h1 : Real.log (((2 : ℝ)⁻¹) ^ l / p) ≤ ((2 : ℝ)⁻¹) ^ l / p - 1 :=
    Real.log_le_sub_one_of_pos (div_pos hq hp)
  rw [Real.log_div (ne_of_gt hq) (ne_of_gt hp), hlq] at h1
  have h2 : p * (-((l : ℝ) * Real.log 2) - Real.log p) ≤ ((2 : ℝ)⁻¹) ^ l - p := by
    have h3 := mul_le_mul_of_nonneg_left h1 (le_of_lt hp)
    have e : p * (((2 : ℝ)⁻¹) ^ l / p - 1) = ((2 : ℝ)⁻¹) ^ l - p := by
      rw [mul_sub, mul_one, mul_div_assoc', mul_comm, mul_div_assoc, div_self (ne_of_gt hp),
        mul_one]
    linarith
  unfold Real.logb
  rw [div_le_iff₀ hlog2]
  have e2 : (p * (l : ℝ) + p * (Real.log p / Real.log 2)) * Real.log 2 =
      p * ((l : ℝ) * Real.log 2) + p * Real.log p := by
    field_simp
    ring
  rw [e2]
  linarith

theorem gibbs_sum (n : ℝ) (hn : 0 < n) (len : CChar → ℕ) :
    ∀ F : List (CChar × Int), (∀ e ∈ F, 0 < e.2) →
      ((F.map (fun e => (e.2 : ℝ))).sum / n -
          (F.map (fun e => ((2 : ℝ)⁻¹) ^ len e.1)).sum) / Real.log 2 ≤
        (F.map (fun e => (e.2 : ℝ) * (len e.1 : ℝ))).sum / n +
          (F.map (fun e => (e.2 : ℝ) / n * Real.logb 2 ((e.2 : ℝ) / n))).sum := by
  intro F
  induction F with
  | nil => intro _; simp
  | cons e rest ih =>
    intro h
    have he : (0 : ℝ) < (e.2 : ℝ) := by exact_mod_cast h e (List.mem_cons_self _ _)
    have ht := gibbs_term ((e.2 : ℝ) / n) (div_pos he hn) (len e.1)
    have hr := ih (fun x hx => h x (List.mem_cons_of_mem _ hx))
    simp only [List.map_cons, List.sum_cons]
    have eL : (((e.2 : ℝ) + (rest.map (fun e => (e.2 : ℝ))).sum) / n -
        (((2 : ℝ)⁻¹) ^ len e.1 + (rest.map (fun e => ((2 : ℝ)⁻¹) ^ len e.1)).sum)) /
          Real.log 2 =
        ((e.2 : ℝ) / n - ((2 : ℝ)⁻¹) ^ len e.1) / Real.log 2 +
          ((rest.map (fun e => (e.2 : ℝ))).sum / n -
            (rest.map (fun e => ((2 : ℝ)⁻¹) ^ len e.1)).sum) / Real.log 2 := by
      ring
    have eR : ((e.2 : ℝ) * (len e.1 : ℝ) +
        (rest.map (fun e => (e.2 : ℝ) * (len e.1 : ℝ))).sum) / n =
        (e.2 : ℝ) / n * (len e.1 : ℝ) +
          (rest.map (fun e => (e.2 : ℝ) * (len e.1 : ℝ))).sum / n := by
      ring
    rw [eL, eR]
    linarith

theorem sum_map_intCast (F : List (CChar × Int)) :
    (((F.map Prod.snd).sum : Int) : ℝ) = (F.map (fun e => (e.2 : ℝ))).sum := by
  induction F with
  | nil => simp
  | cons e rest ih =>
    simp only [List.map_cons, List.sum_cons]
    rw [Int.cast_add, ih]

theorem weightedLength_cast (F : CMap Int) (len : CChar → ℕ) :
    ((weightedLength F len : Int) : ℝ) = (F.map (fun e => (e.2 : ℝ) * (len e.1 : ℝ))).sum := by
  unfold weightedLength
  induction F with
  | nil => simp
  | cons e rest ih =>
    simp only [List.map_cons, List.sum_cons]
    rw [Int.cast_add, ih]
    push_cast
    rfl

theorem sum_snd_pos (F : CMap Int) (hne : F ≠ []) (hpos : ∀ e ∈ F, 0 < e.2) :
    0 < (F.map Prod.snd).sum := by
  cases F with
  | nil => exact absurd rfl hne
  | cons e rest =>
    have h1 : 0 < e.2 := hpos e (List.mem_cons_self _ _)
    have h2 : 0 ≤ (rest.map Prod.snd).sum := by
      apply List.sum_nonneg
      intro x hx
      obtain ⟨y, hy, rfl⟩ := List.mem_map.mp hx
      exact le_of_lt (hpos y (List.mem_cons_of_mem _ hy))
    simp only [List.map_cons, List.sum_cons]
    omega

theorem weightedLength_pos (F : CMap Int) (len : CChar → ℕ) (hne : F ≠ [])
    (hpos : ∀ e ∈ F, 0 < e.2) (hlen : ∀ e ∈ F, 1 ≤ len e.1) : 0 < weightedLength F len := by
  have hle : ∀ l : CMap Int, (∀ e ∈ l, 0 < e.2) → (∀ e ∈ l, 1 ≤ len e.1) →
      (l.map Prod.snd).sum ≤ weightedLength l len := by
    intro l
    induction l with
    | nil => intro _ _; simp [weightedLength]
    | cons e rest ih =>
      intro h1 h2
      have ih1 := ih (fun x hx => h1 x (List.mem_cons_of_mem _ hx))
        (fun x hx => h2 x (List.mem_cons_of_mem _ hx))
      have he1 := h1 e (List.mem_cons_self _ _)
      have he2 : (1 : Int) ≤ (len e.1 : Int) := by exact_mod_cast h2 e (List.mem_cons_self _ _)
      unfold weightedLength at ih1 ⊢
      simp only [List.map_cons, List.sum_cons]
      nlinarith
  exact lt_of_lt_of_le (sum_snd_pos F hne hpos) (hle F hpos hlen)

/-- The Gibbs inequality for a frequency table and code lengths of Kraft sum
at most 1: the entropy of the counts is at most the average code length. -/
theorem entropy_le_average (frequencies : CMap Int) (len : CChar → ℕ)
    (hne : frequencies ≠ []) (hpos : ∀ e ∈ frequencies, 0 < e.2)
    (hkraft : (frequencies.map (fun e => ((2 : ℝ)⁻¹) ^ len e.1)).sum ≤ 1) :
    -(frequencies.map (fun e =>
        (e.2 : ℝ) / (((frequencies.map Prod.snd).sum : Int) : ℝ) *
          Real.logb 2 ((e.2 : ℝ) / (((frequencies.map Prod.snd).sum : Int) : ℝ)))).sum ≤
      ((weightedLength frequencies len : Int) : ℝ) /
        (((frequencies.map Prod.snd).sum : Int) : ℝ) := by
  have htot := sum_snd_pos frequencies hne hpos
  have hn : (0 : ℝ) < (((frequencies.map Prod.snd).sum : Int) : ℝ) := by exact_mod_cast htot
  rw [weightedLength_cast]
  have hg := gibbs_sum _ hn len frequencies hpos
  rw [← sum_map_intCast frequencies, div_self (ne_of_gt hn)] at hg
  have hlog2 : 0 < Real.log 2 := Real.log_pos (by norm_num)
  have h0 : 0 ≤ (1 - (frequencies.map (fun e => ((2 : ℝ)⁻¹) ^ len e.1)).sum) / Real.log 2 :=
    div_nonneg (by linarith) (le_of_lt hlog2)
  linarith

/-! ## Code lengths and the encoding as a concatenation -/

theorem encodeText_flatMap (codes : CMap (List CChar)) (text : List CChar) :
    encodeText text codes = text.flatMap (fun c => (mapFind codes c).getD []) := by
  induction text with
  | nil => rfl
  | cons ch rest ih =>
    rw [encodeText_cons, ih, List.flatMap_cons]
    cases mapFind codes ch <;> rfl

theorem encodeText_append (codes : CMap (List CChar)) (A B : List CChar) :
    encodeText (A ++ B) codes = encodeText A codes ++ encodeText B codes := by
  rw [encodeText_flatMap, encodeText_flatMap, encodeText_flatMap, List.flatMap_append]

theorem leafEntries_length_pos {t : HuffmanNodePtr} (h : IsTree t) :
    1 ≤ (leafEntries t).length := by
  induction h with
  | leaf c f => simp [leafEntries, isLeaf, isNull]
  | inner c f l r hl _ ihl _ =>
    rw [leafEntries_inner _ _ _ hl, List.length_append]
    omega

/-- A code path has fewer characters than the tree has leaves. -/
theorem codePath_length_lt {t : HuffmanNodePtr} (h : IsTree t) :
    ∀ (c : CChar) (p : List CChar), codePath t c = some p →
      p.length + 1 ≤ (leafEntries t).length := by
  induction h with
  | leaf c0 f =>
    intro c p hp
    have hp2 := codePath_leaf_nil c0 f c p hp
    rw [hp2]
    simp [leafEntries, isLeaf, isNull]
  | inner c0 f l r hl hr ihl ihr =>
    intro c p hp
    rw [codePath, isLeaf_inner _ _ _ hl] at hp
    simp only [Bool.false_eq_true, if_false] at hp
    rw [leafEntries_inner _ _ _ hl, List.length_append]
    have hposl := leafEntries_length_pos hl
    have hposr := leafEntries_length_pos hr
    cases hr1 : codePath r c with
    | some q =>
      rw [hr1] at hp
      simp only [Option.some.injEq] at hp
      have := ihr c q hr1
      rw [← hp, List.length_cons]
      omega
    | none =>
      rw [hr1] at hp
      cases hl1 : codePath l c with
      | none => rw [hl1] at hp; cases hp
      | some q =>
        rw [hl1] at hp
        simp only [Option.map_some', Option.some.injEq] at hp
        have := ihl c q hl1
        rw [← hp, List.length_cons]
        omega

/-- The codes generated for a table of two entries or more have at least one
character and fewer characters than the table has entries. -/
theorem generateCodes_length_bounds (H : HeapAlgorithms) (hH : H.Lawful)
    (frequencies : CMap Int) (h2 : 2 ≤ frequencies.length) (t : HuffmanNodePtr)
    (ht : buildHuffmanTree H frequencies = some t) :
    ∀ (c : CChar) (code : List CChar), mapFind (generateCodes t [] []) c = some code →
      1 ≤ code.length ∧ code.length ≤ frequencies.length - 1 := by
  have hne : frequencies ≠ [] := by
    intro e; rw [e] at h2; simp at h2
  obtain ⟨t1, ht1, _, htree, hperm, hroot⟩ := buildHuffmanTree_spec H hH frequencies hne
  rw [ht] at ht1
  cases ht1
  intro c code hc
  have hmem := mem_of_mapFind _ _ _ hc
  have hlow : code ≠ [] := by
    rcases generateCodes_entries t [] [] (by intro x hx; cases hx) _ hmem with h | h
    · cases h
    · exact h.1
  rw [generateCodes_find_root htree (hroot h2)] at hc
  have hup := codePath_length_lt htree c code hc
  rw [hperm.length_eq] at hup
  exact ⟨List.length_pos.mpr hlow, by omega⟩

/-- A table with distinct keys that are values of a `char` has at most 256
entries. -/
theorem isMap_length_le (frequencies : CMap Int) (hmap : IsMap frequencies)
    (hbyte : ∀ e ∈ frequencies, -128 ≤ e.1 ∧ e.1 ≤ 127) : frequencies.length ≤ 256 := by
  have hnd := isMap_nodup frequencies hmap
  have hsub : (frequencies.map Prod.fst).toFinset ⊆ Finset.Icc (-128 : Int) 127 := by
    intro k hk
    rw [List.mem_toFinset] at hk
    obtain ⟨e, he, rfl⟩ := List.mem_map.mp hk
    exact Finset.mem_Icc.mpr (hbyte e he)
  have hcard := Finset.card_le_card hsub
  rw [List.toFinset_card_of_nodup hnd, List.length_map, Int.card_Icc] at hcard
  simpa using hcard

/-! ## The iterations of the merging loop and the states of the decoding walk -/

/-- The merging loop with `k` iterations allowed has a result exactly when the
queue holds at most `k + 1` nodes, and then it makes one iteration less than
the queue holds nodes. -/
theorem mergeLoop_fuel (H : HeapAlgorithms) (hH : H.Lawful) :
    ∀ (k : Nat) (pq : List HuffmanNodePtr), IsHeap pq → (∀ t ∈ pq, t.isNull = false) →
      pq ≠ [] →
      (pq.length ≤ k + 1 → mergeCount H k pq = some (pq.length - 1)) ∧
      (k + 1 < pq.length → mergeLoop H k pq = none ∧ mergeCount H k pq = none) := by
  intro k
  induction k with
  | zero =>
    intro pq _ _ hne
    have hpos : 1 ≤ pq.length := List.length_pos.mpr hne
    constructor
    · intro hlen
      have h1 : ¬ pq.length > 1 := by omega
      have h2 : pq.length - 1 = 0 := by omega
      simp only [mergeCount, h1, if_false, h2]
    · intro hlen
      have h1 : pq.length > 1 := by omega
      simp only [mergeLoop, mergeCount, h1, if_true, and_self]
  | succ k ih =>
    intro pq h hn hne
    have hpos : 1 ≤ pq.length := List.length_pos.mpr hne
    by_cases h1 : pq.length > 1
    · obtain ⟨l, r, rest, pq1, hs, hh1, hp, hp1, _, _⟩ :=
        mergeStep_spec H hH pq h hn (by omega)
      have hlen1 : pq1.length = rest.length + 1 := by rw [hp1.length_eq]; simp
      have hlen0 : pq.length = rest.length + 2 := by rw [hp.length_eq]; simp
      have hn1 : ∀ t ∈ pq1, t.isNull = false := by
        intro t ht
        rcases List.mem_cons.mp (hp1.subset ht) with e | e
        · rw [e]; rfl
        · exact hn t (hp.symm.subset (by simp [e]))
      have hne1 : pq1 ≠ [] := by intro e; rw [e] at hlen1; simp at hlen1
      obtain ⟨ih1, ih2⟩ := ih pq1 hh1 hn1 hne1
      constructor
      · intro hlen
        have hc := ih1 (by omega)
        simp only [mergeCount, h1, if_true, hs, Option.some_bind, hc, Option.map_some',
          Option.some.injEq]
        omega
      · intro hlen
        obtain ⟨hc1, hc2⟩ := ih2 (by omega)
        simp only [mergeLoop, mergeCount, h1, if_true, hs, Option.some_bind, hc1, hc2,
          Option.map_none', and_self]
    · constructor
      · intro _
        have h2 : pq.length - 1 = 0 := by omega
        simp only [mergeCount, h1, if_false, h2]
      · intro hlen
        omega

/-- In a well-formed tree there is one leaf more than there are other nodes. -/
theorem isTree_counts {t : HuffmanNodePtr} (h : IsTree t) :
    ((nodes t).filter (fun n => n.isLeaf)).length = (leafEntries t).length ∧
    ((nodes t).filter (fun n => !n.isLeaf)).length + 1 = (leafEntries t).length := by
  induction h with
  | leaf c f => simp [nodes, leafEntries, isLeaf, isNull]
  | inner c f l r hl hr ihl ihr =>
    have hleaf := isLeaf_inner c f r hl
    rw [leafEntries_inner _ _ _ hl, List.length_append]
    simp only [nodes, List.filter_cons, hleaf, Bool.false_eq_true, if_false, Bool.not_false,
      if_true, List.filter_append, List.length_append, List.length_cons]
    omega

theorem isTree_of_mem_nodes {t : HuffmanNodePtr} (h : IsTree t) :
    ∀ n ∈ nodes t, IsTree n := by
  induction h with
  | leaf c f =>
    intro n hn
    simp only [nodes, List.append_nil, List.mem_singleton] at hn
    rw [hn]; exact IsTree.leaf c f
  | inner c f l r hl hr ihl ihr =>
    intro n hn
    simp only [nodes, List.mem_cons, List.mem_append] at hn
    rcases hn with e | e | e
    · rw [e]; exact IsTree.inner c f l r hl hr
    · exact ihl n e
    · exact ihr n e

theorem decodeLoop_eq_walk (root : HuffmanNodePtr) :
    ∀ (bits : List CChar) (st : HuffmanNodePtr × List CChar),
      decodeLoop root bits st = (decodeWalk root bits st).map Prod.snd := by
  intro bits
  induction bits with
  | nil => intro st; rfl
  | cons bit rest ih =>
    intro st
    simp only [decodeLoop, decodeWalk]
    cases decodeStep root st bit with
    | none => rfl
    | some st1 => exact ih st1

/-- One step of the decoding walk from a node of the tree that is not a leaf
ends at such a node. -/
theorem decodeStep_inner {root : HuffmanNodePtr} (h : IsTree root) (hroot : root.isLeaf = false)
    (cur : HuffmanNodePtr) (out : List CChar) (bit : CChar)
    (hcur : cur ∈ nodes root) (hleaf : cur.isLeaf = false) :
    ∃ cur1 out1, decodeStep root (cur, out) bit = some (cur1, out1) ∧
      cur1 ∈ nodes root ∧ cur1.isLeaf = false := by
  have hroot_mem : root ∈ nodes root := nodes_self (isTree_isNull h)
  have htc := isTree_of_mem_nodes h cur hcur
  cases htc with
  | leaf c f => simp [isLeaf, isNull] at hleaf
  | inner c f l r hl hr =>
    have hlmem : l ∈ nodes root :=
      nodes_subset root _ hcur l (by
        have := nodes_self (isTree_isNull hl)
        simp [nodes, this])
    have hrmem : r ∈ nodes root :=
      nodes_subset root _ hcur r (by
        have := nodes_self (isTree_isNull hr)
        simp [nodes, this])
    by_cases h0 : bit = chr0
    · simp only [decodeStep, h0, if_true, getLeft, Option.bind_eq_bind, Option.some_bind]
      cases hl with
      | leaf c1 f1 =>
        exact ⟨root, out ++ [c1], by simp [isLeaf, isNull], hroot_mem, hroot⟩
      | inner c1 f1 l1 r1 hl1 hr1 =>
        exact ⟨_, out, by simp [isLeaf_inner c1 f1 r1 hl1], hlmem, isLeaf_inner c1 f1 r1 hl1⟩
    · by_cases h1 : bit = chr1
      · have hne : ¬ chr1 = chr0 := by decide
        simp only [decodeStep, h1, hne, if_false, if_true, getRight, Option.bind_eq_bind,
          Option.some_bind]
        cases hr with
        | leaf c1 f1 =>
          exact ⟨root, out ++ [c1], by simp [isLeaf, isNull], hroot_mem, hroot⟩
        | inner c1 f1 l1 r1 hl1 hr1 =>
          exact ⟨_, out, by simp [isLeaf_inner c1 f1 r1 hl1], hrmem, isLeaf_inner c1 f1 r1 hl1⟩
      · simp only [decodeStep, h0, h1, if_false, Option.bind_eq_bind, Option.some_bind]
        exact ⟨_, out, by simp [isLeaf_inner c f r hl], hcur, isLeaf_inner c f r hl⟩

/-- The decoding walk from a node of the tree that is not a leaf never leaves
the nodes of the tree that are not leaves. -/
theorem decodeWalk_inner {root : HuffmanNodePtr} (h : IsTree root) (hroot : root.isLeaf = false) :
    ∀ (bits : List CChar) (cur : HuffmanNodePtr) (out : List CChar),
      cur ∈ nodes root → cur.isLeaf = false →
      ∃ cur1 out1, decodeWalk root bits (cur, out) = some (cur1, out1) ∧
        cur1 ∈ nodes root ∧ cur1.isLeaf = false := by
  intro bits
  induction bits with
  | nil => intro cur out hcur hleaf; exact ⟨cur, out, rfl, hcur, hleaf⟩
  | cons bit rest ih =>
    intro cur out hcur hleaf
    obtain ⟨cur1, out1, hs, hm1, hl1⟩ := decodeStep_inner h hroot cur out bit hcur hleaf
    obtain ⟨cur2, out2, hw, hm2, hl2⟩ := ih cur1 out1 hm1 hl1
    refine ⟨cur2, out2, ?_, hm2, hl2⟩
    simp only [decodeWalk, hs, Option.some_bind, hw]

theorem restoreFiles_message (store : ArchiveStore) (outputDir allDecompressed : List CChar) :
    ∀ (files : List (List CChar × Nat)) (st : Nat × List (List CChar × List CChar)),
      (restoreFiles store outputDir allDecompressed files st).1 ≠
        some DecodeMessage.noCompressedDataFound := by
  intro files
  induction files with
  | nil => intro st; simp [restoreFiles]
  | cons f rest ih =>
    intro st
    obtain ⟨fileName, fileSize⟩ := f
    simp only [restoreFiles]
    split_ifs
    · simp
    · exact ih _
    · simp

/-! ## Combining frequency tables -/

/-- Two tables with the same lookups are the same table. -/
theorem isMap_ext {V : Type} : ∀ (m1 m2 : CMap V), IsMap m1 → IsMap m2 →
    (∀ k, mapFind m1 k = mapFind m2 k) → m1 = m2 := by
  intro m1
  induction m1 with
  | nil =>
    intro m2 _ _ h
    cases m2 with
    | nil => rfl
    | cons e rest =>
      have := h e.1
      simp [mapFind] at this
  | cons e1 r1 ih =>
    intro m2 h1 h2 h
    cases m2 with
    | nil =>
      have := h e1.1
      simp [mapFind] at this
    | cons e2 r2 =>
      obtain ⟨k1, v1⟩ := e1
      obtain ⟨k2, v2⟩ := e2
      unfold IsMap at h1 h2
      rw [List.map_cons, List.pairwise_cons] at h1 h2
      have hk : k1 = k2 := by
        have a1 := h k1
        have a2 := h k2
        simp only [mapFind, if_true] at a1 a2
        by_contra hne
        rw [if_neg hne] at a1
        rw [if_neg (fun e => hne e.symm)] at a2
        have m1 : (k1, v1) ∈ r2 := mem_of_mapFind _ _ _ a1.symm
        have m2 : (k2, v2) ∈ r1 := mem_of_mapFind _ _ _ a2
        have l1 : k2 < k1 := h2.1 k1 (List.mem_map.mpr ⟨(k1, v1), m1, rfl⟩)
        have l2 : k1 < k2 := h1.1 k2 (List.mem_map.mpr ⟨(k2, v2), m2, rfl⟩)
        exact lt_irrefl _ (lt_trans l1 l2)
      subst hk
      have hv : v1 = v2 := by
        have a1 := h k1
        simp only [mapFind, if_true, Option.some.injEq] at a1
        exact a1
      subst hv
      have hrest : r1 = r2 := by
        apply ih r2 h1.2 h2.2
        intro k
        by_cases hkk : k = k1
        · subst hkk
          rw [mapFind_eq_none r1 k (fun hm => lt_irrefl _ (h1.1 k hm)),
            mapFind_eq_none r2 k (fun hm => lt_irrefl _ (h2.1 k hm))]
        · have := h k
          simp only [mapFind, if_neg hkk] at this
          exact this
      rw [hrest]

theorem sumCounts_comm (a b : Option Int) : sumCounts a b = sumCounts b a := by
  cases a <;> cases b <;> simp [sumCounts, add_comm]

theorem sumCounts_assoc (a b c : Option Int) :
    sumCounts (sumCounts a b) c = sumCounts a (sumCounts b c) := by
  cases a <;> cases b <;> cases c <;> simp [sumCounts, add_assoc]

/-- The combination of two tables is a table, and the count of a key in it is
the sum of its counts in the two. -/
theorem combineTables_spec : ∀ (m2 m1 : CMap Int), IsMap m1 → IsMap m2 →
    IsMap (combineTables m1 m2) ∧
    ∀ k, mapFind (combineTables m1 m2) k = sumCounts (mapFind m1 k) (mapFind m2 k) := by
  intro m2
  induction m2 with
  | nil =>
    intro m1 h1 _
    refine ⟨h1, ?_⟩
    intro k
    cases hf : mapFind m1 k <;> simp [combineTables, mapFind, sumCounts, hf]
  | cons e rest ih =>
    intro m1 h1 h2
    obtain ⟨ke, ve⟩ := e
    have h2' := h2
    unfold IsMap at h2'
    rw [List.map_cons, List.pairwise_cons] at h2'
    have hstep : combineTables m1 ((ke, ve) :: rest) =
        combineTables (mapSet m1 ke ((mapFind m1 ke).getD 0 + ve)) rest := by
      simp only [combineTables, List.foldl_cons]
    obtain ⟨i1, i2⟩ := ih (mapSet m1 ke ((mapFind m1 ke).getD 0 + ve))
      (isMap_mapSet m1 h1 ke _) h2'.2
    rw [hstep]
    refine ⟨i1, ?_⟩
    intro k
    rw [i2 k, mapFind_mapSet]
    by_cases hk : k = ke
    · subst hk
      rw [if_pos rfl, mapFind_eq_none rest k (fun hm => lt_irrefl _ (h2'.1 k hm))]
      simp only [mapFind, if_true]
      cases hf : mapFind m1 k <;> simp [sumCounts]
    · rw [if_neg hk]
      simp only [mapFind, if_neg hk]

theorem combineTables_comm (m1 m2 : CMap Int) (h1 : IsMap m1) (h2 : IsMap m2) :
    combineTables m1 m2 = combineTables m2 m1 := by
  obtain ⟨a1, a2⟩ := combineTables_spec m2 m1 h1 h2
  obtain ⟨b1, b2⟩ := combineTables_spec m1 m2 h2 h1
  apply isMap_ext _ _ a1 b1
  intro k
  rw [a2, b2, sumCounts_comm]

theorem combineTables_assoc (m1 m2 m3 : CMap Int) (h1 : IsMap m1) (h2 : IsMap m2)
    (h3 : IsMap m3) :
    combineTables (combineTables m1 m2) m3 = combineTables m1 (combineTables m2 m3) := by
  obtain ⟨a1, a2⟩ := combineTables_spec m2 m1 h1 h2
  obtain ⟨b1, b2⟩ := combineTables_spec m3 m2 h2 h3
  obtain ⟨c1, c2⟩ := combineTables_spec m3 (combineTables m1 m2) a1 h3
  obtain ⟨d1, d2⟩ := combineTables_spec (combineTables m2 m3) m1 h1 b1
  apply isMap_ext _ _ c1 d1
  intro k
  rw [c2, d2, a2, b2, sumCounts_assoc]

/-- The table of a concatenation of at most `INT_MAX` bytes is the combination
of the tables of its two parts. -/
theorem buildFrequencyTable_append (A B : List CChar)
    (hb : A.length + B.length ≤ 2147483647) :
    buildFrequencyTable (A ++ B) =
      combineTables (buildFrequencyTable A) (buildFrequencyTable B) := by
  obtain ⟨a1, a2⟩ := combineTables_spec (buildFrequencyTable B) (buildFrequencyTable A)
    (buildFrequencyTable_isMap A) (buildFrequencyTable_isMap B)
  apply isMap_ext _ _ (buildFrequencyTable_isMap (A ++ B)) a1
  intro k
  have hA : A.count k ≤ A.length := List.count_le_length _ _
  have hB : B.count k ≤ B.length := List.count_le_length _ _
  rw [a2, buildFrequencyTable_find_exact A k (by omega),
    buildFrequencyTable_find_exact B k (by omega),
    buildFrequencyTable_find_exact (A ++ B) k (by rw [List.count_append]; omega),
    List.count_append]
  by_cases hA0 : A.count k = 0 <;> by_cases hB0 : B.count k = 0
  · simp [hA0, hB0, sumCounts]
  · simp [hA0, hB0, sumCounts]
  · simp [hA0, hB0, sumCounts]
  · have : ¬ (A.count k + B.count k = 0) := by omega
    simp [hA0, hB0, this, sumCounts]

/-! ## Code length against frequency -/

theorem swap_injective (a b x y : Int)
    (h : (if x = a then b else if x = b then a else x) =
      (if y = a then b else if y = b then a else y)) : x = y := by
  split_ifs at h <;> omega

/-- A weighted sum over a table after a change of the term of one key. -/
theorem sum_one_key : ∀ (F : CMap Int), (F.map Prod.fst).Nodup → ∀ (a : CChar) (fa : Int),
    (a, fa) ∈ F → ∀ (g h : CChar → Int), (∀ c, c ≠ a → h c = g c) →
    (F.map (fun e => e.2 * h e.1)).sum =
      (F.map (fun e => e.2 * g e.1)).sum + fa * (h a - g a) := by
  intro F
  induction F with
  | nil => intro _ a fa ha; cases ha
  | cons e rest ih =>
    intro hnd a fa ha g h hgh
    rw [List.map_cons, List.nodup_cons] at hnd
    simp only [List.map_cons, List.sum_cons]
    rcases List.mem_cons.mp ha with he | he
    · have hrest : rest.map (fun e => e.2 * h e.1) = rest.map (fun e => e.2 * g e.1) := by
        apply List.map_congr_left
        intro x hx
        have hk : x.1 ∈ rest.map Prod.fst := List.mem_map.mpr ⟨x, hx, rfl⟩
        have hxa : x.1 ≠ a := by
          intro e1
          apply hnd.1
          rw [← he]
          simpa [e1] using hk
        rw [hgh x.1 hxa]
      rw [hrest, ← he]
      ring
    · have hk : a ∈ rest.map Prod.fst := List.mem_map.mpr ⟨(a, fa), he, rfl⟩
      have hea : e.1 ≠ a := fun e1 => hnd.1 (e1 ▸ hk)
      rw [ih hnd.2 a fa he g h hgh, hgh e.1 hea]
      ring

/-- A weighted sum over a table after a change of the terms of two keys. -/
theorem sum_two_keys (F : CMap Int) (hnd : (F.map Prod.fst).Nodup) (a b : CChar) (fa fb : Int)
    (ha : (a, fa) ∈ F) (hb : (b, fb) ∈ F) (hab : a ≠ b) (g h : CChar → Int)
    (hgh : ∀ c, c ≠ a → c ≠ b → h c = g c) :
    (F.map (fun e => e.2 * h e.1)).sum =
      (F.map (fun e => e.2 * g e.1)).sum + fa * (h a - g a) + fb * (h b - g b) := by
  have h1 := sum_one_key F hnd a fa ha g (fun c => if c = a then h a else g c)
    (fun c hc => by simp only [if_neg hc])
  have h2 := sum_one_key F hnd b fb hb (fun c => if c = a then h a else g c) h
    (fun c hc => by
      by_cases hca : c = a
      · subst hca
        simp only [if_true]
      · simp only [if_neg hca]
        exact hgh c hca hc)
  simp only [if_true, if_neg (fun e : b = a => hab e.symm)] at h1 h2
  rw [h2, h1]

theorem generateCodes_isBitString (t : HuffmanNodePtr) (c : CChar) :
    IsBitString ((mapFind (generateCodes t [] []) c).getD []) := by
  cases hf : mapFind (generateCodes t [] []) c with
  | none => intro x hx; simp at hx
  | some code =>
    have hmem := mem_of_mapFind _ _ _ hf
    rcases generateCodes_entries t [] [] (by intro x hx; cases hx) _ hmem with h | h
    · cases h
    · exact h.2

/-- In the generated code for counts that sum to at most `INT_MAX`, a key of
greater count has a code that is not longer. -/
theorem codeLength_antitone (H : HeapAlgorithms) (hH : H.Lawful) (frequencies : CMap Int)
    (hmap : IsMap frequencies) (hpos : ∀ e ∈ frequencies, 0 < e.2)
    (hbound : (frequencies.map Prod.snd).sum ≤ 2147483647) (t : HuffmanNodePtr)
    (ht : buildHuffmanTree H frequencies = some t) (a b : CChar) (fa fb : Int)
    (ha : (a, fa) ∈ frequencies) (hb : (b, fb) ∈ frequencies) (hlt : fb < fa) :
    codeLength (generateCodes t [] []) a ≤ codeLength (generateCodes t [] []) b := by
  by_contra hcon
  have hll : codeLength (generateCodes t [] []) b < codeLength (generateCodes t [] []) a := by
    omega
  have hab : a ≠ b := by
    intro e
    subst e
    have h1 := mapFind_of_mem frequencies hmap a fa ha
    have h2 := mapFind_of_mem frequencies hmap a fb hb
    rw [h1] at h2
    injection h2 with h3
    omega
  have h2 : 2 ≤ frequencies.length := by
    cases frequencies with
    | nil => cases ha
    | cons e1 r1 =>
      cases r1 with
      | nil =>
        simp only [List.mem_singleton] at ha hb
        rw [← ha] at hb
        injection hb with h3 _
        exact absurd h3.symm hab
      | cons e2 r2 => simp
  have hcov : ∀ e ∈ frequencies, ∃ code, mapFind (generateCodes t [] []) e.1 = some code := by
    intro e he
    have hc := codes_cover H hH frequencies t ht e he
    cases hf : mapFind (generateCodes t [] []) e.1 with
    | none => rw [hf] at hc; cases hc
    | some code => exact ⟨code, rfl⟩
  have hpfree := prefixFree_generateCodes H hH frequencies t ht
  have hswap : ∀ e ∈ frequencies,
      ∃ e1 ∈ frequencies, e1.1 = (if e.1 = a then b else if e.1 = b then a else e.1) := by
    intro e he
    by_cases h1 : e.1 = a
    · exact ⟨(b, fb), hb, by rw [if_pos h1]⟩
    · by_cases h3 : e.1 = b
      · exact ⟨(a, fa), ha, by rw [if_neg h1, if_pos h3]⟩
      · exact ⟨e, he, by rw [if_neg h1, if_neg h3]⟩
  have hopt := generateCodes_optimal H hH frequencies hmap h2 hpos hbound
    (fun c => (mapFind (generateCodes t [] [])
      (if c = a then b else if c = b then a else c)).getD [])
    (fun e _ => generateCodes_isBitString t _)
    (by
      intro e1 he1 e2 he2 hne
      obtain ⟨x1, hx1, hk1⟩ := hswap e1 he1
      obtain ⟨x2, hx2, hk2⟩ := hswap e2 he2
      obtain ⟨c1, hc1⟩ := hcov x1 hx1
      obtain ⟨c2, hc2⟩ := hcov x2 hx2
      rw [hk1] at hc1
      rw [hk2] at hc2
      simp only [hc1, hc2, Option.getD_some]
      refine hpfree _ _ c1 c2 ?_ hc1 hc2
      intro heq
      exact hne (swap_injective a b e1.1 e2.1 heq))
    t ht
  have hsum := sum_two_keys frequencies (isMap_nodup frequencies hmap) a b fa fb ha hb hab
    (fun c => ((codeLength (generateCodes t [] []) c : Nat) : Int))
    (fun c => ((codeLength (generateCodes t [] [])
      (if c = a then b else if c = b then a else c) : Nat) : Int))
    (by intro c h1 h3; simp only [if_neg h1, if_neg h3])
  simp only [if_true, if_neg (fun e : b = a => hab e.symm)] at hsum
  have hw : weightedLength frequencies (fun c => ((mapFind (generateCodes t [] [])
      (if c = a then b else if c = b then a else c)).getD []).length) =
      (frequencies.map (fun e => e.2 * ((codeLength (generateCodes t [] [])
        (if e.1 = a then b else if e.1 = b then a else e.1) : Nat) : Int))).sum := rfl
  have hw0 : weightedLength frequencies (codeLength (generateCodes t [] [])) =
      (frequencies.map (fun e =>
        e.2 * ((codeLength (generateCodes t [] []) e.1 : Nat) : Int))).sum := rfl
  rw [hw, hw0, hsum] at hopt
  have hla : ((codeLength (generateCodes t [] []) b : Nat) : Int) <
      ((codeLength (generateCodes t [] []) a : Nat) : Int) := by exact_mod_cast hll
  nlinarith

/-! ## The compressed size within the range of the counts -/

/-- A generated code has at most as many characters as the table has entries. -/
theorem codeLength_le (H : HeapAlgorithms) (hH : H.Lawful) (frequencies : CMap Int)
    (t : HuffmanNodePtr) (ht : buildHuffmanTree H frequencies = some t) (c : CChar) :
    codeLength (generateCodes t [] []) c ≤ frequencies.length := by
  cases hf : mapFind (generateCodes t [] []) c with
  | none => simp [codeLength, hf]
  | some code =>
    have hcl : codeLength (generateCodes t [] []) c = code.length := by simp [codeLength, hf]
    rw [hcl]
    by_cases h2 : 2 ≤ frequencies.length
    · have := (generateCodes_length_bounds H hH frequencies h2 t ht c code hf).2
      omega
    · cases frequencies with
      | nil =>
        rw [buildHuffmanTree_nil] at ht
        cases ht
        simp [generateCodes, mapFind] at hf
      | cons e rest =>
        cases rest with
        | cons e2 r2 => simp at h2
        | nil =>
          rw [buildHuffmanTree_single H hH e] at ht
          cases ht
          simp only [leafOf, generateCodes, isLeaf, isNull, Bool.and_self, if_true, mapSet,
            List.isEmpty_nil, mapFind] at hf
          split_ifs at hf
          cases hf
          simp

theorem sum_map_le_mul (len : CChar → Nat) (n : Nat) (hlen : ∀ c, len c ≤ n) :
    ∀ text : List CChar, (text.map len).sum ≤ text.length * n := by
  intro text
  induction text with
  | nil => simp
  | cons ch rest ih =>
    simp only [List.map_cons, List.sum_cons, List.length_cons]
    have := hlen ch
    rw [Nat.add_mul, Nat.one_mul]
    omega

/-- The table of a buffer of at most `INT_MAX` bytes has at most as many
entries as the buffer has bytes. -/
theorem buildFrequencyTable_length_le (text : List CChar) (hb : text.length ≤ 2147483647) :
    (buildFrequencyTable text).length ≤ text.length := by
  have hsum := buildFrequencyTable_sum text hb
  have hpos := buildFrequencyTable_pos text hb
  have hle : ∀ m : CMap Int, (∀ e ∈ m, 1 ≤ e.2 ∧ e.2 ≤ 2147483647) →
      (m.length : Int) ≤ (m.map Prod.snd).sum := by
    intro m
    induction m with
    | nil => intro _; simp
    | cons e rest ih =>
      intro h
      have h1 := (h e (List.mem_cons_self _ _)).1
      have h2 := ih (fun x hx => h x (List.mem_cons_of_mem _ hx))
      simp only [List.length_cons, List.map_cons, List.sum_cons]
      push_cast
      omega
  have := hle _ hpos
  rw [hsum] at this
  exact_mod_cast this

/-- The encoding of a buffer of at most `INT_MAX` bytes has fewer than `2^62`
characters. -/
theorem encodeText_length_lt (H : HeapAlgorithms) (hH : H.Lawful) (text : List CChar)
    (hb : text.length ≤ 2147483647) (t : HuffmanNodePtr)
    (ht : buildHuffmanTree H (buildFrequencyTable text) = some t) :
    (encodeText text (generateCodes t [] [])).length ≤ 2147483647 * 2147483647 := by
  rw [encodeText_length]
  have h1 := sum_map_le_mul (codeLength (generateCodes t [] [])) (buildFrequencyTable text).length
    (codeLength_le H hH _ t ht) text
  have h2 := buildFrequencyTable_length_le text hb
  calc (text.map (codeLength (generateCodes t [] []))).sum
      ≤ text.length * (buildFrequencyTable text).length := h1
    _ ≤ 2147483647 * 2147483647 := Nat.mul_le_mul hb (le_trans h2 hb)

/-- The compressed size that `generateCompressionStatistics` stores for a
buffer of at most `INT_MAX` bytes. -/
theorem generateCompressionStatistics_size (H : HeapAlgorithms) (hH : H.Lawful)
    (text : List CChar) (hb : text.length ≤ 2147483647) (t : HuffmanNodePtr)
    (stats : CompressionStatistics)
    (ht : buildHuffmanTree H (buildFrequencyTable text) = some t)
    (hs : generateCompressionStatistics H text = some stats) :
    stats.totalCompressedSize =
      ((encodeText text (generateCodes t [] [])).length + 7) / 8 := by
  have hc := codes_cover H hH _ t ht
  have hlt := encodeText_length_lt H hH text hb t ht
  have hleq := encodeText_length_eq (generateCodes t [] []) text hb
  simp only [generateCompressionStatistics, ht, Option.bind_eq_bind, Option.some_bind,
    Option.pure_def, Option.some.injEq] at hs
  rw [← hs]
  simp only
  have hsum := compressedBitsLoop_sum (generateCodes t [] []) (buildFrequencyTable text) 0 hc
    (fun e he => by
      have := buildFrequencyTable_pos text hb e he
      omega)
    (by rw [← hleq]; push_cast; omega)
  rw [Nat.cast_zero, zero_add, ← hleq] at hsum
  have hnat : (compressedBitsLoop (buildFrequencyTable text) (generateCodes t [] [], 0)).2 =
      (encodeText text (generateCodes t [] [])).length := by exact_mod_cast hsum
  rw [hnat, Nat.mod_eq_of_lt (by omega)]

/-- The statistics of a buffer of `n ≥ 1` copies of one byte: the count is the
`int` that `n` wraps to, and the compressed size is computed from its
conversion to `size_t`. -/
theorem generateCompressionStatistics_replicate (H : HeapAlgorithms) (hH : H.Lawful)
    (x : CChar) (n : Nat) (hn : 1 ≤ n) :
    generateCompressionStatistics H (List.replicate n x) =
      some
        { frequencies := [(x, wrapInt (n : Int))]
          huffmanCodes := [(x, [chr0])]
          codeLengths := [(x, 1)]
          totalOriginalSize := n
          totalCompressedSize :=
            ((0 + (wrapInt (n : Int) % 2 ^ 64).toNat * 1) % 2 ^ 64 + 7) % 2 ^ 64 / 8 } := by
  have hc : ∀ f : Int, generateCodes (node x f nullptr nullptr) [] [] = [(x, [chr0])] := by
    intro f
    simp [generateCodes, isLeaf, isNull, mapSet]
  have hw1 : wrapInt ((([chr0] : List CChar).length : Nat) : Int) = 1 := by decide
  simp only [generateCompressionStatistics, buildFrequencyTable_replicate x n hn,
    buildHuffmanTree_single H hH, leafOf, hc, Option.bind_eq_bind, Option.some_bind,
    Option.pure_def, compressedBitsLoop, List.foldl_cons, List.foldl_nil, mapIndex, mapFind,
    if_true, List.length_replicate, mapSet, List.isEmpty_nil, hw1, List.length_cons,
    List.length_nil]
  rfl

/-! # The claims -/

/-- C1 (the code departs from it): for every byte `x`, `compressText` turns the
one-byte buffer `[x]` into the bit string `"0"` and a tree that is a single
leaf, and `decompressText` of these returns the empty string instead of the
buffer. -/
theorem compressText_single_byte (H : HeapAlgorithms) (hH : H.Lawful) (x : CChar) :
    ∃ stats, compressText H [x] = some ([chr0], node x 1 nullptr nullptr, stats) ∧
      decompressText [chr0] (node x 1 nullptr nullptr) = some [] ∧
      decompressText [chr0] (node x 1 nullptr nullptr) ≠ some [x] := by
  obtain ⟨t, stats, ht, hc, _, _⟩ := compressText_spec H hH [x]
  have hf : buildFrequencyTable [x] = [(x, 1)] := buildFrequencyTable_replicate x 1 (le_refl 1)
  rw [hf, buildHuffmanTree_single H hH] at ht
  cases ht
  refine ⟨stats, ?_, ?_, ?_⟩
  · rw [hc]
    have : encodeText [x] (generateCodes (leafOf (x, 1)) [] []) = [chr0] := by
      simp [encodeText, leafOf, generateCodes, isLeaf, isNull, mapSet, mapFind]
    rw [this]
    rfl
  · exact decodeText_single x 1 1
  · show decodeText (List.replicate 1 chr0) (node x 1 nullptr nullptr) ≠ some [x]
    rw [decodeText_single x 1 1]
    simp

/-- Witness for C1: the buffer `"a"`. -/
theorem compressText_single_byte_witness :
    sortingHeap.Lawful ∧
    ∃ stats, compressText sortingHeap [97] = some ([chr0], node 97 1 nullptr nullptr, stats) ∧
      decompressText [chr0] (node 97 1 nullptr nullptr) = some [] ∧
      decompressText [chr0] (node 97 1 nullptr nullptr) ≠ some [97] :=
  ⟨sortingHeap_lawful, compressText_single_byte sortingHeap sortingHeap_lawful 97⟩

/-- C2 (the code departs from it): for every byte `x` and every `n ≥ 1`, the
buffer of `n` copies of `x` has the one-entry table `{x: n}` (the count `n` as
the `int` that the code holds), the tree is a single leaf, the code table has
the entry `x ↦ "0"`, the encoding is `n` times
`'0'`, and decoding it does not return the buffer: it returns the empty string
for `n = 1` and dereferences a null pointer for `n ≥ 2`. -/
theorem single_symbol_not_restored (H : HeapAlgorithms) (hH : H.Lawful) (x : CChar) (n : Nat)
    (hn : 1 ≤ n) :
    buildFrequencyTable (List.replicate n x) = [(x, wrapInt (n : Int))] ∧
    buildHuffmanTree H [(x, wrapInt (n : Int))] =
      some (node x (wrapInt (n : Int)) nullptr nullptr) ∧
    generateCodes (node x (wrapInt (n : Int)) nullptr nullptr) [] [] = [(x, [chr0])] ∧
    encodeText (List.replicate n x) [(x, [chr0])] = List.replicate n chr0 ∧
    decodeText (List.replicate n chr0) (node x (wrapInt (n : Int)) nullptr nullptr) =
      (if n ≤ 1 then some [] else none) ∧
    decodeText (List.replicate n chr0) (node x (wrapInt (n : Int)) nullptr nullptr) ≠
      some (List.replicate n x) := by
  refine ⟨buildFrequencyTable_replicate x n hn, buildHuffmanTree_single H hH _, ?_,
    encodeText_replicate x n, decodeText_single x _ n, ?_⟩
  · simp [generateCodes, isLeaf, isNull, mapSet]
  · rw [decodeText_single]
    by_cases h1 : n ≤ 1
    · rw [if_pos h1]
      have : n = 1 := by omega
      subst this
      simp
    · rw [if_neg h1]
      simp

/-- Witness for C2: the buffer `"aa"`. -/
theorem single_symbol_not_restored_witness :
    decodeText (List.replicate 2 chr0) (node 97 (wrapInt (2 : Nat)) nullptr nullptr) ≠
      some (List.replicate 2 97) :=
  (single_symbol_not_restored sortingHeap sortingHeap_lawful 97 2 (by decide)).2.2.2.2.2

/-- C3: for every buffer with two distinct bytes, the archive pipeline
round-trips.  `compressText` returns a bit string; packing it with
`stringToBinaryData`, unpacking the bytes with the valid-bit count that
`decodeArchive` computes from the padding count of `encodeFiles`, and decoding
with the tree rebuilt from the frequency table returns the buffer. -/
theorem archive_roundtrip (H : HeapAlgorithms) (hH : H.Lawful) (B : List CChar) (a b : CChar)
    (ha : a ∈ B) (hb : b ∈ B) (hab : a ≠ b) :
    ∃ bits outTree outStats tree,
      compressText H B = some (bits, outTree, outStats) ∧
      outStats.frequencies = buildFrequencyTable B ∧
      buildHuffmanTree H (buildFrequencyTable B) = some tree ∧
      decodeText
        (binaryDataToString (stringToBinaryData bits)
          (validBits (stringToBinaryData bits).length (paddingBits bits.length))) tree =
        some B := by
  obtain ⟨t, stats, ht, hc, hf, _⟩ := compressText_spec H hH B
  have h2 := buildFrequencyTable_length B a b ha hb hab
  have hne : buildFrequencyTable B ≠ [] := by
    intro e; rw [e] at h2; simp at h2
  obtain ⟨t', ht', _, htree, _, hin⟩ := buildHuffmanTree_spec H hH _ hne
  rw [ht] at ht'
  cases ht'
  refine ⟨_, t, stats, t, hc, hf, ht, ?_⟩
  rw [unpack_pack_archive _ (encodeText_generateCodes_isBitString htree (hin h2) B)]
  exact decodeText_encodeText H hH B t ht h2

/-- Witness for C3: the buffer `"ab"`. -/
theorem archive_roundtrip_witness :
    (97 : CChar) ∈ [(97 : CChar), 98] ∧ (98 : CChar) ∈ [(97 : CChar), 98] ∧
    ∃ bits outTree outStats tree,
      compressText sortingHeap [97, 98] = some (bits, outTree, outStats) ∧
      outStats.frequencies = buildFrequencyTable [97, 98] ∧
      buildHuffmanTree sortingHeap (buildFrequencyTable [97, 98]) = some tree ∧
      decodeText
        (binaryDataToString (stringToBinaryData bits)
          (validBits (stringToBinaryData bits).length (paddingBits bits.length))) tree =
        some [97, 98] :=
  ⟨by decide, by decide,
    archive_roundtrip sortingHeap sortingHeap_lawful [97, 98] 97 98 (by decide) (by decide)
      (by decide)⟩

/-- C4: for every string `s` of the characters `'0'` and `'1'`, of any length,
unpacking the packed string with the length of `s` as valid-bit count returns
`s`: exactly the original bits and none of the padding. -/
theorem pack_unpack_roundtrip (s : List CChar) (hs : IsBitString s) :
    binaryDataToString (stringToBinaryData s) s.length = s :=
  binaryDataToString_stringToBinaryData s hs

/-- Witness for C4: the nine bits `"000101011"`. -/
theorem pack_unpack_roundtrip_witness :
    IsBitString [48, 48, 48, 49, 48, 49, 48, 49, 49] ∧
    binaryDataToString (stringToBinaryData [48, 48, 48, 49, 48, 49, 48, 49, 49])
      [48, 48, 48, 49, 48, 49, 48, 49, 49].length = [48, 48, 48, 49, 48, 49, 48, 49, 49] :=
  ⟨by unfold IsBitString; decide,
    pack_unpack_roundtrip [48, 48, 48, 49, 48, 49, 48, 49, 49] (by unfold IsBitString; decide)⟩

/-- C5: for every frequency table, `buildHuffmanTree` returns and the code
table generated from its tree is a prefix code: the code of a symbol is never a
prefix of the code of another symbol. -/
theorem generated_codes_prefixFree (H : HeapAlgorithms) (hH : H.Lawful)
    (frequencies : CMap Int) :
    ∃ tree, buildHuffmanTree H frequencies = some tree ∧
      ∀ a b ca cb, a ≠ b → mapFind (generateCodes tree [] []) a = some ca →
        mapFind (generateCodes tree [] []) b = some cb → ¬ ca <+: cb := by
  obtain ⟨t, ht⟩ := buildHuffmanTree_isSome H hH frequencies
  exact ⟨t, ht, prefixFree_generateCodes H hH frequencies t ht⟩

/-- Witness for C5: the table of `"aaabbc"`. -/
theorem generated_codes_prefixFree_witness :
    ∃ tree, buildHuffmanTree sortingHeap [(97, 3), (98, 2), (99, 1)] = some tree ∧
      ∀ a b ca cb, a ≠ b → mapFind (generateCodes tree [] []) a = some ca →
        mapFind (generateCodes tree [] []) b = some cb → ¬ ca <+: cb :=
  generated_codes_prefixFree sortingHeap sortingHeap_lawful [(97, 3), (98, 2), (99, 1)]

/-- C6: tree reconstruction is deterministic.  Two calls of `buildHuffmanTree`
on one table give trees with the same code table; for every text, the tree that
`compressText` returns in `outTree` generates exactly `outStats.huffmanCodes`,
and the tree that `decodeArchive` builds from the frequency table it reads back
is that same tree. -/
theorem tree_reconstruction_deterministic (H : HeapAlgorithms) (hH : H.Lawful)
    (text : List CChar) :
    (∀ (frequencies : CMap Int) (t1 t2 : HuffmanNodePtr),
      buildHuffmanTree H frequencies = some t1 → buildHuffmanTree H frequencies = some t2 →
      generateCodes t1 [] [] = generateCodes t2 [] []) ∧
    ∃ bits outTree outStats,
      compressText H text = some (bits, outTree, outStats) ∧
      generateCodes outTree [] [] = outStats.huffmanCodes ∧
      buildHuffmanTree H (readFrequencyTable outStats.frequencies) = some outTree := by
  refine ⟨?_, ?_⟩
  · intro frequencies t1 t2 h1 h2
    rw [h1] at h2
    cases h2
    rfl
  · obtain ⟨t, stats, ht, hc, hf, hcodes⟩ := compressText_spec H hH text
    refine ⟨_, t, stats, hc, hcodes.symm, ?_⟩
    rw [hf, readFrequencyTable_eq _ (buildFrequencyTable_isMap text)]
    exact ht

/-- Witness for C6: the text `"aaabbc"`. -/
theorem tree_reconstruction_deterministic_witness :
    ∃ bits outTree outStats,
      compressText sortingHeap [97, 97, 97, 98, 98, 99] = some (bits, outTree, outStats) ∧
      generateCodes outTree [] [] = outStats.huffmanCodes ∧
      buildHuffmanTree sortingHeap (readFrequencyTable outStats.frequencies) = some outTree :=
  (tree_reconstruction_deterministic sortingHeap sortingHeap_lawful
    [97, 97, 97, 98, 98, 99]).2
/-- Counterexample to C7 as stated: the table
`{a: 1500000000, b: 1500000001, c: 1500000002, d: 1500000003}` has four symbols
and positive counts, but the `int` sum of the first merge wraps to
`-1294967295`, the tree degenerates to a chain with the codes `000`, `001`,
`01`, `1`, and their weighted length `13500000010` exceeds the `12000000012`
of the prefix-free code `{a: "00", b: "01", c: "10", d: "11"}`. -/
theorem huffman_code_not_optimal_wrapped :
    IsMap [((97 : CChar), (1500000000 : Int)), (98, 1500000001), (99, 1500000002),
      (100, 1500000003)] ∧
    (∀ e ∈ ([(97, 1500000000), (98, 1500000001), (99, 1500000002),
      (100, 1500000003)] : CMap Int), 0 < e.2) ∧
    (∀ e ∈ ([(97, 1500000000), (98, 1500000001), (99, 1500000002),
      (100, 1500000003)] : CMap Int),
      IsBitString (if e.1 = 97 then [chr0, chr0] else if e.1 = 98 then [chr0, chr1]
        else if e.1 = 99 then [chr1, chr0] else [chr1, chr1])) ∧
    (∀ e1 ∈ ([(97, 1500000000), (98, 1500000001), (99, 1500000002),
      (100, 1500000003)] : CMap Int),
      ∀ e2 ∈ ([(97, 1500000000), (98, 1500000001), (99, 1500000002),
        (100, 1500000003)] : CMap Int), e1.1 ≠ e2.1 →
      ¬ (if e1.1 = 97 then [chr0, chr0] else if e1.1 = 98 then [chr0, chr1]
          else if e1.1 = 99 then [chr1, chr0] else [chr1, chr1] : List CChar) <+:
        (if e2.1 = 97 then [chr0, chr0] else if e2.1 = 98 then [chr0, chr1]
          else if e2.1 = 99 then [chr1, chr0] else [chr1, chr1])) ∧
    buildHuffmanTree sortingHeap
        [(97, 1500000000), (98, 1500000001), (99, 1500000002), (100, 1500000003)] =
      some (node 0 1705032710
        (node 0 205032707
          (node 0 (-1294967295) (node 97 1500000000 nullptr nullptr)
            (node 98 1500000001 nullptr nullptr))
          (node 99 1500000002 nullptr nullptr))
        (node 100 1500000003 nullptr nullptr)) ∧
    ¬ ∃ tree, buildHuffmanTree sortingHeap
        [(97, 1500000000), (98, 1500000001), (99, 1500000002), (100, 1500000003)] =
          some tree ∧
      (([(97, 1500000000), (98, 1500000001), (99, 1500000002),
        (100, 1500000003)] : CMap Int).map
        (fun e => e.2 * (((mapFind (generateCodes tree [] []) e.1).getD []).length : Int))).sum ≤
      (([(97, 1500000000), (98, 1500000001), (99, 1500000002),
        (100, 1500000003)] : CMap Int).map
        (fun e => e.2 * (((if e.1 = 97 then [chr0, chr0] else if e.1 = 98 then [chr0, chr1]
          else if e.1 = 99 then [chr1, chr0] else [chr1, chr1] : List CChar).length :
            Nat) : Int))).sum := by
  have ht : buildHuffmanTree sortingHeap
      [(97, 1500000000), (98, 1500000001), (99, 1500000002), (100, 1500000003)] =
      some (node 0 1705032710
        (node 0 205032707
          (node 0 (-1294967295) (node 97 1500000000 nullptr nullptr)
            (node 98 1500000001 nullptr nullptr))
          (node 99 1500000002 nullptr nullptr))
        (node 100 1500000003 nullptr nullptr)) := by decide
  refine ⟨by decide, by decide, by decide, by decide, ht, ?_⟩
  rintro ⟨tree, h, hle⟩
  rw [ht] at h
  cases h
  revert hle
  decide

/-- C7, amended: for every frequency table with two symbols or more and
positive counts that sum to at most `2147483647`, the greatest `int`,
`buildHuffmanTree` returns and the generated code is optimal: its total
weighted length, the sum over the symbols of count times code length, is at most
that of every prefix-free binary code over the same symbols (whether its code
tree is full or not); every symbol of the table has a generated code. -/
theorem huffman_code_optimal (H : HeapAlgorithms) (hH : H.Lawful) (frequencies : CMap Int)
    (hmap : IsMap frequencies) (h2 : 2 ≤ frequencies.length)
    (hpos : ∀ e ∈ frequencies, 0 < e.2)
    (hbound : (frequencies.map Prod.snd).sum ≤ 2147483647) (code : CChar → List CChar)
    (hbits : ∀ e ∈ frequencies, IsBitString (code e.1))
    (hpf : ∀ e1 ∈ frequencies, ∀ e2 ∈ frequencies, e1.1 ≠ e2.1 → ¬ code e1.1 <+: code e2.1) :
    ∃ tree, buildHuffmanTree H frequencies = some tree ∧
      (∀ e ∈ frequencies, (mapFind (generateCodes tree [] []) e.1).isSome = true) ∧
      (frequencies.map
        (fun e => e.2 * (((mapFind (generateCodes tree [] []) e.1).getD []).length : Int))).sum ≤
      (frequencies.map (fun e => e.2 * ((code e.1).length : Int))).sum := by
  obtain ⟨t, ht⟩ := buildHuffmanTree_isSome H hH frequencies
  exact ⟨t, ht, codes_cover H hH frequencies t ht,
    generateCodes_optimal H hH frequencies hmap h2 hpos hbound code hbits hpf t ht⟩

/-- Witness for C7: the table of `"aaabbc"` against the code
`{a: "0", b: "10", c: "11"}`. -/
theorem huffman_code_optimal_witness :
    IsMap [((97 : CChar), (3 : Int)), (98, 2), (99, 1)] ∧
    (([(97, 3), (98, 2), (99, 1)] : CMap Int).map Prod.snd).sum ≤ 2147483647 ∧
    ∃ tree, buildHuffmanTree sortingHeap [(97, 3), (98, 2), (99, 1)] = some tree ∧
      (∀ e ∈ ([(97, 3), (98, 2), (99, 1)] : CMap Int),
        (mapFind (generateCodes tree [] []) e.1).isSome = true) ∧
      (([(97, 3), (98, 2), (99, 1)] : CMap Int).map
        (fun e => e.2 * (((mapFind (generateCodes tree [] []) e.1).getD []).length : Int))).sum ≤
      (([(97, 3), (98, 2), (99, 1)] : CMap Int).map
        (fun e => e.2 * (((if e.1 = 97 then [chr0] else if e.1 = 98 then [chr1, chr0]
          else [chr1, chr1] : List CChar).length : Nat) : Int))).sum :=
  ⟨by decide, by decide,
    huffman_code_optimal sortingHeap sortingHeap_lawful [(97, 3), (98, 2), (99, 1)] (by decide)
      (by decide) (by decide) (by decide)
      (fun c => if c = 97 then [chr0] else if c = 98 then [chr1, chr0] else [chr1, chr1])
      (by decide) (by decide)⟩

/-- C8: for the input `"aaabbc"` the frequency table is `{a: 3, b: 2, c: 1}`;
the generated codes have the lengths 1, 2 and 2 for `a`, `b` and `c`; the
encoded bit string has 9 bits; `stringToBinaryData` packs it into 2 bytes; the
padding count of `encodeFiles` is 7; and decoding the unpacked bits returns
`"aaabbc"`. -/
theorem example_aaabbc (H : HeapAlgorithms) (hH : H.Lawful) :
    buildFrequencyTable (ofString "aaabbc") = [(97, 3), (98, 2), (99, 1)] ∧
    ∃ tree codes bits,
      buildHuffmanTree H (buildFrequencyTable (ofString "aaabbc")) = some tree ∧
      codes = generateCodes tree [] [] ∧
      (mapFind codes 97).map List.length = some 1 ∧
      (mapFind codes 98).map List.length = some 2 ∧
      (mapFind codes 99).map List.length = some 2 ∧
      bits = encodeText (ofString "aaabbc") codes ∧
      bits.length = 9 ∧
      (stringToBinaryData bits).length = 2 ∧
      paddingBits bits.length = 7 ∧
      decodeText
        (binaryDataToString (stringToBinaryData bits)
          (validBits (stringToBinaryData bits).length (paddingBits bits.length))) tree =
        some (ofString "aaabbc") := by
  have hf : buildFrequencyTable (ofString "aaabbc") = [(97, 3), (98, 2), (99, 1)] := by decide
  refine ⟨hf, ?_⟩
  rw [hf]
  rcases buildHuffmanTree_aaabbc H hH with h | h
  · exact ⟨_, _, _, h, rfl, by decide, by decide, by decide, rfl, by decide, by decide,
      by decide, by decide⟩
  · exact ⟨_, _, _, h, rfl, by decide, by decide, by decide, rfl, by decide, by decide,
      by decide, by decide⟩

/-- Witness for C8: the reference heap algorithms. -/
theorem example_aaabbc_witness :
    sortingHeap.Lawful ∧
    ∃ tree codes bits,
      buildHuffmanTree sortingHeap (buildFrequencyTable (ofString "aaabbc")) = some tree ∧
      codes = generateCodes tree [] [] ∧
      (mapFind codes 97).map List.length = some 1 ∧
      (mapFind codes 98).map List.length = some 2 ∧
      (mapFind codes 99).map List.length = some 2 ∧
      bits = encodeText (ofString "aaabbc") codes ∧
      bits.length = 9 ∧
      (stringToBinaryData bits).length = 2 ∧
      paddingBits bits.length = 7 ∧
      decodeText
        (binaryDataToString (stringToBinaryData bits)
          (validBits (stringToBinaryData bits).length (paddingBits bits.length))) tree =
        some (ofString "aaabbc") :=
  ⟨sortingHeap_lawful, (example_aaabbc sortingHeap sortingHeap_lawful).2⟩

/-- C9 as stated fails: for the input `"aaabbc"` the generated code table is not
`{a: "0", b: "10", c: "11"}` and the encoding is not `"000101011"`. -/
theorem example_codes_not_as_stated :
    (buildHuffmanTree sortingHeap (buildFrequencyTable (ofString "aaabbc"))).map
        (fun tree => generateCodes tree [] []) ≠
      some [(97, ofString "0"), (98, ofString "10"), (99, ofString "11")] ∧
    (buildHuffmanTree sortingHeap (buildFrequencyTable (ofString "aaabbc"))).map
        (fun tree => encodeText (ofString "aaabbc") (generateCodes tree [] [])) ≠
      some (ofString "000101011") := by
  decide

/-- C9, amended: for the input `"aaabbc"` the leaf `c` is extracted first and
becomes the left child, the leaf `b` the right child.  The code table is
`{a: "0", b: "11", c: "10"}` with the encoding `"000111110"` when the queue
yields the leaf `a` before the merged node of the same frequency, and
`{a: "1", b: "01", c: "00"}` with the encoding `"111010100"` otherwise. -/
theorem example_codes (H : HeapAlgorithms) (hH : H.Lawful) :
    ∃ tree, buildHuffmanTree H (buildFrequencyTable (ofString "aaabbc")) = some tree ∧
      ((generateCodes tree [] [] =
          [(97, ofString "0"), (98, ofString "11"), (99, ofString "10")] ∧
        encodeText (ofString "aaabbc") (generateCodes tree [] []) = ofString "000111110") ∨
       (generateCodes tree [] [] =
          [(97, ofString "1"), (98, ofString "01"), (99, ofString "00")] ∧
        encodeText (ofString "aaabbc") (generateCodes tree [] []) = ofString "111010100")) := by
  have hf : buildFrequencyTable (ofString "aaabbc") = [(97, 3), (98, 2), (99, 1)] := by decide
  rw [hf]
  rcases buildHuffmanTree_aaabbc H hH with h | h
  · exact ⟨_, h, Or.inl ⟨by decide, by decide⟩⟩
  · exact ⟨_, h, Or.inr ⟨by decide, by decide⟩⟩

/-- Witness for the amended C9: the reference heap algorithms. -/
theorem example_codes_witness :
    sortingHeap.Lawful ∧
    ∃ tree, buildHuffmanTree sortingHeap (buildFrequencyTable (ofString "aaabbc")) = some tree ∧
      ((generateCodes tree [] [] =
          [(97, ofString "0"), (98, ofString "11"), (99, ofString "10")] ∧
        encodeText (ofString "aaabbc") (generateCodes tree [] []) = ofString "000111110") ∨
       (generateCodes tree [] [] =
          [(97, ofString "1"), (98, ofString "01"), (99, ofString "00")] ∧
        encodeText (ofString "aaabbc") (generateCodes tree [] []) = ofString "111010100")) :=
  ⟨sortingHeap_lawful, example_codes sortingHeap sortingHeap_lawful⟩

/-- Counterexample to C10 as stated: in the buffer of `2147483648` copies of
the byte `'a'` the count of `'a'` is incremented past the greatest `int` and
wraps, so the table is `{a: -2147483648}`: the stored count is not the number
of occurrences, it is not at least 1, and the counts do not sum to the length
of the buffer. -/
theorem buildFrequencyTable_count_wraps :
    buildFrequencyTable (List.replicate 2147483648 (97 : CChar)) = [(97, -2147483648)] ∧
    (List.replicate 2147483648 (97 : CChar)).count 97 = 2147483648 ∧
    (List.replicate 2147483648 (97 : CChar)).length = 2147483648 ∧
    mapFind (buildFrequencyTable (List.replicate 2147483648 (97 : CChar))) 97 ≠
      some (((List.replicate 2147483648 (97 : CChar)).count 97 : Nat) : Int) ∧
    ¬ (∀ e ∈ buildFrequencyTable (List.replicate 2147483648 (97 : CChar)), 1 ≤ e.2) ∧
    ((buildFrequencyTable (List.replicate 2147483648 (97 : CChar))).map Prod.snd).sum ≠
      (((List.replicate 2147483648 (97 : CChar)).length : Nat) : Int) := by
  have ht : buildFrequencyTable (List.replicate 2147483648 (97 : CChar)) =
      [(97, -2147483648)] := by
    rw [buildFrequencyTable_replicate 97 2147483648 (by decide)]
    decide
  rw [ht, List.count_replicate_self, List.length_replicate]
  refine ⟨rfl, rfl, rfl, by decide, by decide, by decide⟩

/-- C10, amended: for every byte buffer of at most `2147483647` bytes, the
greatest `int`, `buildFrequencyTable` returns a table with keys in ascending
order in which the count of a present key is the number of occurrences of that
byte, a key is present exactly when the byte occurs (so every stored count is
at least 1), and the counts sum to the length of the buffer. -/
theorem buildFrequencyTable_counts (B : List CChar) (hb : B.length ≤ 2147483647) :
    IsMap (buildFrequencyTable B) ∧
    (∀ c, mapFind (buildFrequencyTable B) c =
      if B.count c = 0 then none else some (B.count c : Int)) ∧
    (∀ c, c ∈ (buildFrequencyTable B).map Prod.fst ↔ c ∈ B) ∧
    (∀ e ∈ buildFrequencyTable B, e.2 = (B.count e.1 : Int) ∧ 1 ≤ e.2) ∧
    ((buildFrequencyTable B).map Prod.snd).sum = (B.length : Int) := by
  have hcount : ∀ c, B.count c ≤ 2147483647 := fun c =>
    le_trans (List.count_le_length _ _) hb
  refine ⟨buildFrequencyTable_isMap B,
    fun c => buildFrequencyTable_find_exact B c (hcount c), buildFrequencyTable_keys B, ?_,
    buildFrequencyTable_sum B hb⟩
  intro e he
  have hfind := mapFind_of_mem _ (buildFrequencyTable_isMap B) e.1 e.2 he
  rw [buildFrequencyTable_find_exact B e.1 (hcount e.1)] at hfind
  by_cases h0 : B.count e.1 = 0
  · rw [if_pos h0] at hfind; cases hfind
  · rw [if_neg h0] at hfind
    have : (B.count e.1 : Int) = e.2 := by simpa using hfind
    refine ⟨this.symm, ?_⟩
    rw [← this]
    omega

/-- Witness for C10: the buffer `"aaabbc"`. -/
theorem buildFrequencyTable_counts_witness :
    (ofString "aaabbc").length ≤ 2147483647 ∧
    IsMap (buildFrequencyTable (ofString "aaabbc")) ∧
    (∀ c, mapFind (buildFrequencyTable (ofString "aaabbc")) c =
      if (ofString "aaabbc").count c = 0 then none
      else some ((ofString "aaabbc").count c : Int)) ∧
    (∀ c, c ∈ (buildFrequencyTable (ofString "aaabbc")).map Prod.fst ↔
      c ∈ ofString "aaabbc") ∧
    (∀ e ∈ buildFrequencyTable (ofString "aaabbc"),
      e.2 = ((ofString "aaabbc").count e.1 : Int) ∧ 1 ≤ e.2) ∧
    ((buildFrequencyTable (ofString "aaabbc")).map Prod.snd).sum =
      ((ofString "aaabbc").length : Int) :=
  ⟨by decide, buildFrequencyTable_counts (ofString "aaabbc") (by decide)⟩

/-- C11: the empty input propagates as empty or absent through the core.  The
frequency table of the empty buffer is empty, `buildHuffmanTree` of the empty
table returns the null pointer, and `generateCodes` on the null pointer leaves
the code table as it is, empty when it starts empty. -/
theorem empty_input_propagates :
    buildFrequencyTable [] = [] ∧
    (∀ H : HeapAlgorithms, buildHuffmanTree H [] = some nullptr) ∧
    (∀ (code : List CChar) (codes : CMap (List CChar)), generateCodes nullptr code codes = codes) ∧
    generateCodes nullptr [] [] = [] :=
  ⟨rfl, fun _ => rfl, fun _ _ => rfl, rfl⟩

/-- C13: for every frequency table with exactly one entry `(x, n)`,
`buildHuffmanTree` returns a root that is a leaf carrying `x` and `n` (both
children null, no internal node), and `generateCodes` assigns `x` the one-bit
code `"0"`, not the empty string. -/
theorem single_entry_tree (H : HeapAlgorithms) (hH : H.Lawful) (x : CChar) (n : Int) :
    buildHuffmanTree H [(x, n)] = some (node x n nullptr nullptr) ∧
    (node x n nullptr nullptr).isLeaf = true ∧
    generateCodes (node x n nullptr nullptr) [] [] = [(x, [chr0])] ∧
    mapFind (generateCodes (node x n nullptr nullptr) [] []) x = some [chr0] := by
  refine ⟨buildHuffmanTree_single H hH (x, n), rfl, ?_, ?_⟩
  · simp [generateCodes, isLeaf, isNull, mapSet]
  · simp [generateCodes, isLeaf, isNull, mapSet, mapFind]

/-- Witness for C13: the table `{a: 5}`. -/
theorem single_entry_tree_witness :
    sortingHeap.Lawful ∧
    buildHuffmanTree sortingHeap [(97, 5)] = some (node 97 5 nullptr nullptr) ∧
    (node 97 5 nullptr nullptr).isLeaf = true ∧
    generateCodes (node 97 5 nullptr nullptr) [] [] = [(97, [chr0])] ∧
    mapFind (generateCodes (node 97 5 nullptr nullptr) [] []) 97 = some [chr0] :=
  ⟨sortingHeap_lawful, single_entry_tree sortingHeap sortingHeap_lawful 97 5⟩

/-- C14 as stated fails: in the tree with the leaf `a` on the left and, on the
right, an inner node with the leaves `a` and `b`, the left leaf carries `a` at
depth 1 on the path `"0"`, but `generateCodes` assigns `a` the code `"10"` of
length 2, the path of the last leaf that carries `a`. -/
theorem generateCodes_duplicate_symbol :
    (node 0 3 (node 97 1 nullptr nullptr)
      (node 0 2 (node 97 1 nullptr nullptr) (node 98 1 nullptr nullptr))).isLeaf = false ∧
    LeafAt (node 0 3 (node 97 1 nullptr nullptr)
      (node 0 2 (node 97 1 nullptr nullptr) (node 98 1 nullptr nullptr))) [chr0] 97 ∧
    mapFind (generateCodes (node 0 3 (node 97 1 nullptr nullptr)
      (node 0 2 (node 97 1 nullptr nullptr) (node 98 1 nullptr nullptr))) [] []) 97 =
        some [chr1, chr0] ∧
    mapFind (generateCodes (node 0 3 (node 97 1 nullptr nullptr)
      (node 0 2 (node 97 1 nullptr nullptr) (node 98 1 nullptr nullptr))) [] []) 97 ≠
        some [chr0] :=
  ⟨rfl, LeafAt.left _ _ _ _ _ _ (LeafAt.here 97 1), by decide, by decide⟩

/-- C14, amended: for every tree with at least one internal node whose leaves
carry pairwise distinct symbols, `generateCodes(root, "")` assigns to the symbol
of each leaf exactly the path from the root to the leaf, written with `'0'` for
a step to the left child and `'1'` for a step to the right child, and nothing
else; so the length of the code of a symbol is the depth of its leaf.  (A root
that is not a leaf is an internal node; the null pointer has no leaf at all.) -/
theorem generateCodes_paths (t : HuffmanNodePtr) (hroot : t.isLeaf = false)
    (hnd : (leafChars t).Nodup) :
    (∀ c p, LeafAt t p c ↔ mapFind (generateCodes t [] []) c = some p) ∧
    (∀ c p, LeafAt t p c →
      ((mapFind (generateCodes t [] []) c).getD []).length = p.length) := by
  have h1 : ∀ c p, LeafAt t p c ↔ mapFind (generateCodes t [] []) c = some p := by
    intro c p
    rw [generateCodes_find_inner t hroot]
    exact ⟨fun h => codePath_of_leafAt h hnd, fun h => leafAt_of_codePath t c p h⟩
  refine ⟨h1, ?_⟩
  intro c p h
  rw [(h1 c p).mp h]
  rfl

/-- Witness for the amended C14: the tree with the leaf `a` on the left and the
leaves `c` and `b` below the right child. -/
theorem generateCodes_paths_witness :
    (leafChars (node 0 6 (node 97 3 nullptr nullptr)
      (node 0 3 (node 99 1 nullptr nullptr) (node 98 2 nullptr nullptr)))).Nodup ∧
    ((∀ c p, LeafAt (node 0 6 (node 97 3 nullptr nullptr)
        (node 0 3 (node 99 1 nullptr nullptr) (node 98 2 nullptr nullptr))) p c ↔
      mapFind (generateCodes (node 0 6 (node 97 3 nullptr nullptr)
        (node 0 3 (node 99 1 nullptr nullptr) (node 98 2 nullptr nullptr))) [] []) c = some p) ∧
    (∀ c p, LeafAt (node 0 6 (node 97 3 nullptr nullptr)
        (node 0 3 (node 99 1 nullptr nullptr) (node 98 2 nullptr nullptr))) p c →
      ((mapFind (generateCodes (node 0 6 (node 97 3 nullptr nullptr)
        (node 0 3 (node 99 1 nullptr nullptr) (node 98 2 nullptr nullptr))) [] []) c).getD
          []).length = p.length)) :=
  ⟨by decide,
    generateCodes_paths
      (node 0 6 (node 97 3 nullptr nullptr)
        (node 0 3 (node 99 1 nullptr nullptr) (node 98 2 nullptr nullptr)))
      rfl (by decide)⟩

/-- C15: for every frequency table, the symbols that have a code in
`generateCodes(buildHuffmanTree(freq), "")` are exactly the keys of the table:
the leaves of the tree are the entries of the table, each key with its count at
exactly one leaf.  Hence in `compressText` every character of the text has a
code. -/
theorem codes_are_keys (H : HeapAlgorithms) (hH : H.Lawful) (frequencies : CMap Int)
    (hmap : IsMap frequencies) :
    (∃ tree, buildHuffmanTree H frequencies = some tree ∧
      (∀ c, (mapFind (generateCodes tree [] []) c).isSome = true ↔
        c ∈ frequencies.map Prod.fst) ∧
      (leafEntries tree).Perm frequencies ∧ (leafChars tree).Nodup) ∧
    (∀ text : List CChar, ∃ bits outTree outStats,
      compressText H text = some (bits, outTree, outStats) ∧
      ∀ ch ∈ text, (mapFind outStats.huffmanCodes ch).isSome = true) := by
  constructor
  · by_cases hne : frequencies = []
    · subst hne
      refine ⟨nullptr, rfl, ?_, ?_, ?_⟩
      · intro c; simp [generateCodes, mapFind]
      · simp [leafEntries]
      · simp [leafChars, leafEntries]
    · obtain ⟨t, ht, _, _, hperm, _⟩ := buildHuffmanTree_spec H hH frequencies hne
      have hk : (leafChars t).Perm (frequencies.map Prod.fst) := hperm.map Prod.fst
      refine ⟨t, ht, ?_, hperm, hk.nodup_iff.mpr (isMap_nodup frequencies hmap)⟩
      intro c
      rw [generateCodes_isSome_iff]
      exact ⟨fun h => hk.subset h, fun h => hk.symm.subset h⟩
  · intro text
    obtain ⟨t, stats, ht, hc, _, hcodes⟩ := compressText_spec H hH text
    refine ⟨_, t, stats, hc, ?_⟩
    intro ch hch
    rw [hcodes]
    have hkey : ch ∈ (buildFrequencyTable text).map Prod.fst :=
      (buildFrequencyTable_keys text ch).mpr hch
    obtain ⟨e, he, rfl⟩ := List.mem_map.mp hkey
    exact codes_cover H hH _ t ht e he

/-- Witness for C15: the table of `"aaabbc"`. -/
theorem codes_are_keys_witness :
    IsMap [((97 : CChar), (3 : Int)), (98, 2), (99, 1)] ∧
    ∃ tree, buildHuffmanTree sortingHeap [(97, 3), (98, 2), (99, 1)] = some tree ∧
      (∀ c, (mapFind (generateCodes tree [] []) c).isSome = true ↔
        c ∈ ([(97, 3), (98, 2), (99, 1)] : CMap Int).map Prod.fst) ∧
      (leafEntries tree).Perm [(97, 3), (98, 2), (99, 1)] ∧ (leafChars tree).Nodup :=
  ⟨by decide,
    (codes_are_keys sortingHeap sortingHeap_lawful [(97, 3), (98, 2), (99, 1)] (by decide)).1⟩

/-- C16: every code in every generated code table is a non-empty string of the
characters `'0'` and `'1'`: in the table that `generateCodes` fills for any
tree, and in the table `huffmanCodes` of the statistics that `compressText`
returns for any text. -/
theorem codes_nonempty_bits (H : HeapAlgorithms) (hH : H.Lawful) :
    (∀ (t : HuffmanNodePtr), ∀ e ∈ generateCodes t [] [], e.2 ≠ [] ∧ IsBitString e.2) ∧
    (∀ text : List CChar, ∃ bits outTree outStats,
      compressText H text = some (bits, outTree, outStats) ∧
      ∀ e ∈ outStats.huffmanCodes, e.2 ≠ [] ∧ IsBitString e.2) := by
  have h1 : ∀ (t : HuffmanNodePtr), ∀ e ∈ generateCodes t [] [],
      e.2 ≠ [] ∧ IsBitString e.2 := by
    intro t e he
    rcases generateCodes_entries t [] [] (by intro x hx; cases hx) e he with h | h
    · cases h
    · exact h
  refine ⟨h1, ?_⟩
  intro text
  obtain ⟨t, stats, _, hc, _, hcodes⟩ := compressText_spec H hH text
  refine ⟨_, t, stats, hc, ?_⟩
  rw [hcodes]
  exact h1 t

/-- Witness for C16: the text `"aaabbc"`. -/
theorem codes_nonempty_bits_witness :
    sortingHeap.Lawful ∧
    ∃ bits outTree outStats,
      compressText sortingHeap [97, 97, 97, 98, 98, 99] = some (bits, outTree, outStats) ∧
      ∀ e ∈ outStats.huffmanCodes, e.2 ≠ [] ∧ IsBitString e.2 :=
  ⟨sortingHeap_lawful,
    (codes_nonempty_bits sortingHeap sortingHeap_lawful).2 [97, 97, 97, 98, 98, 99]⟩

/-- C12: compressing an empty buffer is reported as a failure.  When all input
files open and their concatenated content is empty, `encodeFiles` returns
`false` with the message "No content to compress", without a call of
`compressText` and without an archive; and in every run the text passed to
`compressText` is non-empty. -/
theorem empty_content_not_compressed (H : HeapAlgorithms) (fs : FileSystem)
    (options : CommandLineOptions) :
    ((∀ f ∈ options.inputFiles, ∃ fileContent, fs.readFile f = some fileContent) →
      (options.inputFiles.filterMap fs.readFile).flatten = [] →
      encodeFiles H fs options =
        some { returned := false, message := some EncodeMessage.noContentToCompress,
               compressedText := none, archive := none }) ∧
    (∀ outcome text, encodeFiles H fs options = some outcome →
      outcome.compressedText = some text → text ≠ []) := by
  refine ⟨?_, fun outcome text h ht => encodeFiles_compressedText H fs options outcome text h ht⟩
  intro hopen hempty
  obtain ⟨fileInfo, hi⟩ := readInputFiles_ok fs options.inputFiles ([], []) hopen
  rw [hempty] at hi
  unfold encodeFiles
  rw [hi]
  rfl

/-- Witness for C12: one input file that opens and is empty. -/
theorem empty_content_not_compressed_witness :
    encodeFiles sortingHeap
      { readFile := fun _ => some [], canCreate := fun _ => true }
      { mode := OperationMode.Encode, recursive := false, verbose := false,
        outputFile := [111], inputFiles := [[105]] } =
      some { returned := false, message := some EncodeMessage.noContentToCompress,
             compressedText := none, archive := none } :=
  (empty_content_not_compressed sortingHeap
    { readFile := fun _ => some [], canCreate := fun _ => true }
    { mode := OperationMode.Encode, recursive := false, verbose := false,
      outputFile := [111], inputFiles := [[105]] }).1
    (fun _ _ => ⟨[], rfl⟩) rfl

/-- C17: for every string `s` of length `L`, `stringToBinaryData(s)` has
`ceil(L/8)` bytes; byte `k` has the value of the sum over `j` in `0..7` with
`8k + j < L` of `bit(s[8k+j]) * 2^(7-j)`, most significant bit first (the bit of
a character is 1 for `'1'` and 0 otherwise); and when `L` is not a multiple of 8
the low-order `8 - (L mod 8)` bits of the last byte are zero. -/
theorem stringToBinaryData_bytes (s : List CChar) :
    (stringToBinaryData s).length = (s.length + 7) / 8 ∧
    (∀ k, k < (s.length + 7) / 8 →
      (stringToBinaryData s).getD k 0 =
        ((List.range 8).map (fun j =>
          if 8 * k + j < s.length ∧ s.getD (8 * k + j) chr0 = chr1 then 2 ^ (7 - j)
          else 0)).sum) ∧
    (s.length % 8 ≠ 0 →
      (stringToBinaryData s).getD ((s.length + 7) / 8 - 1) 0 % 2 ^ (8 - s.length % 8) = 0) := by
  refine ⟨stringToBinaryData_length s, fun k hk => stringToBinaryData_getD s k hk, ?_⟩
  intro hL
  rw [stringToBinaryData_getD s _ (by omega)]
  apply Nat.mod_eq_zero_of_dvd
  have h := packedByteValue_padding s ((s.length + 7) / 8 - 1) (by omega)
  have e : 8 * ((s.length + 7) / 8 - 1) + 8 - s.length = 8 - s.length % 8 := by omega
  rw [e] at h
  exact h

/-- C18: for every encoded bit string, the padding count that `encodeFiles`
writes, `(8 - (totalBits mod 8)) mod 8`, lies in `0..7`, does not exceed the
bit count of the packed data, and `totalBits` is `8 * |stringToBinaryData(bits)|`
minus the padding count, which is the valid-bit count that `decodeArchive`
computes from the byte count and the stored padding. -/
theorem paddingBits_validBits (bits : List CChar) :
    paddingBits bits.length ≤ 7 ∧
    paddingBits bits.length ≤ 8 * (stringToBinaryData bits).length ∧
    bits.length = 8 * (stringToBinaryData bits).length - paddingBits bits.length ∧
    validBits (stringToBinaryData bits).length (paddingBits bits.length) = bits.length := by
  rw [stringToBinaryData_length]
  refine ⟨?_, ?_, ?_, validBits_paddingBits bits.length⟩
  · unfold paddingBits; omega
  · unfold paddingBits; omega
  · unfold paddingBits; omega

/-- C19: for every byte sequence `d` and every `n`, `binaryDataToString(d, n)`
is a string of `'0'` and `'1'` of length `min(n, 8 * |d|)` whose character `i`
is the bit of weight `2^(7 - (i mod 8))` of byte `d[i div 8]`: the expansion is
most significant bit first and stops at the valid-bit boundary. -/
theorem binaryDataToString_chars (d : List Nat) (n : Nat) :
    IsBitString (binaryDataToString d n) ∧
    (binaryDataToString d n).length = min n (8 * d.length) ∧
    (∀ i, i < min n (8 * d.length) →
      (binaryDataToString d n).getD i chr0 =
        if d.getD (i / 8) 0 / 2 ^ (7 - i % 8) % 2 = 1 then chr1 else chr0) := by
  refine ⟨binaryDataToString_isBitString d n, ?_, ?_⟩
  · rw [binaryDataToString_eq, List.length_take, flatMap_byteChars_length]
  · intro i hi
    rw [binaryDataToString_eq, List.getD_eq_getElem?_getD, List.getElem?_take,
      if_pos (by omega), flatMap_byteChars_getElem? d i (by omega), Option.getD_some,
      Nat.testBit_to_div_mod]
    by_cases h : d.getD (i / 8) 0 / 2 ^ (7 - i % 8) % 2 = 1
    · rw [if_pos h, decide_eq_true h]; rfl
    · rw [if_neg h, decide_eq_false h]; rfl

/-- C20 (the code departs from it): for every byte `x`, every `n ≥ 3` and every
`k` with `2 ≤ k < n`, the buffer of `n` copies of `x` is encoded as `n` times
`'0'` with a tree that is a single leaf, and decoding the first `k` characters
does not stop without fault: the second `'0'` dereferences a null pointer. -/
theorem truncated_single_symbol_faults (H : HeapAlgorithms) (hH : H.Lawful) (x : CChar)
    (n k : Nat) (hk : 2 ≤ k) (hkn : k < n) :
    buildHuffmanTree H (buildFrequencyTable (List.replicate n x)) =
      some (node x (wrapInt (n : Int)) nullptr nullptr) ∧
    encodeText (List.replicate n x)
        (generateCodes (node x (wrapInt (n : Int)) nullptr nullptr) [] []) =
      List.replicate n chr0 ∧
    decodeText ((List.replicate n chr0).take k)
      (node x (wrapInt (n : Int)) nullptr nullptr) = none := by
  have hc : generateCodes (node x (wrapInt (n : Int)) nullptr nullptr) [] [] =
      [(x, [chr0])] := by
    simp [generateCodes, isLeaf, isNull, mapSet]
  refine ⟨?_, ?_, ?_⟩
  · rw [buildFrequencyTable_replicate x n (by omega)]
    exact buildHuffmanTree_single H hH _
  · rw [hc]; exact encodeText_replicate x n
  · rw [List.take_replicate, decodeText_single]
    have : min k n = k := by omega
    rw [this, if_neg (by omega)]

/-- Witness for C20: the buffer `"aaa"` truncated to two bits. -/
theorem truncated_single_symbol_faults_witness :
    decodeText ((List.replicate 3 chr0).take 2)
      (node 97 (wrapInt (3 : Nat)) nullptr nullptr) = none :=
  (truncated_single_symbol_faults sortingHeap sortingHeap_lawful 97 3 2 (by decide)
    (by decide)).2.2

/-! ## Claims C24, C29 and C30: the shape and the frequencies of the built tree -/

/-- C24: for every frequency table `buildHuffmanTree` returns, and every node
of the tree it returns has no child or two children, never one; `isLeaf` is
true exactly on the nodes without a child, which are the leaves made of the
entries of the table, and false exactly on the merge nodes. -/
theorem built_tree_is_full (H : HeapAlgorithms) (hH : H.Lawful) (frequencies : CMap Int) :
    ∃ t, buildHuffmanTree H frequencies = some t ∧
      ∀ n ∈ nodes t, (childCount n = 0 ∨ childCount n = 2) ∧
        (n.isLeaf = true ↔ childCount n = 0) ∧
        (n.isLeaf = false ↔ isMergeNode n = true) ∧
        (n.isLeaf = true ↔ ∃ e ∈ frequencies, n = leafOf e) := by
  obtain ⟨t, ht, hP⟩ := buildHuffmanTree_nodes H hH frequencies
    (fun n => (n.isLeaf = true ∧ childCount n = 0 ∧ isMergeNode n = false ∧
        ∃ e ∈ frequencies, n = leafOf e) ∨
      (n.isLeaf = false ∧ childCount n = 2 ∧ isMergeNode n = true))
    (fun e he => Or.inl ⟨rfl, rfl, by simp [leafOf, isMergeNode, isNull], e, he, rfl⟩)
    (fun l r hl hr _ => Or.inr (by simp [isLeaf, childCount, isMergeNode, hl, hr]))
  refine ⟨t, ht, ?_⟩
  intro n hn
  rcases hP n hn with ⟨h1, h2, h3, h4⟩ | ⟨h1, h2, h3⟩
  · refine ⟨Or.inl h2, by simp [h1, h2], by simp [h1, h3], by simp [h1, h4]⟩
  · refine ⟨Or.inr h2, by simp [h1, h2], by simp [h1, h3], ?_⟩
    constructor
    · intro h; rw [h1] at h; cases h
    · rintro ⟨e, _, he⟩
      rw [he] at h1
      simp [leafOf, isLeaf, isNull] at h1

/-- Witness for C24: the table of `"aaabbc"` with the reference heap algorithms. -/
theorem built_tree_is_full_witness :
    ∃ t, buildHuffmanTree sortingHeap (buildFrequencyTable (ofString "aaabbc")) = some t ∧
      ∀ n ∈ nodes t, (childCount n = 0 ∨ childCount n = 2) ∧
        (n.isLeaf = true ↔ childCount n = 0) ∧
        (n.isLeaf = false ↔ isMergeNode n = true) ∧
        (n.isLeaf = true ↔ ∃ e ∈ buildFrequencyTable (ofString "aaabbc"), n = leafOf e) :=
  built_tree_is_full sortingHeap sortingHeap_lawful (buildFrequencyTable (ofString "aaabbc"))

/-- C29: at every iteration of the loop of `buildHuffmanTree` the node
extracted first and the node extracted second have frequencies no greater than
that of any node left in the queue, the first is no greater than the second,
and the node pushed has the first as its left and the second as its right
child; so in every node of the returned tree that is not a leaf the frequency
of the left child is at most that of the right child. -/
theorem merge_is_greedy (H : HeapAlgorithms) (hH : H.Lawful) (frequencies : CMap Int) :
    (∀ pq, QueueAt H frequencies pq → pq.length > 1 →
      ∃ left pq1 right pq2, pqTop pq = some left ∧ pqPop H pq = some pq1 ∧
        pqTop pq1 = some right ∧ pqPop H pq1 = some pq2 ∧ pq.Perm (left :: right :: pq2) ∧
        (∀ y ∈ pq2, left.getFrequency ≤ y.getFrequency ∧
          right.getFrequency ≤ y.getFrequency) ∧
        left.getFrequency ≤ right.getFrequency ∧
        mergeStep H pq =
          some (pqPush H pq2
            (node 0 (wrapInt (left.getFrequency + right.getFrequency)) left right))) ∧
    ∃ pq t, QueueAt H frequencies pq ∧ pq.length ≤ 1 ∧
      t = (match pqTop pq with | none => nullptr | some root => root) ∧
      buildHuffmanTree H frequencies = some t ∧
      ∀ c f l r, node c f l r ∈ nodes t → (node c f l r).isLeaf = false →
        l.getFrequency ≤ r.getFrequency := by
  constructor
  · intro pq hq hlen
    obtain ⟨h1, h2⟩ := queueAt_isHeap H hH frequencies hq
    exact mergeStep_extracts H hH pq h1 h2 (by omega)
  · obtain ⟨t, ht, hP⟩ := buildHuffmanTree_nodes H hH frequencies
      (fun n => ∀ c f l r, n = node c f l r → n.isLeaf = false →
        l.getFrequency ≤ r.getFrequency)
      (fun e _ c f l r _ hleaf => by simp [leafOf, isLeaf, isNull] at hleaf)
      (fun l r _ _ hlr c f l1 r1 he _ => by
        injection he with _ _ e3 e4
        rw [← e3, ← e4]; exact hlr)
    cases hm : mergeLoop H frequencies.length (pushLeaves H frequencies) with
    | none => simp [buildHuffmanTree, hm] at ht
    | some pq =>
      have hq := mergeLoop_queueAt H frequencies _ _ pq QueueAt.start hm
      have ht2 : t = (match pqTop pq with | none => nullptr | some root => root) := by
        simp only [buildHuffmanTree, hm, Option.map_some', Option.some.injEq] at ht
        exact ht.symm
      refine ⟨pq, t, hq, ?_, ht2, ht, fun c f l r hn hleaf => hP _ hn c f l r rfl hleaf⟩
      by_contra hlen
      by_cases hne : frequencies = []
      · subst hne
        simp [mergeLoop, pushLeaves] at hm
        rw [hm] at hlen
        simp at hlen
      · obtain ⟨h1, h2⟩ : IsHeap (pushLeaves H frequencies) ∧
            (pushLeaves H frequencies).Perm ([] ++ frequencies.map leafOf) :=
          pushLeaves_spec H hH frequencies [] isHeap_nil
        rw [List.nil_append] at h2
        have hq0 := queueAt_isHeap H hH frequencies
          (QueueAt.start : QueueAt H frequencies (pushLeaves H frequencies))
        have hlen0 : (pushLeaves H frequencies).length = frequencies.length := by
          rw [h2.length_eq, List.length_map]
        obtain ⟨t1, ht1, _⟩ := mergeLoop_spec H hH frequencies.length (pushLeaves H frequencies)
          hq0.1 hq0.2 (by
            intro e
            rw [e] at hlen0
            exact hne (List.length_eq_zero.mp hlen0.symm)) (by omega)
        rw [hm] at ht1
        cases ht1
        simp at hlen

/-- Witness for C29: the table of `"aaabbc"` with the reference heap algorithms. -/
theorem merge_is_greedy_witness :
    (∀ pq, QueueAt sortingHeap (buildFrequencyTable (ofString "aaabbc")) pq → pq.length > 1 →
      ∃ left pq1 right pq2, pqTop pq = some left ∧ pqPop sortingHeap pq = some pq1 ∧
        pqTop pq1 = some right ∧ pqPop sortingHeap pq1 = some pq2 ∧
        pq.Perm (left :: right :: pq2) ∧
        (∀ y ∈ pq2, left.getFrequency ≤ y.getFrequency ∧
          right.getFrequency ≤ y.getFrequency) ∧
        left.getFrequency ≤ right.getFrequency ∧
        mergeStep sortingHeap pq =
          some (pqPush sortingHeap pq2
            (node 0 (wrapInt (left.getFrequency + right.getFrequency)) left right))) ∧
    ∃ pq t, QueueAt sortingHeap (buildFrequencyTable (ofString "aaabbc")) pq ∧ pq.length ≤ 1 ∧
      t = (match pqTop pq with | none => nullptr | some root => root) ∧
      buildHuffmanTree sortingHeap (buildFrequencyTable (ofString "aaabbc")) = some t ∧
      ∀ c f l r, node c f l r ∈ nodes t → (node c f l r).isLeaf = false →
        l.getFrequency ≤ r.getFrequency :=
  merge_is_greedy sortingHeap sortingHeap_lawful (buildFrequencyTable (ofString "aaabbc"))
/-- Counterexample to C30 as stated: for the table
`{a: 1500000000, b: 1500000001, c: 1500000002, d: 1500000003}` the `int` sum of
the first merge wraps, so the node above `a` and `b` has the frequency
`-1294967295` and not `3000000001`, and the root has the frequency
`1705032710` and not `6000000006`, the sum of the counts. -/
theorem node_frequency_sum_wraps :
    buildHuffmanTree sortingHeap
        [(97, 1500000000), (98, 1500000001), (99, 1500000002), (100, 1500000003)] =
      some (node 0 1705032710
        (node 0 205032707
          (node 0 (-1294967295) (node 97 1500000000 nullptr nullptr)
            (node 98 1500000001 nullptr nullptr))
          (node 99 1500000002 nullptr nullptr))
        (node 100 1500000003 nullptr nullptr)) ∧
    (([(97, 1500000000), (98, 1500000001), (99, 1500000002),
      (100, 1500000003)] : CMap Int).map Prod.snd).sum = 6000000006 ∧
    ¬ ∃ t, buildHuffmanTree sortingHeap
        [(97, 1500000000), (98, 1500000001), (99, 1500000002), (100, 1500000003)] = some t ∧
      t.getFrequency = (([(97, 1500000000), (98, 1500000001), (99, 1500000002),
        (100, 1500000003)] : CMap Int).map Prod.snd).sum := by
  have ht : buildHuffmanTree sortingHeap
      [(97, 1500000000), (98, 1500000001), (99, 1500000002), (100, 1500000003)] =
      some (node 0 1705032710
        (node 0 205032707
          (node 0 (-1294967295) (node 97 1500000000 nullptr nullptr)
            (node 98 1500000001 nullptr nullptr))
          (node 99 1500000002 nullptr nullptr))
        (node 100 1500000003 nullptr nullptr)) := by decide
  refine ⟨ht, by decide, ?_⟩
  rintro ⟨t, h, hf⟩
  rw [ht] at h
  cases h
  revert hf
  decide

/-- C30, amended: for a table of counts that are not negative and sum to at
most `2147483647`, the greatest `int`, in the tree that `buildHuffmanTree`
returns the frequency of every node that is not a leaf is the sum of the
frequencies of its two children, the frequency of every node is the sum of the
counts at the leaves below it, and the frequency of the root is the sum of all
counts of the table, which for the table of a buffer of at most `2147483647`
bytes is the length of the buffer. -/
theorem node_frequency_sums (H : HeapAlgorithms) (hH : H.Lawful) (frequencies : CMap Int)
    (hnn : ∀ e ∈ frequencies, 0 ≤ e.2)
    (hbound : (frequencies.map Prod.snd).sum ≤ 2147483647) :
    ∃ t, buildHuffmanTree H frequencies = some t ∧
      (∀ c f l r, node c f l r ∈ nodes t → (node c f l r).isLeaf = false →
        l.isNull = false ∧ r.isNull = false ∧ f = l.getFrequency + r.getFrequency) ∧
      (∀ n ∈ nodes t, n.getFrequency = weight n) ∧
      (frequencies ≠ [] →
        t.isNull = false ∧ t.getFrequency = (frequencies.map Prod.snd).sum) ∧
      (∀ text : List CChar, text ≠ [] → text.length ≤ 2147483647 →
        frequencies = buildFrequencyTable text →
        t.isNull = false ∧ t.getFrequency = (text.length : Int)) := by
  obtain ⟨t, ht, hP⟩ := buildHuffmanTree_nodes H hH frequencies
    (fun n => n.isLeaf = true ∨ isMergeNode n = true)
    (fun e _ => Or.inl rfl)
    (fun l r hl hr _ => Or.inr (by simp [isMergeNode, hl, hr]))
  have hexact : ∀ n ∈ nodes t, n.getFrequency = weight n ∧
      ∀ c f l r, n = node c f l r → n.isLeaf = false →
        f = l.getFrequency + r.getFrequency := by
    by_cases hne : frequencies = []
    · subst hne
      rw [buildHuffmanTree_nil] at ht
      cases ht
      intro n hn
      simp [nodes] at hn
    · exact buildHuffmanTree_exact H hH frequencies hne hnn hbound t ht
  have hroot : frequencies ≠ [] →
      t.isNull = false ∧ t.getFrequency = (frequencies.map Prod.snd).sum := by
    intro hne
    obtain ⟨t1, ht1, _, htree, hperm, _⟩ := buildHuffmanTree_spec H hH frequencies hne
    rw [ht] at ht1
    cases ht1
    refine ⟨isTree_isNull htree, ?_⟩
    rw [(hexact t (nodes_self (isTree_isNull htree))).1, weight]
    exact (hperm.map Prod.snd).sum_eq
  refine ⟨t, ht, ?_, ?_, hroot, ?_⟩
  · intro c f l r hn hleaf
    rcases hP _ hn with h1 | h1
    · rw [h1] at hleaf; cases hleaf
    · simp only [isMergeNode, Bool.and_eq_true, Bool.not_eq_true', decide_eq_true_eq] at h1
      exact ⟨h1.1.1.1, h1.1.1.2, (hexact _ hn).2 c f l r rfl hleaf⟩
  · intro n hn
    exact (hexact n hn).1
  · intro text htext hlen hf
    have hsum := buildFrequencyTable_sum text hlen
    have hne : frequencies ≠ [] := by
      intro e
      rw [← hf, e] at hsum
      simp only [List.map_nil, List.sum_nil] at hsum
      have : text.length = 0 := by exact_mod_cast hsum.symm
      exact htext (List.length_eq_zero.mp this)
    refine ⟨(hroot hne).1, ?_⟩
    rw [(hroot hne).2, hf]
    exact hsum

/-- Witness for C30: the table of `"aaabbc"` with the reference heap algorithms. -/
theorem node_frequency_sums_witness :
    (∀ e ∈ buildFrequencyTable (ofString "aaabbc"), 0 ≤ e.2) ∧
    ((buildFrequencyTable (ofString "aaabbc")).map Prod.snd).sum ≤ 2147483647 ∧
    ∃ t, buildHuffmanTree sortingHeap (buildFrequencyTable (ofString "aaabbc")) = some t ∧
      (∀ c f l r, node c f l r ∈ nodes t → (node c f l r).isLeaf = false →
        l.isNull = false ∧ r.isNull = false ∧ f = l.getFrequency + r.getFrequency) ∧
      (∀ n ∈ nodes t, n.getFrequency = weight n) ∧
      (buildFrequencyTable (ofString "aaabbc") ≠ [] →
        t.isNull = false ∧
        t.getFrequency = ((buildFrequencyTable (ofString "aaabbc")).map Prod.snd).sum) ∧
      (∀ text : List CChar, text ≠ [] → text.length ≤ 2147483647 →
        buildFrequencyTable (ofString "aaabbc") = buildFrequencyTable text →
        t.isNull = false ∧ t.getFrequency = (text.length : Int)) :=
  ⟨by decide, by decide,
    node_frequency_sums sortingHeap sortingHeap_lawful (buildFrequencyTable (ofString "aaabbc"))
      (by decide) (by decide)⟩

/-! ## Claims C26, C27 and C28: the command line -/

/-- C26: when `parseCommandLine` and `validateOptions` both succeed, so that
the constructor returns the object, the mode is `Encode`, `Decode` or `Info`
and never `None`; with `Encode` there is an input file and the output file is
not empty; with `Decode` or `Info` there is exactly one input file; and the
recursive flag is set only with `Encode`. -/
theorem validated_options (argv : List (List CChar)) (o : CommandLineOptions)
    (h : CommandLineOptions.construct argv = Except.ok o) :
    (o.mode = OperationMode.Encode ∨ o.mode = OperationMode.Decode ∨
        o.mode = OperationMode.Info) ∧
      o.mode ≠ OperationMode.None ∧
      (o.mode = OperationMode.Encode → 1 ≤ o.inputFiles.length ∧ o.outputFile ≠ []) ∧
      (o.mode = OperationMode.Decode ∨ o.mode = OperationMode.Info →
        o.inputFiles.length = 1) ∧
      (o.recursive = true → o.mode = OperationMode.Encode) := by
  unfold CommandLineOptions.construct at h
  split at h
  · cases h
  · rename_i o1 _
    split at h
    · cases h
    · rename_i hv
      cases h
      unfold validateOptions at hv
      split_ifs at hv with h1 h2 h3 h4 h5
      have hin : o.mode = OperationMode.Encode → o.inputFiles ≠ [] := by
        intro hm hnil
        exact h2 ⟨hm, by rw [hnil]; rfl⟩
      have hout : o.mode = OperationMode.Encode → o.outputFile ≠ [] := by
        intro hm hnil
        exact h3 ⟨hm, by rw [hnil]; rfl⟩
      refine ⟨?_, h1, ?_, ?_, ?_⟩
      · cases hmode : o.mode with
        | None => exact absurd hmode h1
        | Encode => exact Or.inl rfl
        | Decode => exact Or.inr (Or.inl rfl)
        | Info => exact Or.inr (Or.inr rfl)
      · intro hm
        refine ⟨?_, hout hm⟩
        exact List.length_pos.mpr (hin hm)
      · intro hm
        by_contra hlen
        exact h4 ⟨hm, hlen⟩
      · intro hr
        by_contra hm
        exact h5 ⟨hr, hm⟩

/-- Witness for C26: the command line `huffman -d archive.huf`. -/
theorem validated_options_witness :
    (OperationMode.Decode = OperationMode.Encode ∨
        OperationMode.Decode = OperationMode.Decode ∨
        OperationMode.Decode = OperationMode.Info) ∧
      OperationMode.Decode ≠ OperationMode.None ∧
      (OperationMode.Decode = OperationMode.Encode →
        1 ≤ [ofString "archive.huf"].length ∧ ([] : List CChar) ≠ []) ∧
      (OperationMode.Decode = OperationMode.Decode ∨
          OperationMode.Decode = OperationMode.Info →
        [ofString "archive.huf"].length = 1) ∧
      (false = true → OperationMode.Decode = OperationMode.Encode) :=
  validated_options [ofString "huffman", ofString "-d", ofString "archive.huf"]
    { mode := OperationMode.Decode, recursive := false, verbose := false,
      outputFile := [], inputFiles := [ofString "archive.huf"] } rfl

/-- C27: the four example command lines of `printUsage`, after any program
name, are accepted by `parseCommandLine` and `validateOptions`, and the
constructor returns the object with the advertised mode, flags, input files
and output file. -/
theorem usage_examples_accepted (programName : List CChar) :
    CommandLineOptions.construct
        [programName, ofString "-e", ofString "file1.txt", ofString "file2.txt",
          ofString "-o", ofString "archive.huf"] =
      Except.ok { mode := OperationMode.Encode, recursive := false, verbose := false,
                  outputFile := ofString "archive.huf",
                  inputFiles := [ofString "file1.txt", ofString "file2.txt"] } ∧
    CommandLineOptions.construct
        [programName, ofString "-e", ofString "-r", ofString "mydir", ofString "-o",
          ofString "mydir.huf", ofString "-v"] =
      Except.ok { mode := OperationMode.Encode, recursive := true, verbose := true,
                  outputFile := ofString "mydir.huf", inputFiles := [ofString "mydir"] } ∧
    CommandLineOptions.construct [programName, ofString "-d", ofString "archive.huf"] =
      Except.ok { mode := OperationMode.Decode, recursive := false, verbose := false,
                  outputFile := [], inputFiles := [ofString "archive.huf"] } ∧
    CommandLineOptions.construct
        [programName, ofString "-i", ofString "archive.huf", ofString "-v"] =
      Except.ok { mode := OperationMode.Info, recursive := false, verbose := true,
                  outputFile := [], inputFiles := [ofString "archive.huf"] } :=
  ⟨rfl, rfl, rfl, rfl⟩

/-- C28: when a mode flag (`-e`, `--encode`, `-d`, `--decode`, `-i`, `--info`)
is processed as an option after the arguments `pre`, and the arguments up to a
second mode flag raise no error, then at the second flag the mode is still the
one the first flag set, and `parseCommandLine` throws a `HuffmanException`
whose `getErrorCode()` is `InvalidMode`, whatever follows. -/
theorem multiple_modes_rejected (o0 : CommandLineOptions) (programName : List CChar)
    (pre mid post : List (List CChar)) (flag1 flag2 : List CChar) (m1 m2 : OperationMode)
    (o1 o2 : CommandLineOptions)
    (hf1 : modeOfFlag flag1 = some m1) (hf2 : modeOfFlag flag2 = some m2)
    (h1 : parseLoop pre
      { o0 with recursive := false, verbose := false, mode := OperationMode.None } =
        Except.ok o1)
    (h2 : parseLoop (pre ++ flag1 :: mid)
      { o0 with recursive := false, verbose := false, mode := OperationMode.None } =
        Except.ok o2) :
    o2.mode = m1 ∧ m1 ≠ OperationMode.None ∧
      ∃ e, parseCommandLine o0 (programName :: (pre ++ flag1 :: (mid ++ flag2 :: post))) =
          Except.error e ∧
        e = HuffmanException.invalidMode (ofString "Multiple operation modes specified") ∧
        e.getErrorCode = HuffmanErrorCode.InvalidMode := by
  have hm1 : m1 ≠ OperationMode.None := by
    unfold modeOfFlag at hf1
    split_ifs at hf1 <;> cases hf1 <;> simp
  have h3 := parseLoop_append pre.length pre (le_refl _) (flag1 :: mid) _ o1 h1
  rw [h2, parseLoop_modeFlag flag1 m1 hf1] at h3
  by_cases hnone : o1.mode ≠ OperationMode.None
  · rw [if_pos hnone] at h3
    cases h3
  · rw [if_neg hnone] at h3
    have hmode : o2.mode = m1 :=
      parseLoop_mode mid.length mid (le_refl _) _ o2 h3.symm hm1
    refine ⟨hmode, hm1, _, ?_, rfl, rfl⟩
    have h4 := parseLoop_append (pre ++ flag1 :: mid).length (pre ++ flag1 :: mid) (le_refl _)
      (flag2 :: post) _ o2 h2
    rw [parseLoop_modeFlag flag2 m2 hf2, if_pos (by rw [hmode]; exact hm1)] at h4
    unfold parseCommandLine
    simp only [List.length_cons, List.length_append, List.drop_succ_cons, List.drop_zero]
    rw [if_neg (by omega)]
    rw [← h4]
    simp only [List.append_assoc, List.cons_append]

/-- Witness for C28: the command line `huffman -e a.txt -d`. -/
theorem multiple_modes_rejected_witness :
    OperationMode.Encode = OperationMode.Encode ∧ OperationMode.Encode ≠ OperationMode.None ∧
      ∃ e, parseCommandLine
          { mode := OperationMode.None, recursive := false, verbose := false,
            outputFile := [], inputFiles := [] }
          (ofString "huffman" ::
            ([] ++ ofString "-e" :: ([ofString "a.txt"] ++ ofString "-d" :: []))) =
          Except.error e ∧
        e = HuffmanException.invalidMode (ofString "Multiple operation modes specified") ∧
        e.getErrorCode = HuffmanErrorCode.InvalidMode :=
  multiple_modes_rejected
    { mode := OperationMode.None, recursive := false, verbose := false,
      outputFile := [], inputFiles := [] }
    (ofString "huffman") [] [ofString "a.txt"] [] (ofString "-e") (ofString "-d")
    OperationMode.Encode OperationMode.Decode
    { mode := OperationMode.None, recursive := false, verbose := false,
      outputFile := [], inputFiles := [] }
    { mode := OperationMode.Encode, recursive := false, verbose := false,
      outputFile := [], inputFiles := [ofString "a.txt"] }
    rfl rfl rfl rfl

/-! ## Claim C21: decoding without a tree -/

/-- C21: when the archive opens and holds packed data but `buildHuffmanTree`
returns the null pointer for its frequency table, as it does for the empty
table, `decodeArchive` prints that the tree could not be reconstructed,
returns `false` and writes no file; and `decodeText` and `decompressText`
return the empty string for a null tree, whatever the bits. -/
theorem absent_tree_is_an_error (H : HeapAlgorithms) (store : ArchiveStore)
    (options : CommandLineOptions) (inputFile : List CChar) (archive : Archive)
    (hin : options.inputFiles.head? = some inputFile)
    (hopen : store.readArchive inputFile = some archive)
    (hdata : archive.binaryData ≠ [])
    (htree : buildHuffmanTree H (readFrequencyTable archive.frequencies) = some nullptr) :
    decodeArchive H store options =
        some { returned := false, message := some DecodeMessage.couldNotReconstructTree,
               sizeWarning := false, restored := [] } ∧
      buildHuffmanTree H (readFrequencyTable []) = some nullptr ∧
      ∀ encodedText : List CChar,
        decodeText encodedText nullptr = some [] ∧
        decompressText encodedText nullptr = some [] := by
  refine ⟨?_, rfl, fun encodedText => ⟨rfl, rfl⟩⟩
  have hne : archive.binaryData.isEmpty = false := by
    cases hb : archive.binaryData with
    | nil => exact absurd hb hdata
    | cons _ _ => rfl
  simp only [decodeArchive, hin, hopen, hne, htree, isNull]
  rfl

/-- Witness for C21: an archive of one payload byte with an empty frequency table. -/
theorem absent_tree_is_an_error_witness :
    decodeArchive sortingHeap
        { readArchive := fun _ =>
            some { fileInfo := [], originalSize := 0, frequencies := [],
                   totalOriginalSize := 0, totalCompressedSize := 1, paddingBits := 0,
                   binaryData := [0] },
          canCreate := fun _ => true }
        { mode := OperationMode.Decode, recursive := false, verbose := false,
          outputFile := [], inputFiles := [ofString "archive.huf"] } =
        some { returned := false, message := some DecodeMessage.couldNotReconstructTree,
               sizeWarning := false, restored := [] } ∧
      buildHuffmanTree sortingHeap (readFrequencyTable []) = some nullptr ∧
      ∀ encodedText : List CChar,
        decodeText encodedText nullptr = some [] ∧
        decompressText encodedText nullptr = some [] :=
  absent_tree_is_an_error sortingHeap
    { readArchive := fun _ =>
        some { fileInfo := [], originalSize := 0, frequencies := [],
               totalOriginalSize := 0, totalCompressedSize := 1, paddingBits := 0,
               binaryData := [0] },
      canCreate := fun _ => true }
    { mode := OperationMode.Decode, recursive := false, verbose := false,
      outputFile := [], inputFiles := [ofString "archive.huf"] }
    (ofString "archive.huf")
    { fileInfo := [], originalSize := 0, frequencies := [],
      totalOriginalSize := 0, totalCompressedSize := 1, paddingBits := 0,
      binaryData := [0] }
    rfl rfl (by decide) rfl

/-! ## Claim C22: the statistics and the actual encoding -/

/-- Counterexample to C22 as stated: for the text of `2147483648` copies of
the byte `'a'` the count wraps to `-2147483648`, the code of `'a'` is `"0"` and
the encoding has `2147483648` characters, packed into `268435456` bytes; but
the sum of count times code length is `-2147483648`, its conversion to `size_t`
is `2^64 - 2^31`, and `totalCompressedSize` is `2305843008945258496`. -/
theorem statistics_size_wraps :
    ∃ compressed tree stats,
      compressText sortingHeap (List.replicate 2147483648 (97 : CChar)) =
        some (compressed, tree, stats) ∧
      compressed = encodeText (List.replicate 2147483648 (97 : CChar)) stats.huffmanCodes ∧
      stats.frequencies = [(97, -2147483648)] ∧
      stats.huffmanCodes = [(97, [chr0])] ∧
      compressed.length = 2147483648 ∧
      weightedLength stats.frequencies (codeLength stats.huffmanCodes) = -2147483648 ∧
      (compressed.length : Int) ≠
        weightedLength stats.frequencies (codeLength stats.huffmanCodes) ∧
      stats.totalCompressedSize = 2305843008945258496 ∧
      (stringToBinaryData compressed).length = 268435456 ∧
      (stringToBinaryData compressed).length ≠ stats.totalCompressedSize := by
  have hs := generateCompressionStatistics_replicate sortingHeap sortingHeap_lawful 97
    2147483648 (by decide)
  have hw : wrapInt ((2147483648 : Nat) : Int) = -2147483648 := by decide
  rw [hw] at hs
  have hl : (List.replicate 2147483648 chr0).length = 2147483648 := List.length_replicate _ _
  refine ⟨List.replicate 2147483648 chr0, node 97 (-2147483648) nullptr nullptr,
    { frequencies := [(97, -2147483648)]
      huffmanCodes := [(97, [chr0])]
      codeLengths := [(97, 1)]
      totalOriginalSize := 2147483648
      totalCompressedSize :=
        ((0 + ((-2147483648 : Int) % 2 ^ 64).toNat * 1) % 2 ^ 64 + 7) % 2 ^ 64 / 8 },
    ?_, ?_, rfl, rfl, hl, by decide, ?_, by decide, ?_, ?_⟩
  · simp only [compressText, hs, Option.bind_eq_bind, Option.some_bind, Option.pure_def,
      buildHuffmanTree_single sortingHeap sortingHeap_lawful, leafOf, encodeText_replicate]
  · exact (encodeText_replicate 97 2147483648).symm
  · rw [hl]; decide
  · rw [stringToBinaryData_length, hl]
  · rw [stringToBinaryData_length, hl]; decide

/-- C22, amended: for every text of at most `2147483647` bytes, the greatest
`int`, `compressText` returns, and with its bit string `compressed` and its
statistics `stats`: the length of `compressed`, which is
`encodeText(text, codes)`, is the sum over the frequency table of count times
code length; `stats.totalCompressedSize` is that sum divided by 8 and rounded
up, and it is the number of bytes of `stringToBinaryData(compressed)`; so the
value that `encodeFiles` stores over it in the archive is the same value. -/
theorem statistics_match_encoding (H : HeapAlgorithms) (hH : H.Lawful) (text : List CChar)
    (hb : text.length ≤ 2147483647) :
    ∃ compressed tree stats, compressText H text = some (compressed, tree, stats) ∧
      compressed = encodeText text stats.huffmanCodes ∧
      stats.frequencies = buildFrequencyTable text ∧
      (compressed.length : Int) =
        weightedLength stats.frequencies (codeLength stats.huffmanCodes) ∧
      stats.totalCompressedSize = (compressed.length + 7) / 8 ∧
      compressed.length ≤ 8 * stats.totalCompressedSize ∧
      8 * stats.totalCompressedSize < compressed.length + 8 ∧
      (stringToBinaryData compressed).length = stats.totalCompressedSize ∧
      ∀ (fs : FileSystem) (options : CommandLineOptions) (outcome : EncodeOutcome)
        (archive : Archive), encodeFiles H fs options = some outcome →
        outcome.compressedText = some text → outcome.archive = some archive →
        archive.totalCompressedSize = stats.totalCompressedSize := by
  obtain ⟨t, stats, ht, hc, hf, hcodes⟩ := compressText_spec H hH text
  obtain ⟨t1, stats1, ht1, hs1, _, _⟩ := generateCompressionStatistics_spec H hH text
  rw [ht] at ht1
  cases ht1
  have hstats : stats1 = stats := by
    simp only [compressText, hs1, Option.bind_eq_bind, Option.some_bind] at hc
    cases hb : buildHuffmanTree H stats1.frequencies with
    | none => rw [hb] at hc; cases hc
    | some t2 =>
      rw [hb] at hc
      simp only [Option.some_bind, Option.pure_def, Option.some.injEq, Prod.mk.injEq] at hc
      exact hc.2.2
  subst hstats
  have hlen := encodeText_length_eq (generateCodes t [] []) text hb
  have hsz := generateCompressionStatistics_size H hH text hb t stats1 ht hs1
  refine ⟨encodeText text (generateCodes t [] []), t, stats1, hc, by rw [hcodes], hf, ?_, hsz,
    by omega, by omega, ?_, ?_⟩
  · rw [hf, hcodes]; exact hlen
  · rw [stringToBinaryData_length, hsz]
  · intro fs options outcome archive h htext ha
    obtain ⟨text2, compressed2, tree2, stats2, h1, h2, h3, _⟩ :=
      encodeFiles_archive H fs options outcome archive h ha
    rw [htext] at h1
    cases h1
    rw [hc] at h2
    cases h2
    rw [h3, stringToBinaryData_length, hsz]

/-- Witness for C22: the text `"aaabbc"` with the reference heap algorithms. -/
theorem statistics_match_encoding_witness :
    (ofString "aaabbc").length ≤ 2147483647 ∧
    ∃ compressed tree stats,
      compressText sortingHeap (ofString "aaabbc") = some (compressed, tree, stats) ∧
      compressed = encodeText (ofString "aaabbc") stats.huffmanCodes ∧
      stats.frequencies = buildFrequencyTable (ofString "aaabbc") ∧
      (compressed.length : Int) =
        weightedLength stats.frequencies (codeLength stats.huffmanCodes) ∧
      stats.totalCompressedSize = (compressed.length + 7) / 8 ∧
      compressed.length ≤ 8 * stats.totalCompressedSize ∧
      8 * stats.totalCompressedSize < compressed.length + 8 ∧
      (stringToBinaryData compressed).length = stats.totalCompressedSize ∧
      ∀ (fs : FileSystem) (options : CommandLineOptions) (outcome : EncodeOutcome)
        (archive : Archive), encodeFiles sortingHeap fs options = some outcome →
        outcome.compressedText = some (ofString "aaabbc") → outcome.archive = some archive →
        archive.totalCompressedSize = stats.totalCompressedSize :=
  ⟨by decide,
    statistics_match_encoding sortingHeap sortingHeap_lawful (ofString "aaabbc") (by decide)⟩

/-! ## Claim C25: serialization of the statistics -/

/-- C25: the claim fails in the code.  For every statistics value `s` the
result of `deserialize(s.serialize())` is the default-constructed value, so it
is `s` only when `s` is that value; the statistics of the text `"ab"` are not
reconstructed. -/
theorem serialize_not_restored :
    (∀ s : CompressionStatistics,
      s.serialize = [] ∧
      CompressionStatistics.deserialize s.serialize = CompressionStatistics.construct ∧
      (CompressionStatistics.deserialize s.serialize = s ↔
        s = CompressionStatistics.construct)) ∧
    ∃ s, generateCompressionStatistics sortingHeap (ofString "ab") = some s ∧
      s.frequencies = [(97, 1), (98, 1)] ∧
      (CompressionStatistics.deserialize s.serialize).frequencies = [] ∧
      CompressionStatistics.deserialize s.serialize ≠ s := by
  constructor
  · intro s
    refine ⟨rfl, rfl, ?_⟩
    constructor
    · intro h; rw [← h]; rfl
    · intro h; rw [h]; rfl
  · refine ⟨_, rfl, rfl, rfl, ?_⟩
    intro h
    have h1 := congrArg CompressionStatistics.totalOriginalSize h
    revert h1
    decide

/-! ## Claim C23: the entropy bound -/

/-- C23: for a frequency table with two entries or more and positive counts,
with `total` the sum of the counts and `p = freq / total`, the average length
of the generated codes, `sum(freq * codeLength) / total`, is positive and at
least the Shannon entropy `-sum(p * log2 p)`, so that entropy divided by
average, times 100, is at most 100.  The statement is in exact arithmetic on
the counts and code lengths that the code produces. -/
theorem huffman_average_ge_entropy (H : HeapAlgorithms) (hH : H.Lawful)
    (frequencies : CMap Int) (hmap : IsMap frequencies) (h2 : 2 ≤ frequencies.length)
    (hpos : ∀ e ∈ frequencies, 0 < e.2) :
    ∃ t, buildHuffmanTree H frequencies = some t ∧
      0 < (frequencies.map Prod.snd).sum ∧
      0 < weightedLength frequencies (codeLength (generateCodes t [] [])) ∧
      -(frequencies.map (fun e =>
          (e.2 : ℝ) / (((frequencies.map Prod.snd).sum : Int) : ℝ) *
            Real.logb 2 ((e.2 : ℝ) / (((frequencies.map Prod.snd).sum : Int) : ℝ)))).sum ≤
        ((weightedLength frequencies (codeLength (generateCodes t [] [])) : Int) : ℝ) /
          (((frequencies.map Prod.snd).sum : Int) : ℝ) ∧
      -(frequencies.map (fun e =>
          (e.2 : ℝ) / (((frequencies.map Prod.snd).sum : Int) : ℝ) *
            Real.logb 2 ((e.2 : ℝ) / (((frequencies.map Prod.snd).sum : Int) : ℝ)))).sum /
        (((weightedLength frequencies (codeLength (generateCodes t [] [])) : Int) : ℝ) /
          (((frequencies.map Prod.snd).sum : Int) : ℝ)) * 100 ≤ 100 := by
  have hne : frequencies ≠ [] := by
    intro e; rw [e] at h2; simp at h2
  obtain ⟨t, ht, _, htree, hperm, hroot⟩ := buildHuffmanTree_spec H hH frequencies hne
  have hkraft := kraft_generateCodes (K := ℝ) frequencies hmap htree (hroot h2) hperm
  have hle := entropy_le_average frequencies (codeLength (generateCodes t [] [])) hne hpos
    (le_of_eq hkraft)
  have htot := sum_snd_pos frequencies hne hpos
  have hlen : ∀ e ∈ frequencies, 1 ≤ codeLength (generateCodes t [] []) e.1 := by
    intro e he
    have hc := codes_cover H hH frequencies t ht e he
    cases hf : mapFind (generateCodes t [] []) e.1 with
    | none => rw [hf] at hc; cases hc
    | some v =>
      have hmem := mem_of_mapFind _ _ _ hf
      rcases generateCodes_entries t [] [] (by intro x hx; cases hx) _ hmem with h | h
      · cases h
      · have hv : v ≠ [] := h.1
        simp only [codeLength, hf, Option.getD_some]
        exact List.length_pos.mpr hv
  have hw := weightedLength_pos frequencies _ hne hpos hlen
  refine ⟨t, ht, htot, hw, hle, ?_⟩
  have hn : (0 : ℝ) < (((frequencies.map Prod.snd).sum : Int) : ℝ) := by exact_mod_cast htot
  have hwr : (0 : ℝ) <
      ((weightedLength frequencies (codeLength (generateCodes t [] [])) : Int) : ℝ) := by
    exact_mod_cast hw
  have havg := div_pos hwr hn
  have h1 := (div_le_one havg).mpr hle
  linarith

/-- Witness for C23: the table of `"aaabbc"` with the reference heap algorithms. -/
theorem huffman_average_ge_entropy_witness :
    ∃ t, buildHuffmanTree sortingHeap [(97, 3), (98, 2), (99, 1)] = some t ∧
      0 < (([(97, 3), (98, 2), (99, 1)] : CMap Int).map Prod.snd).sum ∧
      0 < weightedLength [(97, 3), (98, 2), (99, 1)] (codeLength (generateCodes t [] [])) ∧
      -(([(97, 3), (98, 2), (99, 1)] : CMap Int).map (fun e =>
          (e.2 : ℝ) / (((([(97, 3), (98, 2), (99, 1)] : CMap Int).map Prod.snd).sum : Int) : ℝ) *
            Real.logb 2 ((e.2 : ℝ) /
              (((([(97, 3), (98, 2), (99, 1)] : CMap Int).map Prod.snd).sum : Int) : ℝ)))).sum ≤
        ((weightedLength [(97, 3), (98, 2), (99, 1)]
            (codeLength (generateCodes t [] [])) : Int) : ℝ) /
          (((([(97, 3), (98, 2), (99, 1)] : CMap Int).map Prod.snd).sum : Int) : ℝ) ∧
      -(([(97, 3), (98, 2), (99, 1)] : CMap Int).map (fun e =>
          (e.2 : ℝ) / (((([(97, 3), (98, 2), (99, 1)] : CMap Int).map Prod.snd).sum : Int) : ℝ) *
            Real.logb 2 ((e.2 : ℝ) /
              (((([(97, 3), (98, 2), (99, 1)] : CMap Int).map Prod.snd).sum : Int) : ℝ)))).sum /
        (((weightedLength [(97, 3), (98, 2), (99, 1)]
            (codeLength (generateCodes t [] [])) : Int) : ℝ) /
          (((([(97, 3), (98, 2), (99, 1)] : CMap Int).map Prod.snd).sum : Int) : ℝ)) * 100 ≤
        100 :=
  huffman_average_ge_entropy sortingHeap sortingHeap_lawful [(97, 3), (98, 2), (99, 1)]
    (by decide) (by decide) (by decide)

/-! ## Claims C34, C35 and C37: the encoding and the code lengths -/

/-- C34: for every text and every code table, `encodeText` returns the codes of
the characters of the text that have an entry, concatenated in the order of
the text; a character without an entry adds nothing, and the function returns
for every input.  So `encodeText` of a concatenation is the concatenation of
the encodings. -/
theorem encodeText_is_concatenation (codes : CMap (List CChar)) :
    (∀ text, encodeText text codes = (text.filterMap (mapFind codes)).flatten) ∧
    (∀ (c : CChar) (text : List CChar), mapFind codes c = none →
      encodeText (c :: text) codes = encodeText text codes) ∧
    (∀ (c : CChar) (code text : List CChar), mapFind codes c = some code →
      encodeText (c :: text) codes = code ++ encodeText text codes) ∧
    ∀ A B, encodeText (A ++ B) codes = encodeText A codes ++ encodeText B codes := by
  refine ⟨?_, ?_, ?_, encodeText_append codes⟩
  · intro text
    induction text with
    | nil => rfl
    | cons ch rest ih =>
      rw [encodeText_cons, ih]
      cases h : mapFind codes ch with
      | none => simp [List.filterMap_cons, h]
      | some code => simp [List.filterMap_cons, h]
  · intro c text h
    rw [encodeText_cons, h]
    rfl
  · intro c code text h
    rw [encodeText_cons, h]

/-- C35: for a frequency table with two entries or more, the code lengths of
the generated code table satisfy the Kraft equality: the sum over the entries
of the table of `2 ^ (-|code|)` is exactly 1. -/
theorem kraft_equality (H : HeapAlgorithms) (hH : H.Lawful) (frequencies : CMap Int)
    (hmap : IsMap frequencies) (h2 : 2 ≤ frequencies.length) :
    ∃ t, buildHuffmanTree H frequencies = some t ∧
      (frequencies.map (fun e =>
        (2 : ℚ) ^ (-(codeLength (generateCodes t [] []) e.1 : ℤ)))).sum = 1 := by
  have hne : frequencies ≠ [] := by
    intro e; rw [e] at h2; simp at h2
  obtain ⟨t, ht, _, htree, hperm, hroot⟩ := buildHuffmanTree_spec H hH frequencies hne
  refine ⟨t, ht, ?_⟩
  rw [← kraft_generateCodes (K := ℚ) frequencies hmap htree (hroot h2) hperm]
  congr 1
  apply List.map_congr_left
  intro e _
  rw [zpow_neg, zpow_natCast, inv_pow]

/-- Witness for C35: the table of `"aaabbc"` with the reference heap algorithms. -/
theorem kraft_equality_witness :
    ∃ t, buildHuffmanTree sortingHeap [(97, 3), (98, 2), (99, 1)] = some t ∧
      (([(97, 3), (98, 2), (99, 1)] : CMap Int).map (fun e =>
        (2 : ℚ) ^ (-(codeLength (generateCodes t [] []) e.1 : ℤ)))).sum = 1 :=
  kraft_equality sortingHeap sortingHeap_lawful [(97, 3), (98, 2), (99, 1)]
    (by decide) (by decide)

/-- C37: for a frequency table with `n` entries, `n` at least 2, every code of
the generated code table has at least 1 and at most `n - 1` characters, and
every entry of the frequency table has such a code; with distinct keys that
are values of a `char` that is at most 255 characters. -/
theorem code_length_bounds (H : HeapAlgorithms) (hH : H.Lawful) (frequencies : CMap Int)
    (h2 : 2 ≤ frequencies.length) :
    ∃ t, buildHuffmanTree H frequencies = some t ∧
      (∀ e ∈ generateCodes t [] [],
        1 ≤ e.2.length ∧ e.2.length ≤ frequencies.length - 1) ∧
      (∀ e ∈ frequencies, ∃ code, mapFind (generateCodes t [] []) e.1 = some code ∧
        1 ≤ code.length ∧ code.length ≤ frequencies.length - 1) ∧
      (IsMap frequencies → (∀ e ∈ frequencies, -128 ≤ e.1 ∧ e.1 ≤ 127) →
        ∀ e ∈ generateCodes t [] [], e.2.length ≤ 255) := by
  obtain ⟨t, ht⟩ := buildHuffmanTree_isSome H hH frequencies
  have hb := generateCodes_length_bounds H hH frequencies h2 t ht
  have hcodes : ∀ e ∈ generateCodes t [] [],
      1 ≤ e.2.length ∧ e.2.length ≤ frequencies.length - 1 := by
    intro e he
    have hm := isMap_generateCodes t [] [] (by simp [IsMap])
    exact hb e.1 e.2 (mapFind_of_mem _ hm e.1 e.2 he)
  refine ⟨t, ht, hcodes, ?_, ?_⟩
  · intro e he
    have hc := codes_cover H hH frequencies t ht e he
    cases hf : mapFind (generateCodes t [] []) e.1 with
    | none => rw [hf] at hc; cases hc
    | some code => exact ⟨code, rfl, hb e.1 code hf⟩
  · intro hmap hbyte e he
    have h1 := (hcodes e he).2
    have h3 := isMap_length_le frequencies hmap hbyte
    omega

/-- Witness for C37: the table of `"aaabbc"` with the reference heap algorithms. -/
theorem code_length_bounds_witness :
    ∃ t, buildHuffmanTree sortingHeap [(97, 3), (98, 2), (99, 1)] = some t ∧
      (∀ e ∈ generateCodes t [] [],
        1 ≤ e.2.length ∧ e.2.length ≤ ([(97, 3), (98, 2), (99, 1)] : CMap Int).length - 1) ∧
      (∀ e ∈ ([(97, 3), (98, 2), (99, 1)] : CMap Int),
        ∃ code, mapFind (generateCodes t [] []) e.1 = some code ∧
        1 ≤ code.length ∧ code.length ≤ ([(97, 3), (98, 2), (99, 1)] : CMap Int).length - 1) ∧
      (IsMap ([(97, 3), (98, 2), (99, 1)] : CMap Int) →
        (∀ e ∈ ([(97, 3), (98, 2), (99, 1)] : CMap Int), -128 ≤ e.1 ∧ e.1 ≤ 127) →
        ∀ e ∈ generateCodes t [] [], e.2.length ≤ 255) :=
  code_length_bounds sortingHeap sortingHeap_lawful [(97, 3), (98, 2), (99, 1)] (by decide)

/-! ## Claims C31, C33 and C38: termination, the decoding walk and the payload -/

/-- C31: `buildHuffmanTree` returns on every frequency table.  Every iteration
of its loop leaves one node less in the queue; for a table of `n` entries the
loop makes `n - 1` iterations (none for the empty table) and does not end
earlier; and for `n` at least 1 the tree returned has `n` leaves and `n - 1`
other nodes. -/
theorem buildHuffmanTree_terminates (H : HeapAlgorithms) (hH : H.Lawful)
    (frequencies : CMap Int) :
    ∃ t, buildHuffmanTree H frequencies = some t ∧
      mergeCount H frequencies.length (pushLeaves H frequencies) =
        some (frequencies.length - 1) ∧
      (∀ pq, QueueAt H frequencies pq → pq.length > 1 →
        ∃ pq1, mergeStep H pq = some pq1 ∧ pq1.length + 1 = pq.length) ∧
      (∀ k, k + 1 < frequencies.length →
        mergeLoop H k (pushLeaves H frequencies) = none) ∧
      (frequencies = [] → t = nullptr) ∧
      (frequencies ≠ [] →
        ((nodes t).filter (fun n => n.isLeaf)).length = frequencies.length ∧
        ((nodes t).filter (fun n => !n.isLeaf)).length = frequencies.length - 1) := by
  obtain ⟨t, ht⟩ := buildHuffmanTree_isSome H hH frequencies
  have hq0 := queueAt_isHeap H hH frequencies
    (QueueAt.start : QueueAt H frequencies (pushLeaves H frequencies))
  obtain ⟨_, hperm⟩ : IsHeap (pushLeaves H frequencies) ∧
      (pushLeaves H frequencies).Perm ([] ++ frequencies.map leafOf) :=
    pushLeaves_spec H hH frequencies [] isHeap_nil
  rw [List.nil_append] at hperm
  have hlen0 : (pushLeaves H frequencies).length = frequencies.length := by
    rw [hperm.length_eq, List.length_map]
  refine ⟨t, ht, ?_, ?_, ?_, ?_, ?_⟩
  · by_cases hne : frequencies = []
    · subst hne; rfl
    · have hpne : pushLeaves H frequencies ≠ [] := by
        intro e
        rw [e] at hlen0
        exact hne (List.length_eq_zero.mp hlen0.symm)
      have := (mergeLoop_fuel H hH frequencies.length _ hq0.1 hq0.2 hpne).1 (by omega)
      rw [this, hlen0]
  · intro pq hq hlen
    obtain ⟨h1, h2⟩ := queueAt_isHeap H hH frequencies hq
    obtain ⟨l, r, rest, pq1, hs, _, hp, hp1, _, _⟩ := mergeStep_spec H hH pq h1 h2 (by omega)
    refine ⟨pq1, hs, ?_⟩
    rw [hp1.length_eq, hp.length_eq]
    simp
  · intro k hk
    have hpne : pushLeaves H frequencies ≠ [] := by
      intro e
      rw [e] at hlen0
      simp only [List.length_nil] at hlen0
      omega
    exact ((mergeLoop_fuel H hH k _ hq0.1 hq0.2 hpne).2 (by omega)).1
  · intro he
    subst he
    rw [buildHuffmanTree_nil] at ht
    cases ht
    rfl
  · intro hne
    obtain ⟨t1, ht1, _, htree, hperm1, _⟩ := buildHuffmanTree_spec H hH frequencies hne
    rw [ht] at ht1
    cases ht1
    obtain ⟨h1, h2⟩ := isTree_counts htree
    rw [hperm1.length_eq] at h1 h2
    exact ⟨h1, by omega⟩

/-- Witness for C31: the table of `"aaabbc"` with the reference heap algorithms. -/
theorem buildHuffmanTree_terminates_witness :
    ∃ t, buildHuffmanTree sortingHeap [(97, 3), (98, 2), (99, 1)] = some t ∧
      mergeCount sortingHeap ([(97, 3), (98, 2), (99, 1)] : CMap Int).length
          (pushLeaves sortingHeap [(97, 3), (98, 2), (99, 1)]) =
        some (([(97, 3), (98, 2), (99, 1)] : CMap Int).length - 1) ∧
      (∀ pq, QueueAt sortingHeap [(97, 3), (98, 2), (99, 1)] pq → pq.length > 1 →
        ∃ pq1, mergeStep sortingHeap pq = some pq1 ∧ pq1.length + 1 = pq.length) ∧
      (∀ k, k + 1 < ([(97, 3), (98, 2), (99, 1)] : CMap Int).length →
        mergeLoop sortingHeap k (pushLeaves sortingHeap [(97, 3), (98, 2), (99, 1)]) = none) ∧
      (([(97, 3), (98, 2), (99, 1)] : CMap Int) = [] → t = nullptr) ∧
      (([(97, 3), (98, 2), (99, 1)] : CMap Int) ≠ [] →
        ((nodes t).filter (fun n => n.isLeaf)).length =
          ([(97, 3), (98, 2), (99, 1)] : CMap Int).length ∧
        ((nodes t).filter (fun n => !n.isLeaf)).length =
          ([(97, 3), (98, 2), (99, 1)] : CMap Int).length - 1) :=
  buildHuffmanTree_terminates sortingHeap sortingHeap_lawful [(97, 3), (98, 2), (99, 1)]

/-- C33: for the tree that `buildHuffmanTree` returns for a table of two
entries or more and for every string, of the characters `'0'` and `'1'` or of
others, the loop of `decodeText` runs to the end and `decodeText` returns; the
pointer `current` after the string is a node of the tree that is not null and
not a leaf, so it is not null when the next character is consumed. -/
theorem decode_walk_is_safe (H : HeapAlgorithms) (hH : H.Lawful) (frequencies : CMap Int)
    (h2 : 2 ≤ frequencies.length) :
    ∃ t, buildHuffmanTree H frequencies = some t ∧
      ∀ encodedText : List CChar, ∃ current decoded,
        decodeWalk t encodedText (t, []) = some (current, decoded) ∧
        current.isNull = false ∧ current.isLeaf = false ∧ current ∈ nodes t ∧
        decodeText encodedText t = some decoded ∧
        ∀ bit : CChar, ∃ next, decodeStep t (current, decoded) bit = some next ∧
          next.1.isNull = false := by
  have hne : frequencies ≠ [] := by
    intro e; rw [e] at h2; simp at h2
  obtain ⟨t, ht, _, htree, _, hroot⟩ := buildHuffmanTree_spec H hH frequencies hne
  have hnull := isTree_isNull htree
  refine ⟨t, ht, ?_⟩
  intro encodedText
  obtain ⟨cur, out, hw, hmem, hleaf⟩ :=
    decodeWalk_inner htree (hroot h2) encodedText t [] (nodes_self hnull) (hroot h2)
  have hcn : cur.isNull = false := isTree_isNull (isTree_of_mem_nodes htree cur hmem)
  refine ⟨cur, out, hw, hcn, hleaf, hmem, ?_, ?_⟩
  · unfold decodeText
    rw [hnull]
    simp only [Bool.false_eq_true, if_false]
    rw [decodeLoop_eq_walk, hw]
    rfl
  · intro bit
    obtain ⟨cur1, out1, hs, hm1, _⟩ := decodeStep_inner htree (hroot h2) cur out bit hmem hleaf
    exact ⟨(cur1, out1), hs, isTree_isNull (isTree_of_mem_nodes htree cur1 hm1)⟩

/-- Witness for C33: the table of `"aaabbc"` with the reference heap algorithms. -/
theorem decode_walk_is_safe_witness :
    ∃ t, buildHuffmanTree sortingHeap [(97, 3), (98, 2), (99, 1)] = some t ∧
      ∀ encodedText : List CChar, ∃ current decoded,
        decodeWalk t encodedText (t, []) = some (current, decoded) ∧
        current.isNull = false ∧ current.isLeaf = false ∧ current ∈ nodes t ∧
        decodeText encodedText t = some decoded ∧
        ∀ bit : CChar, ∃ next, decodeStep t (current, decoded) bit = some next ∧
          next.1.isNull = false :=
  decode_walk_is_safe sortingHeap sortingHeap_lawful [(97, 3), (98, 2), (99, 1)] (by decide)

/-- C38: for every text that is not empty `compressText` returns a bit string
of at least one character, which `stringToBinaryData` packs into at least one
byte; so the archive that `encodeFiles` writes has a payload that is not
empty, and a run of `decodeArchive` on it does not print that no compressed
data was found. -/
theorem payload_nonempty (H : HeapAlgorithms) (hH : H.Lawful) (text : List CChar)
    (hne : text ≠ []) :
    ∃ compressed tree stats, compressText H text = some (compressed, tree, stats) ∧
      1 ≤ compressed.length ∧ 1 ≤ (stringToBinaryData compressed).length ∧
      ∀ (fs : FileSystem) (options : CommandLineOptions) (outcome : EncodeOutcome)
        (archive : Archive), encodeFiles H fs options = some outcome →
        outcome.compressedText = some text → outcome.archive = some archive →
        archive.binaryData ≠ [] ∧
        ∀ (store : ArchiveStore) (options2 : CommandLineOptions) (inputFile : List CChar)
          (result : DecodeOutcome), options2.inputFiles.head? = some inputFile →
          store.readArchive inputFile = some archive →
          decodeArchive H store options2 = some result →
          result.message ≠ some DecodeMessage.noCompressedDataFound := by
  obtain ⟨t, stats, ht, hc, _, _⟩ := compressText_spec H hH text
  have hlen : 1 ≤ (encodeText text (generateCodes t [] [])).length := by
    cases text with
    | nil => exact absurd rfl hne
    | cons ch rest =>
      have hkey : ch ∈ (buildFrequencyTable (ch :: rest)).map Prod.fst :=
        (buildFrequencyTable_keys (ch :: rest) ch).mpr (List.mem_cons_self _ _)
      obtain ⟨e, he, hk⟩ := List.mem_map.mp hkey
      have hcov := codes_cover H hH _ t ht e he
      rw [hk] at hcov
      cases hf : mapFind (generateCodes t [] []) ch with
      | none => rw [hf] at hcov; cases hcov
      | some code =>
        have hmem := mem_of_mapFind _ _ _ hf
        have hcode : code ≠ [] := by
          rcases generateCodes_entries t [] [] (by intro x hx; cases hx) _ hmem with h | h
          · cases h
          · exact h.1
        rw [encodeText_cons, hf]
        simp only [List.length_append]
        have := List.length_pos.mpr hcode
        omega
  have hbytes : 1 ≤ (stringToBinaryData (encodeText text (generateCodes t [] []))).length := by
    rw [stringToBinaryData_length]
    omega
  refine ⟨_, t, stats, hc, hlen, hbytes, ?_⟩
  intro fs options outcome archive h htext ha
  obtain ⟨text2, compressed2, tree2, stats2, h1, h2, _, h4⟩ :=
    encodeFiles_archive H fs options outcome archive h ha
  rw [htext] at h1
  cases h1
  rw [hc] at h2
  cases h2
  have hdata : archive.binaryData ≠ [] := by
    intro e
    rw [h4] at e
    rw [e] at hbytes
    simp at hbytes
  refine ⟨hdata, ?_⟩
  intro store options2 inputFile result hin hopen hdec
  have hemp : archive.binaryData.isEmpty = false := by
    cases hb : archive.binaryData with
    | nil => exact absurd hb hdata
    | cons _ _ => rfl
  simp only [decodeArchive, hin, hopen, hemp, Bool.false_eq_true, if_false] at hdec
  cases hb : buildHuffmanTree H (readFrequencyTable archive.frequencies) with
  | none => rw [hb] at hdec; cases hdec
  | some tree =>
    rw [hb] at hdec
    simp only at hdec
    by_cases hn : tree.isNull = true
    · rw [if_pos hn] at hdec
      cases hdec
      simp
    · rw [if_neg hn] at hdec
      split at hdec
      · cases hdec
      · cases hdec
        exact restoreFiles_message _ _ _ _ _

/-- Witness for C38: the text `"aaabbc"` with the reference heap algorithms. -/
theorem payload_nonempty_witness :
    ∃ compressed tree stats,
      compressText sortingHeap (ofString "aaabbc") = some (compressed, tree, stats) ∧
      1 ≤ compressed.length ∧ 1 ≤ (stringToBinaryData compressed).length ∧
      ∀ (fs : FileSystem) (options : CommandLineOptions) (outcome : EncodeOutcome)
        (archive : Archive), encodeFiles sortingHeap fs options = some outcome →
        outcome.compressedText = some (ofString "aaabbc") → outcome.archive = some archive →
        archive.binaryData ≠ [] ∧
        ∀ (store : ArchiveStore) (options2 : CommandLineOptions) (inputFile : List CChar)
          (result : DecodeOutcome), options2.inputFiles.head? = some inputFile →
          store.readArchive inputFile = some archive →
          decodeArchive sortingHeap store options2 = some result →
          result.message ≠ some DecodeMessage.noCompressedDataFound :=
  payload_nonempty sortingHeap sortingHeap_lawful (ofString "aaabbc") (by decide)

/-! ## Claim C32: counting and concatenation -/

/-- Counterexample to C32 as stated: for two buffers of `1073741824` copies of
the byte `'a'` each, the table of either is `{a: 1073741824}` and the sum of the
counts on the key `'a'` is `2147483648`, but the table of the concatenation
holds the `int` that this count wraps to, `{a: -2147483648}`. -/
theorem frequency_counting_wraps :
    buildFrequencyTable (List.replicate 1073741824 (97 : CChar)) = [(97, 1073741824)] ∧
    combineTables (buildFrequencyTable (List.replicate 1073741824 (97 : CChar)))
      (buildFrequencyTable (List.replicate 1073741824 (97 : CChar))) = [(97, 2147483648)] ∧
    buildFrequencyTable
      (List.replicate 1073741824 (97 : CChar) ++ List.replicate 1073741824 (97 : CChar)) =
      [(97, -2147483648)] ∧
    buildFrequencyTable
      (List.replicate 1073741824 (97 : CChar) ++ List.replicate 1073741824 (97 : CChar)) ≠
    combineTables (buildFrequencyTable (List.replicate 1073741824 (97 : CChar)))
      (buildFrequencyTable (List.replicate 1073741824 (97 : CChar))) := by
  have hA : buildFrequencyTable (List.replicate 1073741824 (97 : CChar)) =
      [(97, 1073741824)] := by
    rw [buildFrequencyTable_replicate 97 1073741824 (by decide)]
    decide
  have hAB : buildFrequencyTable
      (List.replicate 1073741824 (97 : CChar) ++ List.replicate 1073741824 (97 : CChar)) =
      [(97, -2147483648)] := by
    rw [← List.replicate_add, buildFrequencyTable_replicate 97 _ (by decide)]
    decide
  rw [hA, hAB]
  exact ⟨rfl, by decide, rfl, by decide⟩

/-- C32, amended: the frequency table of a concatenation of two buffers that has
at most `2147483647` bytes, the greatest `int`, is the combination of their
frequency tables, in which the count of a key is the sum of its counts in the
two tables, an absent key counting as 0; and on tables (key-ordered, as every
`std::map` is) the combination is commutative and associative. -/
theorem frequency_counting_homomorphism :
    (∀ A B : List CChar, A.length + B.length ≤ 2147483647 →
      buildFrequencyTable (A ++ B) =
        combineTables (buildFrequencyTable A) (buildFrequencyTable B)) ∧
    (∀ (m1 m2 : CMap Int) (k : CChar), IsMap m1 → IsMap m2 →
      mapFind (combineTables m1 m2) k = sumCounts (mapFind m1 k) (mapFind m2 k)) ∧
    (∀ m1 m2 : CMap Int, IsMap m1 → IsMap m2 → IsMap (combineTables m1 m2)) ∧
    (∀ m1 m2 : CMap Int, IsMap m1 → IsMap m2 →
      combineTables m1 m2 = combineTables m2 m1) ∧
    (∀ m1 m2 m3 : CMap Int, IsMap m1 → IsMap m2 → IsMap m3 →
      combineTables (combineTables m1 m2) m3 = combineTables m1 (combineTables m2 m3)) ∧
    (∀ A B C : List CChar,
      combineTables (buildFrequencyTable A) (buildFrequencyTable B) =
        combineTables (buildFrequencyTable B) (buildFrequencyTable A) ∧
      combineTables (combineTables (buildFrequencyTable A) (buildFrequencyTable B))
          (buildFrequencyTable C) =
        combineTables (buildFrequencyTable A)
          (combineTables (buildFrequencyTable B) (buildFrequencyTable C))) ∧
    buildFrequencyTable (ofString "ab" ++ ofString "bc") = [(97, 1), (98, 2), (99, 1)] ∧
    combineTables (buildFrequencyTable (ofString "ab")) (buildFrequencyTable (ofString "bc")) =
      [(97, 1), (98, 2), (99, 1)] := by
  refine ⟨buildFrequencyTable_append, ?_, ?_, combineTables_comm, combineTables_assoc, ?_,
    by decide, by decide⟩
  · intro m1 m2 k h1 h2
    exact (combineTables_spec m2 m1 h1 h2).2 k
  · intro m1 m2 h1 h2
    exact (combineTables_spec m2 m1 h1 h2).1
  · intro A B C
    exact ⟨combineTables_comm _ _ (buildFrequencyTable_isMap A) (buildFrequencyTable_isMap B),
      combineTables_assoc _ _ _ (buildFrequencyTable_isMap A) (buildFrequencyTable_isMap B)
        (buildFrequencyTable_isMap C)⟩

/-- Witness for C32: the buffers `"ab"` and `"bc"`. -/
theorem frequency_counting_homomorphism_witness :
    (ofString "ab").length + (ofString "bc").length ≤ 2147483647 ∧
    buildFrequencyTable (ofString "ab" ++ ofString "bc") =
      combineTables (buildFrequencyTable (ofString "ab")) (buildFrequencyTable (ofString "bc")) :=
  ⟨by decide, frequency_counting_homomorphism.1 (ofString "ab") (ofString "bc") (by decide)⟩

/-! ## Claim C36: code length against frequency -/

/-- Counterexample to C36 as stated: in the table
`{a: 1500000000, b: 1500000001, c: 1500000002, d: 1500000003, e: 300000000}` of
positive counts the `int` sum of `b` and `c` wraps to `-1294967293`; the
generated codes are `a: 11`, `b: 000`, `c: 001`, `d: 01`, `e: 10`, so `b`, with
the greater count, has a longer code than `a`. -/
theorem code_length_not_antitone_wrapped :
    IsMap [((97 : CChar), (1500000000 : Int)), (98, 1500000001), (99, 1500000002),
      (100, 1500000003), (101, 300000000)] ∧
    (∀ e ∈ ([(97, 1500000000), (98, 1500000001), (99, 1500000002), (100, 1500000003),
      (101, 300000000)] : CMap Int), 0 < e.2) ∧
    buildHuffmanTree sortingHeap
        [(97, 1500000000), (98, 1500000001), (99, 1500000002), (100, 1500000003),
          (101, 300000000)] =
      some (node 0 2005032710
        (node 0 205032710
          (node 0 (-1294967293) (node 98 1500000001 nullptr nullptr)
            (node 99 1500000002 nullptr nullptr))
          (node 100 1500000003 nullptr nullptr))
        (node 0 1800000000 (node 101 300000000 nullptr nullptr)
          (node 97 1500000000 nullptr nullptr))) ∧
    ¬ ∃ t, buildHuffmanTree sortingHeap
        [(97, 1500000000), (98, 1500000001), (99, 1500000002), (100, 1500000003),
          (101, 300000000)] = some t ∧
      ∀ (a b : CChar) (fa fb : Int),
        (a, fa) ∈ ([(97, 1500000000), (98, 1500000001), (99, 1500000002), (100, 1500000003),
          (101, 300000000)] : CMap Int) →
        (b, fb) ∈ ([(97, 1500000000), (98, 1500000001), (99, 1500000002), (100, 1500000003),
          (101, 300000000)] : CMap Int) →
        fb < fa →
        ∃ ca cb, mapFind (generateCodes t [] []) a = some ca ∧
          mapFind (generateCodes t [] []) b = some cb ∧ ca.length ≤ cb.length := by
  have ht : buildHuffmanTree sortingHeap
      [(97, 1500000000), (98, 1500000001), (99, 1500000002), (100, 1500000003),
        (101, 300000000)] =
      some (node 0 2005032710
        (node 0 205032710
          (node 0 (-1294967293) (node 98 1500000001 nullptr nullptr)
            (node 99 1500000002 nullptr nullptr))
          (node 100 1500000003 nullptr nullptr))
        (node 0 1800000000 (node 101 300000000 nullptr nullptr)
          (node 97 1500000000 nullptr nullptr))) := by decide
  refine ⟨by decide, by decide, ht, ?_⟩
  rintro ⟨t, h, hall⟩
  obtain ⟨ca, cb, ha, hb, hle⟩ := hall 98 97 1500000001 1500000000 (by decide) (by decide)
    (by decide)
  rw [ht] at h
  cases h
  have hca : mapFind (generateCodes (node 0 2005032710
        (node 0 205032710
          (node 0 (-1294967293) (node 98 1500000001 nullptr nullptr)
            (node 99 1500000002 nullptr nullptr))
          (node 100 1500000003 nullptr nullptr))
        (node 0 1800000000 (node 101 300000000 nullptr nullptr)
          (node 97 1500000000 nullptr nullptr))) [] []) 98 = some [chr0, chr0, chr0] := by
    decide
  have hcb : mapFind (generateCodes (node 0 2005032710
        (node 0 205032710
          (node 0 (-1294967293) (node 98 1500000001 nullptr nullptr)
            (node 99 1500000002 nullptr nullptr))
          (node 100 1500000003 nullptr nullptr))
        (node 0 1800000000 (node 101 300000000 nullptr nullptr)
          (node 97 1500000000 nullptr nullptr))) [] []) 97 = some [chr1, chr1] := by
    decide
  rw [hca] at ha
  rw [hcb] at hb
  cases ha
  cases hb
  revert hle
  decide

/-- C36, amended: for a frequency table with positive counts that sum to at
most `2147483647`, the greatest `int`, whatever heap algorithms order the
queue, two keys `a` and `b` of the table whose counts satisfy
`freq(a) > freq(b)` have codes in the generated table with
`|code(a)| <= |code(b)|`. -/
theorem code_length_antitone (H : HeapAlgorithms) (hH : H.Lawful) (frequencies : CMap Int)
    (hmap : IsMap frequencies) (hpos : ∀ e ∈ frequencies, 0 < e.2)
    (hbound : (frequencies.map Prod.snd).sum ≤ 2147483647) :
    ∃ t, buildHuffmanTree H frequencies = some t ∧
      ∀ (a b : CChar) (fa fb : Int), (a, fa) ∈ frequencies → (b, fb) ∈ frequencies →
        fb < fa →
        ∃ ca cb, mapFind (generateCodes t [] []) a = some ca ∧
          mapFind (generateCodes t [] []) b = some cb ∧ ca.length ≤ cb.length := by
  obtain ⟨t, ht⟩ := buildHuffmanTree_isSome H hH frequencies
  refine ⟨t, ht, ?_⟩
  intro a b fa fb ha hb hlt
  have hle := codeLength_antitone H hH frequencies hmap hpos hbound t ht a b fa fb ha hb hlt
  have hca := codes_cover H hH frequencies t ht (a, fa) ha
  have hcb := codes_cover H hH frequencies t ht (b, fb) hb
  cases hfa : mapFind (generateCodes t [] []) a with
  | none => rw [hfa] at hca; cases hca
  | some ca =>
    cases hfb : mapFind (generateCodes t [] []) b with
    | none => rw [hfb] at hcb; cases hcb
    | some cb =>
      refine ⟨ca, cb, rfl, rfl, ?_⟩
      simpa [codeLength, hfa, hfb] using hle

/-- Witness for C36: the table of `"aaabbc"` with the reference heap algorithms. -/
theorem code_length_antitone_witness :
    (([(97, 3), (98, 2), (99, 1)] : CMap Int).map Prod.snd).sum ≤ 2147483647 ∧
    ∃ t, buildHuffmanTree sortingHeap [(97, 3), (98, 2), (99, 1)] = some t ∧
      ∀ (a b : CChar) (fa fb : Int), (a, fa) ∈ ([(97, 3), (98, 2), (99, 1)] : CMap Int) →
        (b, fb) ∈ ([(97, 3), (98, 2), (99, 1)] : CMap Int) → fb < fa →
        ∃ ca cb, mapFind (generateCodes t [] []) a = some ca ∧
          mapFind (generateCodes t [] []) b = some cb ∧ ca.length ≤ cb.length :=
  ⟨by decide,
    code_length_antitone sortingHeap sortingHeap_lawful [(97, 3), (98, 2), (99, 1)]
      (by decide) (by decide) (by decide)⟩

end Huffman
